import Mathlib

/-!
Shallow embedding of `event_scheduler/scheduler.py` (jikamens/event_scheduler).

The mutable Python object graph is flattened into an explicit `Sched` state:

* `Attendee` objects become values in `Sched.attendees` (insertion order of the
  Python dict); the dict key `"{org} - {name}"` is `Attendee.idStr`.
* `Session` objects are identified by their `(topic, time_slot)` pair
  (`SessionKey`) — sessions are unique per such pair because a topic may not
  list a time slot twice and topic names are unique.  Each session's mutable
  attendee list lives in a `SessionRec` in `Sched.sessions` (construction
  order: per-topic order as handed to `add_topic`).
* `Preference.assignment` holds an optional `Assignment` (session key +
  immutable flag), exactly as in the source.
* The checkpoint stack `Scheduler.history` is a list of frames; the Python
  list's end (`history[-1]`) is the HEAD of the Lean list.  The bound
  callables recorded as inverse actions become the `Action` datatype
  (`partial(self.unassign, a, s, force=True)` ↦ `Action.unassignForce`,
  `partial(self._assign, a, s, immutable)` ↦ `Action.reassign`).

Operations return `Except (Err × Sched) α`: a raised Python exception is an
`.error (e, state-at-raise)`.  Every primitive in the source performs all of
its checks before mutating, so each raise site returns the input state.
-/

namespace EventScheduler

/-- Exceptions raised by the scheduler.  The Python code raises dedicated
classes for some and bare `Exception` for others; bare raises are
distinguished here by raise site. -/
inductive Err where
  | slotConflict      -- `SlotConflictError` in `_assign`
  | noMoreSpace       -- `NoMoreSpaceError` in `_assign`
  | assertFailed      -- the `assert len(session.attendees) <= session.capacity`
  | notAsked          -- `Exception('... has not asked for topic ...')` in `_assign`
  | alreadyAttending  -- `Exception('... is already attending topic ...')` in `_assign`
  | notBooked         -- `Exception('... is not booked for ...')` in `unassign`
  | requiredToAttend  -- `Exception('... is required to attend ...')` in `unassign`
  | emptyHistory      -- `IndexError` from `self.history[-1]` on an empty stack
  | nameMismatch      -- `AssertionError` in `commit` / `rollback`
  | scheduleFailure   -- `ScheduleFailureError` in `schedule`
  | attributeError    -- `AttributeError` in `clear_schedule` (dict keys are strings)
  | stopIteration     -- `StopIteration` from `max_assigned_preference` with no assignment
  | maxEmpty          -- `ValueError` from `max()` over an empty sequence in `schedule`
  | indexError        -- `IndexError` from `assigned_preferences[0]` in `swap`
  | unknownRef        -- modelling artefact: a referenced attendee/session is absent
  | fuelExhausted     -- modelling artefact: bound on the fill-phase `while` loop
deriving DecidableEq, Repr

/-- Identity of a `Session` object: "this Topic, in this TimeSlot". -/
structure SessionKey where
  topic : String
  slot : String
deriving DecidableEq, Repr

/-- Python `Assignment(session, immutable)`. -/
structure Assignment where
  session : SessionKey
  immutable : Bool
deriving DecidableEq, Repr

/-- Python `Preference`: topic plus optional assignment. -/
structure Preference where
  topic : String
  assignment : Option Assignment
deriving DecidableEq, Repr

/-- Python `Preference.assigned` property: `assignment is not None`. -/
def Preference.assigned (p : Preference) : Bool := p.assignment.isSome

/-- Python `Attendee`: name, organization, ordered preference list. -/
structure Attendee where
  name : String
  organization : String
  preferences : List Preference
deriving DecidableEq, Repr

/-- Python `Attendee.__str__`: the dictionary key `"{org} - {name}"`. -/
def Attendee.idStr (a : Attendee) : String := a.organization ++ " - " ++ a.name

/-- Python `Attendee.num_assignments` property. -/
def Attendee.num_assignments (a : Attendee) : Nat :=
  (a.preferences.filter (fun p => p.assignment.isSome)).length

/-- Python `Attendee.score` property: sum of the indexes of all assigned preferences. -/
def Attendee.score (a : Attendee) : Nat :=
  ((a.preferences.enum.filter (fun ip => ip.2.assignment.isSome)).map (fun ip => ip.1)).sum

/-- Python `Attendee.max_assigned_preference` property: the highest assigned index.
`next(i for i in range(len-1, -1, -1) if assigned)` yields the last assigned
index, i.e. the last element of the increasing list of assigned indexes;
`none` models the `StopIteration` case (no assignment at all). -/
def Attendee.max_assigned_preference (a : Attendee) : Option Nat :=
  ((a.preferences.enum.filter (fun ip => ip.2.assignment.isSome)).map (fun ip => ip.1)).getLast?

/-- A `Session` object together with its mutable attendee list
(`session.attendees` is a Python list of attendee objects; we store their
identity strings). -/
structure SessionRec where
  topic : String
  slot : String
  capacity : Nat
  attendees : List String
deriving DecidableEq, Repr

/-- The session's identity pair. -/
def SessionRec.key (r : SessionRec) : SessionKey := ⟨r.topic, r.slot⟩

/-- Inverse actions recorded in checkpoint frames.  The source records bound
callables; `reassign a sk imm` is `partial(self._assign, attendee, session,
immutable)` and `unassignForce a sk` is `partial(self.unassign, attendee,
session, force=True)`. -/
inductive Action where
  | reassign (aid : String) (sk : SessionKey) (immutable : Bool)
  | unassignForce (aid : String) (sk : SessionKey)
deriving DecidableEq, Repr

/-- A checkpoint frame `[name, action, action, ...]`. -/
abbrev Frame := String × List Action

/-- The whole scheduler state.  `history`: head = most recent frame
(`self.history[-1]`). -/
structure Sched where
  attendees : List Attendee
  time_slots : List String
  sessions : List SessionRec
  history : List Frame
deriving DecidableEq, Repr

abbrev ResS := Except (Err × Sched) Sched
abbrev ResB := Except (Err × Sched) (Bool × Sched)

/-- Look up an attendee by identity string (dict access). -/
def Sched.findAttendee? (s : Sched) (aid : String) : Option Attendee :=
  s.attendees.find? (fun a => decide (a.idStr = aid))

/-- Look up a session record by its identity pair. -/
def Sched.findSession? (s : Sched) (sk : SessionKey) : Option SessionRec :=
  s.sessions.find? (fun r => decide (r.key = sk))

/-- Overwrite the assignment of the first preference satisfying `sel`
(Python: mutate the preference object found by a `next(...)` search). -/
def setFirstPref (sel : Preference → Bool) (v : Option Assignment) :
    List Preference → List Preference
  | [] => []
  | p :: rest =>
    if sel p then { p with assignment := v } :: rest
    else p :: setFirstPref sel v rest

/-- Replace an attendee's preference list. -/
def Attendee.setPrefs (a : Attendee) (ps : List Preference) : Attendee :=
  { a with preferences := ps }

/-- Mutate the attendee with the given identity string. -/
def Sched.updAttendee (s : Sched) (aid : String) (f : Attendee → Attendee) : Sched :=
  { s with attendees := s.attendees.map (fun a => if a.idStr = aid then f a else a) }

/-- Mutate the attendee list of the session with the given identity pair. -/
def Sched.updSession (s : Sched) (sk : SessionKey) (f : List String → List String) : Sched :=
  { s with sessions :=
      s.sessions.map (fun r => if r.key = sk then { r with attendees := f r.attendees } else r) }

/-- Python `if self.history: self.history[-1].append(action)`. -/
def Sched.recordAction (s : Sched) (act : Action) : Sched :=
  match s.history with
  | [] => s
  | (nm, acts) :: rest => { s with history := (nm, acts ++ [act]) :: rest }

/-- Python `any(p.assignment for p in attendee.preferences if p.assignment is not None
and p.assignment.session.time_slot == session.time_slot)`. -/
def hasSlotAt (a : Attendee) (slot : String) : Bool :=
  a.preferences.any (fun p =>
    match p.assignment with
    | some g => decide (g.session.slot = slot)
    | none => false)

/-- Python `Scheduler._assign(attendee, session, immutable)` — the low-level
assignment primitive (named `assign_session` in the spec).  Checks, in source
order: slot conflict; the capacity assertion; capacity; a preference for the
session's topic exists (first match); that preference unassigned.  On success
creates the assignment, appends the attendee to the session list and records
the inverse action. -/
def Sched.assign_session (s : Sched) (aid : String) (sk : SessionKey)
    (immutable : Bool) : ResS :=
  match s.findAttendee? aid with
  | none => .error (.unknownRef, s)
  | some att =>
    if hasSlotAt att sk.slot then .error (.slotConflict, s)
    else match s.findSession? sk with
      | none => .error (.unknownRef, s)
      | some sess =>
        if sess.capacity < sess.attendees.length then .error (.assertFailed, s)
        else if sess.attendees.length = sess.capacity then .error (.noMoreSpace, s)
        else match att.preferences.find? (fun p => decide (p.topic = sk.topic)) with
          | none => .error (.notAsked, s)
          | some pref =>
            if pref.assigned then .error (.alreadyAttending, s)
            else
              let s1 := s.updAttendee aid (fun a =>
                a.setPrefs (setFirstPref (fun p => decide (p.topic = sk.topic))
                  (some ⟨sk, immutable⟩) a.preferences))
              let s2 := s1.updSession sk (fun l => l ++ [aid])
              .ok (s2.recordAction (.unassignForce aid sk))

/-- Selector used by `unassign`: `p.assignment is not None and
p.assignment.session == session` (returning the assignment). -/
def prefAssignedTo (sk : SessionKey) (p : Preference) : Option Assignment :=
  match p.assignment with
  | some g => if g.session = sk then some g else none
  | none => none

/-- Python `Scheduler.unassign(attendee, session, force)`.  Finds the first
preference assigned to `session` (else "not booked"); refuses an immutable
assignment without `force`; clears the preference, removes the attendee from
the session list (`[a for a in session.attendees if a != attendee]`), records
the inverse action preserving the original immutable flag. -/
def Sched.unassign (s : Sched) (aid : String) (sk : SessionKey) (force : Bool) : ResS :=
  match s.findAttendee? aid with
  | none => .error (.unknownRef, s)
  | some att =>
    match att.preferences.findSome? (prefAssignedTo sk) with
    | none => .error (.notBooked, s)
    | some g =>
      if g.immutable && !force then .error (.requiredToAttend, s)
      else
        let s1 := s.updAttendee aid (fun a =>
          a.setPrefs (setFirstPref (fun p => (prefAssignedTo sk p).isSome) none
            a.preferences))
        let s2 := s1.updSession sk (fun l => l.filter (fun x => decide (x ≠ aid)))
        .ok (s2.recordAction (.reassign aid sk g.immutable))

/-- Python `Scheduler.checkpoint(name)`: push a fresh frame. -/
def Sched.checkpoint (s : Sched) (name : String) : Sched :=
  { s with history := (name, []) :: s.history }

/-- Python `Scheduler.commit(name)`: the name must match the top frame; with a parent
frame the top frame's actions are appended (not executed) onto the parent,
otherwise the stack is simply emptied. -/
def Sched.commit (s : Sched) (name : String) : ResS :=
  match s.history with
  | [] => .error (.emptyHistory, s)
  | (nm, acts) :: rest =>
    if nm ≠ name then .error (.nameMismatch, s)
    else match rest with
      | [] => .ok { s with history := [] }
      | (pn, pacts) :: rest2 => .ok { s with history := (pn, pacts ++ acts) :: rest2 }

/-- Execute one recorded inverse action (calling back into the primitives,
exactly as the Python bound callables do). -/
def Sched.runAction (s : Sched) : Action → ResS
  | .reassign aid sk imm => s.assign_session aid sk imm
  | .unassignForce aid sk => s.unassign aid sk true

/-- Execute a list of actions left to right, threading the state. -/
def Sched.execActions (s : Sched) : List Action → ResS
  | [] => .ok s
  | a :: rest =>
    match s.runAction a with
    | .ok s' => s'.execActions rest
    | .error e => .error e

/-- Python `Scheduler.rollback(name)`: the name must match the top frame; execute the
recorded actions in reverse order of recording (over a snapshot of the frame,
`self.history[-1][1:]`), then pop the top frame.  While the actions run the
frame is still on the stack, so they append (junk) inverse actions onto it;
the pop discards those. -/
def Sched.rollback (s : Sched) (name : String) : ResS :=
  match s.history with
  | [] => .error (.emptyHistory, s)
  | (nm, acts) :: _ =>
    if nm ≠ name then .error (.nameMismatch, s)
    else match s.execActions acts.reverse with
      | .ok s' => .ok { s' with history := s'.history.drop 1 }
      | .error e => .error e

/-- Lexicographic code-point comparison of character lists (Python string
comparison). -/
def strLeAux : List Char → List Char → Bool
  | [], _ => true
  | _ :: _, [] => false
  | c :: cs, d :: ds =>
    if c.toNat < d.toNat then true
    else if d.toNat < c.toNat then false
    else strLeAux cs ds

/-- Python string `<=` (lexicographic by code point). -/
def strLe (a b : String) : Bool := strLeAux a.data b.data

/-- Stable insertion of `x` into a sorted list: before the first element it is
`le`-below-or-equal... `x` is placed before the first `y` with `le x y`;
used right-to-left this yields a stable sort (Python's `sorted`). -/
def insOrd (le : α → α → Bool) (x : α) : List α → List α
  | [] => [x]
  | y :: ys => if le x y then x :: y :: ys else y :: insOrd le x ys

/-- Stable sort by a boolean total preorder (models Python `sorted`/`.sort`,
which are stable). -/
def sortOn (le : α → α → Bool) : List α → List α
  | [] => []
  | x :: xs => insOrd le x (sortOn le xs)

/-- Python `self.topics[unicode(ptopic)].sessions`: the topic's sessions in
construction order. -/
def Sched.topicSessions (s : Sched) (topic : String) : List SessionRec :=
  s.sessions.filter (fun r => decide (r.topic = topic))

/-- Key for `sorted(sessions, key=lambda s: len(s.attendees))`. -/
def lenLe (r q : SessionRec) : Bool := decide (r.attendees.length ≤ q.attendees.length)

/-- The inner loop of `assign`: try `_assign` on each session in order,
swallowing `SlotConflictError` and `NoMoreSpaceError` (state unchanged on a
swallowed failure), propagating anything else. -/
def Sched.trySessions (s : Sched) (aid : String) (imm : Bool) : List SessionKey → ResB
  | [] => .ok (false, s)
  | sk :: rest =>
    match s.assign_session aid sk imm with
    | .ok s' => .ok (true, s')
    | .error (.slotConflict, _) => s.trySessions aid imm rest
    | .error (.noMoreSpace, _) => s.trySessions aid imm rest
    | .error e => .error e

/-- Python `topic is not None and topic != preference.topic`. -/
def topicMismatch (topic? : Option String) (p : Preference) : Bool :=
  match topic? with
  | some t => decide (t ≠ p.topic)
  | none => false

/-- The outer loop of `assign`: scan the preference list in rank order,
skipping assigned preferences and (when a topic is given) non-matching ones;
for an eligible preference try that topic's sessions sorted ascending by
current attendee count (stable, so construction order breaks ties). -/
def Sched.scanPrefs (s : Sched) (aid : String) (topic? : Option String)
    (imm : Bool) : List Preference → ResB
  | [] => .ok (false, s)
  | p :: rest =>
    if p.assigned then s.scanPrefs aid topic? imm rest
    else if topicMismatch topic? p then s.scanPrefs aid topic? imm rest
    else
      let ordered := sortOn lenLe (s.topicSessions p.topic)
      match s.trySessions aid imm (ordered.map SessionRec.key) with
      | .ok (true, s') => .ok (true, s')
      | .ok (false, _) => s.scanPrefs aid topic? imm rest
      | .error e => .error e

/-- Python `Scheduler.assign(attendee, topic=None, immutable=False) -> bool`. -/
def Sched.assign (s : Sched) (aid : String) (topic? : Option String)
    (imm : Bool) : ResB :=
  match s.findAttendee? aid with
  | none => .error (.unknownRef, s)
  | some att => s.scanPrefs aid topic? imm att.preferences

/-- Python `Scheduler.manually_assign(attendee, topic)`. -/
def Sched.manually_assign (s : Sched) (aid : String) (topic : String) : ResB :=
  s.assign aid (some topic) true

/-- Spec-side session loop, written from the claim's words: attempt the
low-level assignment on each candidate in order, swallowing `SlotConflict`
and `CapacityExceeded` and moving on; `true` at the first success, `false`
when the candidates run out. -/
def specTrySessions (s : Sched) (aid : String) (imm : Bool) :
    List SessionKey → ResB
  | [] => .ok (false, s)
  | sk :: rest =>
    match s.assign_session aid sk imm with
    | .ok s' => .ok (true, s')
    | .error (.slotConflict, _) => specTrySessions s aid imm rest
    | .error (.noMoreSpace, _) => specTrySessions s aid imm rest
    | .error e => .error e

/-- Spec-side candidate list, from the claim's words: the eligible
preferences in rank order (not already assigned, and matching the topic when
one is given), each contributing its topic's sessions in ascending order of
current attendee count (stable, so construction order breaks ties). -/
def specCandidates (s : Sched) (topic? : Option String) (att : Attendee) :
    List SessionKey :=
  (att.preferences.filter
      (fun p => !p.assigned && !topicMismatch topic? p)).flatMap
    (fun p => (sortOn lenLe (s.topicSessions p.topic)).map SessionRec.key)

/-- Spec-side `assign`, from the claim's words: the first eligible
preference/session combination on which the low-level assignment succeeds. -/
def assignSpec (s : Sched) (aid : String) (topic? : Option String)
    (imm : Bool) : ResB :=
  match s.findAttendee? aid with
  | none => .error (.unknownRef, s)
  | some att => specTrySessions s aid imm (specCandidates s topic? att)

/-- A user-level mutation performed inside a checkpoint: one call to the
public `assign` (boolean result discarded) or to `unassign`. -/
inductive UOp where
  | assignOp (aid : String) (topic? : Option String) (imm : Bool)
  | unassignOp (aid : String) (sk : SessionKey) (force : Bool)
deriving DecidableEq, Repr

/-- Run one user-level mutation, keeping only the state. -/
def Sched.runUOp (s : Sched) : UOp → ResS
  | .assignOp aid topic? imm =>
    match s.assign aid topic? imm with
    | .ok (_, s') => .ok s'
    | .error e => .error e
  | .unassignOp aid sk force => s.unassign aid sk force

/-- Run a sequence of user-level mutations left to right. -/
def Sched.runUOps (s : Sched) : List UOp → ResS
  | [] => .ok s
  | op :: rest =>
    match s.runUOp op with
    | .ok s' => s'.runUOps rest
    | .error e => .error e

/-- Donor sort key in `swap`: `key=lambda a: a.name` (the bare name, not the
identity string). -/
def nameLe (a b : Attendee) : Bool := strLe a.name b.name

/-- "a topic the unlucky user actually wants to attend and isn't already
attending". -/
def wantsTopicOpen (att : Attendee) (topic : String) : Bool :=
  att.preferences.any (fun p => decide (p.topic = topic) && !p.assigned)

/-- The candidate loop body of `swap` over one donor's assignments (worst to
best).  `aid` = unlucky attendee, `did` = donor.  Scores are read after the
two unassignments, before the reassignments, exactly as in the source. -/
def Sched.swapTryCands (aid did : String) (oldScore : Option Nat)
    (outerCp : Option String) : Sched → List Assignment → ResB
  | s, [] => .ok (false, s)
  | s, g :: rest =>
    if g.immutable then Sched.swapTryCands aid did oldScore outerCp s rest
    else match s.findAttendee? aid with
      | none => .error (.unknownRef, s)
      | some att =>
        if !(wantsTopicOpen att g.session.topic) then
          Sched.swapTryCands aid did oldScore outerCp s rest
        else if hasSlotAt att g.session.slot then
          Sched.swapTryCands aid did oldScore outerCp s rest
        else
          let s1 := s.checkpoint "swap inner"
          match s1.unassign did g.session false with
          | .error e => .error e
          | .ok s2 =>
            match s2.findAttendee? aid, s2.findAttendee? did with
            | some att2, some datt2 =>
              let newUnlucky := att2.score
              let newOther := datt2.score
              match s2.assign aid none false with
              | .error e => .error e
              | .ok (b1, s3) =>
                match (if b1 then s3.assign did none false else .ok (false, s3)) with
                | .error e => .error e
                | .ok (b2, s4) =>
                  if b1 && b2 &&
                      (match oldScore with
                       | none => true
                       | some old =>
                         decide (newUnlucky < old) && decide (newOther ≤ newUnlucky)) then
                    match s4.commit "swap inner" with
                    | .error e => .error e
                    | .ok s5 =>
                      match outerCp with
                      | some nm =>
                        match s5.commit nm with
                        | .error e => .error e
                        | .ok s6 => .ok (true, s6)
                      | none => .ok (true, s5)
                  else
                    match s4.rollback "swap inner" with
                    | .error e => .error e
                    | .ok s5 => Sched.swapTryCands aid did oldScore outerCp s5 rest
            | _, _ => .error (.unknownRef, s2)

/-- The donor loop of `swap`.  On exhaustion, roll back the outer checkpoint
(if one was opened) and return `false`. -/
def Sched.swapDonors (aid : String) (oldScore : Option Nat)
    (outerCp : Option String) : Sched → List String → ResB
  | s, [] =>
    match outerCp with
    | some nm =>
      match s.rollback nm with
      | .error e => .error e
      | .ok s' => .ok (false, s')
    | none => .ok (false, s)
  | s, d :: rest =>
    match s.findAttendee? d with
    | none => .error (.unknownRef, s)
    | some datt =>
      match Sched.swapTryCands aid d oldScore outerCp s
              (datt.preferences.reverse.filterMap (fun p => p.assignment)) with
      | .ok (true, s') => .ok (true, s')
      | .ok (false, s') => Sched.swapDonors aid oldScore outerCp s' rest
      | .error e => .error e

/-- Python `Scheduler.swap(attendee)`.  The Python code names its two checkpoints with
`str(random.random())`; the names are only ever compared against the same
frame at its own commit/rollback, so fixed fresh names are behaviourally
identical and are used here. -/
def Sched.swap (s : Sched) (aid : String) : ResB :=
  match s.findAttendee? aid with
  | none => .error (.unknownRef, s)
  | some att =>
    let donors := ((sortOn nameLe s.attendees).filter
        (fun a => decide (a.idStr ≠ aid))).map Attendee.idStr
    let assignedRev := att.preferences.reverse.filterMap (fun p => p.assignment)
    if assignedRev.length = s.time_slots.length then
      match assignedRev with
      | [] => .error (.indexError, s)
      | worst :: _ =>
        if worst.immutable then .ok (false, s)
        else
          let oldScore := att.score
          let s1 := s.checkpoint "swap outer"
          match s1.unassign aid worst.session false with
          | .error e => .error e
          | .ok s2 => Sched.swapDonors aid (some oldScore) (some "swap outer") s2 donors
    else
      Sched.swapDonors aid none none s donors

/-- Sum of the first `remaining` unassigned preference indexes
(`sum([i for i in range(len) if not assigned][0:remaining])`). -/
def Attendee.unassignedRanking (a : Attendee) (remaining : Nat) : Nat :=
  (((a.preferences.enum.filter (fun ip => !ip.2.assigned)).map (fun ip => ip.1)).take
    remaining).sum

/-- Lexicographic comparison for the time-slot phase sort key. -/
def lex3Le (x y : Nat × Int × String) : Bool :=
  decide (x.1 < y.1) ||
  (decide (x.1 = y.1) &&
    (decide (x.2.1 < y.2.1) || (decide (x.2.1 = y.2.1) && strLe x.2.2 y.2.2)))

/-- One iteration over the sorted attendee list in a time-slot-phase pass:
update the fairness counter, skip full or exhausted attendees, otherwise call
`assign` (ignoring its boolean result). -/
def Sched.phase1Go (n : Nat) : Sched → (String → Int) → Nat → List String →
    Except (Err × Sched) (Sched × (String → Int))
  | s, ro, _, [] => .ok (s, ro)
  | s, ro, i, aid :: rest =>
    let ro' := fun x => if x = aid then ro x - (i : Int) else ro x
    match s.findAttendee? aid with
    | none => .error (.unknownRef, s)
    | some att =>
      if att.num_assignments = n then Sched.phase1Go n s ro' (i + 1) rest
      else if att.num_assignments = att.preferences.length then
        Sched.phase1Go n s ro' (i + 1) rest
      else match s.assign aid none false with
        | .ok (_, s') => Sched.phase1Go n s' ro' (i + 1) rest
        | .error e => .error e

/-- One pass of the time-slot phase: sort ascending by
`(unassigned_rankings, run_order_rankings, str(a))`, then walk the list. -/
def Sched.phase1Pass (s : Sched) (n m : Nat) (ro : String → Int) :
    Except (Err × Sched) (Sched × (String → Int)) :=
  let remaining := n - m
  let sorted := (sortOn (fun a b =>
      lex3Le (a.unassignedRanking remaining, ro a.idStr, a.idStr)
             (b.unassignedRanking remaining, ro b.idStr, b.idStr)) s.attendees).map
    Attendee.idStr
  Sched.phase1Go n s ro 0 sorted

/-- The `for m in range(n)` loop of the time-slot phase; `k` counts the passes
still to run, so the current pass index is `m = n - k`. -/
def Sched.phase1Loop (n : Nat) : Nat → Sched → (String → Int) → ResS
  | 0, s, _ => .ok s
  | k + 1, s, ro =>
    match s.phase1Pass n (n - (k + 1)) ro with
    | .ok (s', ro') => Sched.phase1Loop n k s' ro'
    | .error e => .error e

/-- Fill-phase sort key: ascending `(num_assignments, str(a))`. -/
def fillLe (a b : Attendee) : Bool :=
  decide (a.num_assignments < b.num_assignments) ||
  (decide (a.num_assignments = b.num_assignments) && strLe a.idStr b.idStr)

/-- Python `min(n, len(attendee.preferences)) > num_assignments`. -/
def underFilled (n : Nat) (a : Attendee) : Bool :=
  decide (a.num_assignments < min n a.preferences.length)

/-- The body of one fill-phase pass.  Returns (changed, attendees on which
`swap` was invoked, final state).  Note the source executes `break` — not
`continue` — at the first attendee whose assignment count equals
`min(n, len(preferences))`. -/
def Sched.fillGo (n : Nat) : Sched → Bool → List String → List String →
    Except (Err × Sched) (Bool × List String × Sched)
  | s, changed, called, [] => .ok (changed, called, s)
  | s, changed, called, aid :: rest =>
    match s.findAttendee? aid with
    | none => .error (.unknownRef, s)
    | some att =>
      if att.num_assignments = min n att.preferences.length then
        .ok (changed, called, s)
      else match s.swap aid with
        | .ok (b, s') => Sched.fillGo n s' (changed || b) (called ++ [aid]) rest
        | .error e => .error e

/-- One fill-phase pass: sort ascending by `(num_assignments, str(a))`, then
walk the sorted list with the break semantics of `fillGo`. -/
def Sched.fillPass (s : Sched) (n : Nat) :
    Except (Err × Sched) (Bool × List String × Sched) :=
  Sched.fillGo n s false [] ((sortOn fillLe s.attendees).map Attendee.idStr)

/-- The fill-phase `while` loop (fuelled; the source loop has no intrinsic
bound).  Raises `ScheduleFailureError` when a full pass made no successful
swap. -/
def Sched.fillPhase (n : Nat) : Nat → Sched → ResS
  | 0, s => .error (.fuelExhausted, s)
  | fuel + 1, s =>
    if s.attendees.any (underFilled n) then
      match s.fillPass n with
      | .ok (changed, _, s') =>
        if changed then Sched.fillPhase n fuel s'
        else .error (.scheduleFailure, s')
      | .error e => .error e
    else .ok s

/-- Improve-phase sort key: descending `max_assigned_preference`, then
identity string.  (Only evaluated on states where every attendee has an
assignment; the raising case is handled before sorting.) -/
def improveLe (a b : Attendee) : Bool :=
  let ka : Int := -((a.max_assigned_preference.getD 0 : Nat) : Int)
  let kb : Int := -((b.max_assigned_preference.getD 0 : Nat) : Int)
  decide (ka < kb) || (decide (ka = kb) && strLe a.idStr b.idStr)

/-- Inner loop of one improve-phase cutoff iteration. -/
def Sched.improveInner (cutoff : Nat) : Sched → Bool → List String →
    Except (Err × Sched) (Bool × Sched)
  | s, changed, [] => .ok (changed, s)
  | s, changed, aid :: rest =>
    match s.findAttendee? aid with
    | none => .error (.unknownRef, s)
    | some att =>
      match att.max_assigned_preference with
      | none => .error (.stopIteration, s)
      | some mx =>
        if mx < cutoff then Sched.improveInner cutoff s changed rest
        else match s.swap aid with
          | .ok (b, s') => Sched.improveInner cutoff s' (changed || b) rest
          | .error e => .error e

/-- The improve phase: `for cutoff in range(max_preferences, n - 1, -1)`.
Evaluating the sort key raises `StopIteration` if some attendee has no
assignment; the early `break` fires when an iteration that examined attendees
made no successful swap. -/
def Sched.improveLoop (n : Nat) : List Nat → Sched → ResS
  | [], s => .ok s
  | cutoff :: rest, s =>
    if s.attendees.any (fun a => a.max_assigned_preference.isNone) then
      .error (.stopIteration, s)
    else if s.attendees.any (fun a => decide (a.max_assigned_preference = some cutoff)) then
      match Sched.improveInner cutoff s false
          ((sortOn improveLe s.attendees).map Attendee.idStr) with
      | .ok (changed, s') =>
        if changed then Sched.improveLoop n rest s' else .ok s'
      | .error e => .error e
    else Sched.improveLoop n rest s

/-- The descending cutoff list `range(max_preferences, n - 1, -1)`. -/
def cutoffs (maxPrefs n : Nat) : List Nat :=
  (List.range (maxPrefs + 1 - n)).map (fun k => maxPrefs - k)

/-- Python `max(len(a.preferences) for a in attendees)` (raises `ValueError` when
there are no attendees). -/
def listMax? : List Nat → Option Nat
  | [] => none
  | x :: xs =>
    some (match listMax? xs with
          | none => x
          | some m => max x m)

/-- Python `Scheduler.schedule()`: time-slot phase, fill phase, improve phase. -/
def Sched.schedule (s : Sched) (fuel : Nat) : ResS :=
  let n := s.time_slots.length
  match Sched.phase1Loop n n s (fun _ => 0) with
  | .error e => .error e
  | .ok s1 =>
    match Sched.fillPhase n fuel s1 with
    | .error e => .error e
    | .ok s2 =>
      match listMax? (s2.attendees.map (fun a => a.preferences.length)) with
      | none => .error (.maxEmpty, s2)
      | some maxPrefs => Sched.improveLoop n (cutoffs maxPrefs n) s2

/-- Python `Scheduler.clear_schedule(force)`.  The source iterates
`for attendee in self.attendees:` — over the DICTIONARY, which yields its
string keys — and immediately evaluates `attendee.preferences` on that
string, raising `AttributeError` before any unassign call.  With no
attendees the loop body never runs and the method returns normally. -/
def Sched.clear_schedule (s : Sched) (_force : Bool) : ResS :=
  if s.attendees.isEmpty then .ok s else .error (.attributeError, s)

/-! ## Decidability of result equality (used to evaluate concrete runs) -/

instance instDecEqExcept {ε α : Type} [DecidableEq ε] [DecidableEq α] :
    DecidableEq (Except ε α) := fun x y =>
  match x, y with
  | .ok a, .ok b =>
    match decEq a b with
    | isTrue h => isTrue (by rw [h])
    | isFalse h => isFalse (fun hh => h (by cases hh; rfl))
  | .error e, .error f =>
    match decEq e f with
    | isTrue h => isTrue (by rw [h])
    | isFalse h => isFalse (fun hh => h (by cases hh; rfl))
  | .ok _, .error _ => isFalse (fun h => Except.noConfusion h)
  | .error _, .ok _ => isFalse (fun h => Except.noConfusion h)

/-! ## Data-model predicates used in claim statements -/

/-- The attendee already holds an assignment in the given time slot. -/
def SlotBooked (a : Attendee) (slot : String) : Prop :=
  ∃ p ∈ a.preferences, ∃ g, p.assignment = some g ∧ g.session.slot = slot

/-- No double-booking: the assignments of every attendee occupy pairwise
distinct time slots. -/
def NoDouble (s : Sched) : Prop :=
  ∀ a ∈ s.attendees,
    (a.preferences.filterMap (fun p => p.assignment)).Pairwise
      (fun g₁ g₂ => g₁.session.slot ≠ g₂.session.slot)

/-- Attendee identity strings are pairwise distinct (the Python dict keys). -/
def UniqueIds (s : Sched) : Prop := (s.attendees.map Attendee.idStr).Nodup

instance (s : Sched) : Decidable (UniqueIds s) :=
  inferInstanceAs (Decidable ((s.attendees.map Attendee.idStr).Nodup))

instance (s : Sched) : Decidable (NoDouble s) :=
  inferInstanceAs (Decidable (∀ a ∈ s.attendees,
    (a.preferences.filterMap (fun p : Preference => p.assignment)).Pairwise
      (fun g₁ g₂ : Assignment => g₁.session.slot ≠ g₂.session.slot)))

/-- The preference of attendee `aid` at rank `i`. -/
def Sched.prefAt? (s : Sched) (aid : String) (i : Nat) : Option Preference :=
  (s.findAttendee? aid).bind (fun a => a.preferences.get? i)

/-! ## Concrete example states (used as counterexamples and witnesses) -/

/-- Bob ranks topic `X` (open) above topic `Y` (assigned at slot `S`). -/
def exBob : Attendee := ⟨"Bob", "O", [⟨"X", none⟩, ⟨"Y", some ⟨⟨"Y", "S"⟩, false⟩⟩]⟩

/-- Alice holds `Y` at slot `S` as her only preference. -/
def exAlice : Attendee := ⟨"Alice", "O", [⟨"Y", some ⟨⟨"Y", "S"⟩, false⟩⟩]⟩

/-- Carol holds `X` at slot `S` as her only preference. -/
def exCarol : Attendee := ⟨"Carol", "O", [⟨"X", some ⟨⟨"X", "S"⟩, false⟩⟩]⟩

/-- The capacity-1 session of topic `X` at slot `S`, full with Carol. -/
def exXS : SessionRec := ⟨"X", "S", 1, ["O - Carol"]⟩

/-- The capacity-2 session of topic `Y` at slot `S` holding Bob and Alice. -/
def exYS : SessionRec := ⟨"Y", "S", 2, ["O - Bob", "O - Alice"]⟩

/-- One time slot `S`; topic `X` with a capacity-1 session at `S` held by
Carol; topic `Y` with a capacity-2 session at `S` holding Bob and Alice.
Bob (the swap target) ranks `X` above his assigned `Y`; Alice holds `Y` as
her only preference. -/
def exSwapGain : Sched :=
  { attendees := [exBob, exAlice, exCarol],
    time_slots := ["S"],
    sessions := [exXS, exYS],
    history := [] }

/-- One time slot; one capacity-2 session of topic `X` holding Bob (mutable
assignment) and Carol (immutable assignment), Bob listed first. -/
def exSwapPerm : Sched :=
  { attendees :=
      [ ⟨"Bob", "O", [⟨"X", some ⟨⟨"X", "S"⟩, false⟩⟩]⟩,
        ⟨"Carol", "O", [⟨"X", some ⟨⟨"X", "S"⟩, true⟩⟩]⟩ ],
    time_slots := ["S"],
    sessions := [ ⟨"X", "S", 2, ["O - Bob", "O - Carol"]⟩ ],
    history := [] }

/-- Two time slots; attendee `A` has a single preference (assigned, so `A` is
full because `min(n, 1) = 1`), attendee `B` has two preferences with only the
second assigned (under-filled).  The fill-phase sort puts `A` before `B`. -/
def exFillBreak : Sched :=
  { attendees :=
      [ ⟨"A", "O", [⟨"TA", some ⟨⟨"TA", "S1"⟩, false⟩⟩]⟩,
        ⟨"B", "O", [⟨"TA", none⟩, ⟨"TB", some ⟨⟨"TB", "S2"⟩, false⟩⟩]⟩ ],
    time_slots := ["S1", "S2"],
    sessions :=
      [ ⟨"TA", "S1", 1, ["O - A"]⟩,
        ⟨"TB", "S2", 1, ["O - B"]⟩ ],
    history := [] }

/-- What `swap "O - Bob"` returns on `exSwapPerm`: the preferences are
restored exactly, but the failed attempt's rollback removed Bob from the
middle of the session's attendee list and re-appended him at the end. -/
def exSwapPermAfter : Sched :=
  { attendees :=
      [ ⟨"Bob", "O", [⟨"X", some ⟨⟨"X", "S"⟩, false⟩⟩]⟩,
        ⟨"Carol", "O", [⟨"X", some ⟨⟨"X", "S"⟩, true⟩⟩]⟩ ],
    time_slots := ["S"],
    sessions := [ ⟨"X", "S", 2, ["O - Carol", "O - Bob"]⟩ ],
    history := [] }

/-- Two time slots; attendee `D` ranks open topic `T` above an assigned
mutable topic `U`; an empty capacity-2 session of `T` at slot 1 and a
capacity-2 session of `U` at slot 2 holding `D`. -/
def exC2 : Sched :=
  { attendees := [⟨"D", "O", [⟨"T", none⟩, ⟨"U", some ⟨⟨"U", "2"⟩, false⟩⟩]⟩],
    time_slots := ["1", "2"],
    sessions := [⟨"T", "1", 2, []⟩, ⟨"U", "2", 2, ["O - D"]⟩],
    history := [] }

/-- The state after `checkpoint "cp"`, `assign D`, `unassign D U` on `exC2`:
both mutations took effect and the frame recorded both inverse actions. -/
def exC2run : Sched :=
  { attendees := [⟨"D", "O", [⟨"T", some ⟨⟨"T", "1"⟩, false⟩⟩, ⟨"U", none⟩]⟩],
    time_slots := ["1", "2"],
    sessions := [⟨"T", "1", 2, ["O - D"]⟩, ⟨"U", "2", 2, []⟩],
    history := [("cp",
      [Action.unassignForce "O - D" ⟨"T", "1"⟩,
       Action.reassign "O - D" ⟨"U", "2"⟩ false])] }

/-- The state after `checkpoint "A"` and `assign D` on `exC2`: `D` got topic
`T` at slot 1 and the frame recorded the inverse. -/
def exC2run2 : Sched :=
  { attendees := [⟨"D", "O",
      [⟨"T", some ⟨⟨"T", "1"⟩, false⟩⟩, ⟨"U", some ⟨⟨"U", "2"⟩, false⟩⟩]⟩],
    time_slots := ["1", "2"],
    sessions := [⟨"T", "1", 2, ["O - D"]⟩, ⟨"U", "2", 2, ["O - D"]⟩],
    history := [("A", [Action.unassignForce "O - D" ⟨"T", "1"⟩])] }

/-- The state after a further `checkpoint "B"` and `unassign D U` on
`exC2run2`. -/
def exC2run4 : Sched :=
  { attendees := [⟨"D", "O",
      [⟨"T", some ⟨⟨"T", "1"⟩, false⟩⟩, ⟨"U", none⟩]⟩],
    time_slots := ["1", "2"],
    sessions := [⟨"T", "1", 2, ["O - D"]⟩, ⟨"U", "2", 2, []⟩],
    history := [("B", [Action.reassign "O - D" ⟨"U", "2"⟩ false]),
                ("A", [Action.unassignForce "O - D" ⟨"T", "1"⟩])] }

/-- One time slot; Bob wants open topic `X`; Alice holds the only seat of
the capacity-1 `X` session with a mutable assignment. -/
def exC4 : Sched :=
  { attendees :=
      [ ⟨"Bob", "O", [⟨"X", none⟩]⟩,
        ⟨"Alice", "O", [⟨"X", some ⟨⟨"X", "S"⟩, false⟩⟩]⟩ ],
    time_slots := ["S"],
    sessions := [⟨"X", "S", 1, ["O - Alice"]⟩],
    history := [] }

/-- The state produced by a successful `_assign`. -/
def assignResult (s : Sched) (aid : String) (sk : SessionKey) (imm : Bool) : Sched :=
  ((s.updAttendee aid (fun a =>
      a.setPrefs (setFirstPref (fun p => decide (p.topic = sk.topic))
        (some ⟨sk, imm⟩) a.preferences))).updSession sk
    (fun l => l ++ [aid])).recordAction (.unassignForce aid sk)

/-- The state produced by a successful `unassign`. -/
def unassignResult (s : Sched) (aid : String) (sk : SessionKey) (imm0 : Bool) : Sched :=
  ((s.updAttendee aid (fun a =>
      a.setPrefs (setFirstPref (fun p => (prefAssignedTo sk p).isSome)
        none a.preferences))).updSession sk
    (fun l => l.filter (fun x => decide (x ≠ aid)))).recordAction (.reassign aid sk imm0)

/-- The invariant the no-double-booking claim is about, together with the
uniqueness of dictionary keys it relies on. -/
def Inv (s : Sched) : Prop := UniqueIds s ∧ NoDouble s

/-- For every attendee and every time slot, at most one preference holds an
assignment whose session sits in that slot. -/
def AtMostOnePerSlot (s : Sched) : Prop :=
  ∀ a ∈ s.attendees, ∀ slot : String,
    ((a.preferences.filterMap (fun p => p.assignment)).filter
      (fun g => decide (g.session.slot = slot))).length ≤ 1

instance optionDecBAll {α : Type} (p : α → Prop) [DecidablePred p] :
    (o : Option α) → Decidable (∀ a ∈ o, p a)
  | none => isTrue (by simp)
  | some x => decidable_of_iff (p x) (by simp)

instance optionDecBEx {α : Type} (p : α → Prop) [DecidablePred p] :
    (o : Option α) → Decidable (∃ a ∈ o, p a)
  | none => isFalse (by simp)
  | some x => decidable_of_iff (p x) (by simp)

/-- Well-formedness of a scheduler state: the referential invariants the
construction API establishes and every operation maintains. -/
structure WF (s : Sched) : Prop where
  ids : UniqueIds s
  keys : (s.sessions.map SessionRec.key).Nodup
  cap : ∀ r ∈ s.sessions, r.attendees.length ≤ r.capacity
  mnodup : ∀ r ∈ s.sessions, r.attendees.Nodup
  memberAssigned : ∀ r ∈ s.sessions, ∀ x ∈ r.attendees, ∃ a ∈ s.attendees,
    a.idStr = x ∧ ∃ p ∈ a.preferences, ∃ g ∈ p.assignment, g.session = r.key
  assignedMember : ∀ a ∈ s.attendees, ∀ p ∈ a.preferences, ∀ g ∈ p.assignment,
    ∀ r ∈ s.sessions, r.key = g.session → a.idStr ∈ r.attendees
  sessExists : ∀ a ∈ s.attendees, ∀ p ∈ a.preferences, ∀ g ∈ p.assignment,
    ∃ r ∈ s.sessions, r.key = g.session
  topicOk : ∀ a ∈ s.attendees, ∀ p ∈ a.preferences, ∀ g ∈ p.assignment,
    g.session.topic = p.topic
  firstOfTopic : ∀ a ∈ s.attendees, a.preferences.Pairwise
    (fun p q => q.assignment.isSome = true → p.topic ≠ q.topic)
  nd : NoDouble s

/-- Two session records agree except that their attendee lists may be
permutations of one another (equal as sets). -/
def SessEquiv (r q : SessionRec) : Prop :=
  r.topic = q.topic ∧ r.slot = q.slot ∧ r.capacity = q.capacity ∧
    r.attendees.Perm q.attendees

/-- Pointwise `SessEquiv` on session lists. -/
def SessListEquiv : List SessionRec → List SessionRec → Prop
  | [], [] => True
  | r :: rs, q :: qs => SessEquiv r q ∧ SessListEquiv rs qs
  | _, _ => False

/-- Equality of everything observable outside the transaction log, up to the
order of session attendee lists. -/
def CoreEquiv (s t : Sched) : Prop :=
  s.attendees = t.attendees ∧ s.time_slots = t.time_slots ∧
    SessListEquiv s.sessions t.sessions

/-- The second state's history equals the first's with extra actions appended
onto the top frame (and only there); with no frames, nothing was recorded. -/
def HistExt (s t : Sched) : Prop :=
  (s.history = [] ∧ t.history = []) ∨
  (∃ nm F G rest, s.history = (nm, F) :: rest ∧ t.history = (nm, F ++ G) :: rest)

/-- Executing `δ` in reverse from any well-formed state core-equivalent to
`u` succeeds and lands core-equivalent to `s0`, only appending junk actions
to the top history frame. -/
def Undoes (δ : List Action) (s0 u : Sched) : Prop :=
  ∀ t, WF t → CoreEquiv t u →
    ∃ t', t.execActions δ.reverse = .ok t' ∧ CoreEquiv t' s0 ∧ WF t' ∧
      HistExt t t'

/-- Every preference currently holding an immutable assignment is left
untouched (same attendee position, same rank, same full preference value). -/
def KeepsImm (s s' : Sched) : Prop :=
  ∀ x i p g, s.prefAt? x i = some p → p.assignment = some g →
    g.immutable = true → s'.prefAt? x i = some p

/-! ## Basic bridging lemmas -/

theorem hasSlotAt_iff {a : Attendee} {slot : String} :
    hasSlotAt a slot = true ↔ SlotBooked a slot := by
  simp only [hasSlotAt, List.any_eq_true, SlotBooked]
  constructor
  · rintro ⟨p, hp, hmatch⟩
    cases hg : p.assignment with
    | none => rw [hg] at hmatch; exact absurd hmatch (by simp)
    | some g =>
      rw [hg] at hmatch
      simp only [decide_eq_true_eq] at hmatch
      exact ⟨p, hp, g, hg, hmatch⟩
  · rintro ⟨p, hp, g, hg, hslot⟩
    exact ⟨p, hp, by rw [hg]; simpa using hslot⟩

theorem Attendee.setPrefs_idStr (a : Attendee) (ps : List Preference) :
    (a.setPrefs ps).idStr = a.idStr := rfl

/-! ## C10: clear_schedule -/

/-- C10: for every scheduler containing at least one attendee,
`clear_schedule(force)` raises before clearing anything and leaves the state
untouched (the loop iterates the attendee dictionary's keys — identity
strings — and dereferences `.preferences` on a string); with zero attendees
it returns without changing any state. -/
theorem C10_clear_schedule (s : Sched) (force : Bool) :
    (s.attendees ≠ [] → s.clear_schedule force = .error (.attributeError, s)) ∧
    (s.attendees = [] → s.clear_schedule force = .ok s) := by
  constructor <;> intro h <;>
    simp [Sched.clear_schedule, List.isEmpty_iff, h]

/-- C10 witness: a scheduler with one attendee raises `AttributeError` with
the state untouched, and the empty scheduler returns it unchanged. -/
theorem C10_clear_schedule_witness :
    exSwapPerm.clear_schedule false = .error (.attributeError, exSwapPerm) ∧
    Sched.clear_schedule ⟨[], [], [], []⟩ true = .ok ⟨[], [], [], []⟩ :=
  ⟨(C10_clear_schedule exSwapPerm false).1 (by decide),
   (C10_clear_schedule ⟨[], [], [], []⟩ true).2 rfl⟩

/-! ## C6: failure conditions of the low-level assignment primitive -/

/-! ## Characterization of successful primitive runs -/

theorem assign_session_ok {s s' : Sched} {aid : String} {sk : SessionKey} {imm : Bool}
    (hok : s.assign_session aid sk imm = .ok s') :
    ∃ att sess pref,
      s.findAttendee? aid = some att ∧
      hasSlotAt att sk.slot = false ∧
      s.findSession? sk = some sess ∧
      sess.attendees.length < sess.capacity ∧
      att.preferences.find? (fun p => decide (p.topic = sk.topic)) = some pref ∧
      pref.assigned = false ∧
      s' = assignResult s aid sk imm := by
  unfold Sched.assign_session at hok
  split at hok
  · exact absurd hok (by simp)
  next att hatt =>
    split at hok
    · exact absurd hok (by simp)
    next hslot =>
      split at hok
      · exact absurd hok (by simp)
      next sess hsess =>
        split at hok
        · exact absurd hok (by simp)
        next hlt =>
          split at hok
          · exact absurd hok (by simp)
          next hne =>
            split at hok
            · exact absurd hok (by simp)
            next pref hf =>
              split at hok
              · exact absurd hok (by simp)
              next hpa =>
                refine ⟨att, sess, pref, hatt, by simpa using hslot, hsess,
                  lt_of_le_of_ne (not_lt.mp hlt) (fun h => hne h), hf,
                  by simpa using hpa, ?_⟩
                injection hok with h
                exact h.symm

theorem unassign_ok {s s' : Sched} {aid : String} {sk : SessionKey} {force : Bool}
    (hok : s.unassign aid sk force = .ok s') :
    ∃ att g,
      s.findAttendee? aid = some att ∧
      att.preferences.findSome? (prefAssignedTo sk) = some g ∧
      (g.immutable = true → force = true) ∧
      s' = unassignResult s aid sk g.immutable := by
  unfold Sched.unassign at hok
  split at hok
  · exact absurd hok (by simp)
  next att hatt =>
    split at hok
    · exact absurd hok (by simp)
    next g hg =>
      split at hok
      · exact absurd hok (by simp)
      next himm =>
        refine ⟨att, g, hatt, hg, ?_, ?_⟩
        · intro hgi
          cases hforce : force with
          | true => rfl
          | false => exact absurd (by simp [hgi, hforce]) himm
        · injection hok with h
          exact h.symm

/-! ## Component-preservation simp lemmas -/

@[simp] theorem updAttendee_time_slots (s : Sched) (aid : String) (f : Attendee → Attendee) :
    (s.updAttendee aid f).time_slots = s.time_slots := rfl

@[simp] theorem updAttendee_sessions (s : Sched) (aid : String) (f : Attendee → Attendee) :
    (s.updAttendee aid f).sessions = s.sessions := rfl

@[simp] theorem updAttendee_history (s : Sched) (aid : String) (f : Attendee → Attendee) :
    (s.updAttendee aid f).history = s.history := rfl

@[simp] theorem updSession_attendees (s : Sched) (sk : SessionKey) (f : List String → List String) :
    (s.updSession sk f).attendees = s.attendees := rfl

@[simp] theorem updSession_time_slots (s : Sched) (sk : SessionKey) (f : List String → List String) :
    (s.updSession sk f).time_slots = s.time_slots := rfl

@[simp] theorem updSession_history (s : Sched) (sk : SessionKey) (f : List String → List String) :
    (s.updSession sk f).history = s.history := rfl

@[simp] theorem recordAction_attendees (s : Sched) (act : Action) :
    (s.recordAction act).attendees = s.attendees := by
  unfold Sched.recordAction
  split <;> rfl

@[simp] theorem recordAction_time_slots (s : Sched) (act : Action) :
    (s.recordAction act).time_slots = s.time_slots := by
  unfold Sched.recordAction
  split <;> rfl

@[simp] theorem recordAction_sessions (s : Sched) (act : Action) :
    (s.recordAction act).sessions = s.sessions := by
  unfold Sched.recordAction
  split <;> rfl

@[simp] theorem checkpoint_attendees (s : Sched) (nm : String) :
    (s.checkpoint nm).attendees = s.attendees := rfl

@[simp] theorem checkpoint_time_slots (s : Sched) (nm : String) :
    (s.checkpoint nm).time_slots = s.time_slots := rfl

@[simp] theorem checkpoint_sessions (s : Sched) (nm : String) :
    (s.checkpoint nm).sessions = s.sessions := rfl

theorem commit_ok_core {s s' : Sched} {nm : String} (h : s.commit nm = .ok s') :
    s'.attendees = s.attendees ∧ s'.time_slots = s.time_slots ∧
      s'.sessions = s.sessions := by
  unfold Sched.commit at h
  split at h
  · exact absurd h (by simp)
  next top rest name acts heq =>
    split at h
    · exact absurd h (by simp)
    · split at h <;> (injection h with h; exact h ▸ ⟨rfl, rfl, rfl⟩)

/-! ## setFirstPref and assignment-list lemmas -/

theorem filterMap_setFirstPref_none (sel : Preference → Bool) (ps : List Preference) :
    List.Sublist ((setFirstPref sel none ps).filterMap (fun p => p.assignment))
      (ps.filterMap (fun p => p.assignment)) := by
  induction ps with
  | nil => simp [setFirstPref]
  | cons p rest ih =>
    by_cases h : sel p = true
    · simp only [setFirstPref, if_pos h, List.filterMap_cons]
      cases p.assignment with
      | none => exact List.Sublist.refl _
      | some g => exact List.Sublist.cons g (List.Sublist.refl _)
    · simp only [setFirstPref, if_neg h, List.filterMap_cons]
      cases p.assignment with
      | none => exact ih
      | some g => exact List.Sublist.cons₂ g ih

theorem mem_filterMap_setFirstPref_some (sel : Preference → Bool) (v : Assignment)
    (ps : List Preference) :
    ∀ g ∈ (setFirstPref sel (some v) ps).filterMap (fun p => p.assignment),
      g = v ∨ g ∈ ps.filterMap (fun p => p.assignment) := by
  induction ps with
  | nil => simp [setFirstPref]
  | cons p rest ih =>
    intro g hg
    by_cases h : sel p = true
    · simp only [setFirstPref, if_pos h, List.filterMap_cons] at hg
      rcases List.mem_cons.mp hg with h1 | h1
      · exact Or.inl h1
      · right
        simp only [List.filterMap_cons]
        cases p.assignment with
        | none => exact h1
        | some g0 => exact List.mem_cons_of_mem _ h1
    · simp only [setFirstPref, if_neg h, List.filterMap_cons] at hg
      cases hp : p.assignment with
      | none =>
        rw [hp] at hg
        rcases ih g hg with h1 | h1
        · exact Or.inl h1
        · right
          simp only [List.filterMap_cons, hp]
          exact h1
      | some g0 =>
        rw [hp] at hg
        rcases List.mem_cons.mp hg with h1 | h1
        · right
          simp only [List.filterMap_cons, hp]
          exact h1 ▸ List.mem_cons_self _ _
        · rcases ih g h1 with h2 | h2
          · exact Or.inl h2
          · right
            simp only [List.filterMap_cons, hp]
            exact List.mem_cons_of_mem _ h2

theorem assigned_false_iff (p : Preference) :
    p.assigned = false ↔ p.assignment = none := by
  cases hp : p.assignment <;> simp [Preference.assigned, hp]

theorem hasSlotAt_false_iff {a : Attendee} {slot : String} :
    hasSlotAt a slot = false ↔
      ∀ g ∈ a.preferences.filterMap (fun p => p.assignment), g.session.slot ≠ slot := by
  have h1 : hasSlotAt a slot = false ↔ ¬ SlotBooked a slot := by
    rw [← hasSlotAt_iff]
    cases hasSlotAt a slot <;> simp
  rw [h1]
  constructor
  · intro h g hg he
    obtain ⟨p, hp, hpg⟩ := List.mem_filterMap.mp hg
    exact h ⟨p, hp, g, hpg, he⟩
  · intro h hsb
    obtain ⟨p, hp, g, hpg, he⟩ := hsb
    exact h g (List.mem_filterMap.mpr ⟨p, hp, hpg⟩) he

theorem pairwise_setFirstPref_some (sel : Preference → Bool) (v : Assignment)
    (ps : List Preference) (pref : Preference)
    (hfind : ps.find? sel = some pref) (hnone : pref.assignment = none)
    (hfresh : ∀ g ∈ ps.filterMap (fun p => p.assignment), g.session.slot ≠ v.session.slot)
    (hpw : (ps.filterMap (fun p => p.assignment)).Pairwise
      (fun g₁ g₂ => g₁.session.slot ≠ g₂.session.slot)) :
    ((setFirstPref sel (some v) ps).filterMap (fun p => p.assignment)).Pairwise
      (fun g₁ g₂ => g₁.session.slot ≠ g₂.session.slot) := by
  induction ps with
  | nil => simp [setFirstPref]
  | cons p rest ih =>
    by_cases h : sel p = true
    · rw [List.find?_cons_of_pos _ h] at hfind
      injection hfind with hp
      subst hp
      simp only [setFirstPref, if_pos h, List.filterMap_cons]
      refine List.Pairwise.cons ?_ ?_
      · intro g hg he
        exact hfresh g (by simp [List.filterMap_cons, hnone, hg]) he.symm
      · simpa [List.filterMap_cons, hnone] using hpw
    · rw [List.find?_cons_of_neg _ h] at hfind
      simp only [setFirstPref, if_neg h, List.filterMap_cons]
      cases hp : p.assignment with
      | none =>
        refine ih hfind ?_ ?_
        · intro g hg
          exact hfresh g (by simp [List.filterMap_cons, hp, hg])
        · simpa [List.filterMap_cons, hp] using hpw
      | some g0 =>
        have hpw' := by simpa only [List.filterMap_cons, hp] using hpw
        have hpwc := List.pairwise_cons.mp hpw'
        refine List.Pairwise.cons ?_ (ih hfind ?_ ?_)
        · intro g hg
          rcases mem_filterMap_setFirstPref_some sel v rest g hg with rfl | hmem
          · exact hfresh g0 (by simp [List.filterMap_cons, hp])
          · exact hpwc.1 g hmem
        · intro g hg
          refine hfresh g ?_
          simp only [List.filterMap_cons, hp]
          exact List.mem_cons_of_mem _ hg
        · exact hpwc.2

/-! ## Invariant: unique identities and no double-booking -/

theorem attendee_eq_of_id {s : Sched} {aid : String} {att : Attendee}
    (h : UniqueIds s) (hatt : s.findAttendee? aid = some att) :
    ∀ a ∈ s.attendees, a.idStr = aid → a = att := by
  intro a ha hid
  have hattmem : att ∈ s.attendees := List.mem_of_find?_eq_some hatt
  have hattid : att.idStr = aid := by simpa using List.find?_some hatt
  exact List.inj_on_of_nodup_map h ha hattmem (by rw [hid, hattid])

theorem mem_updAttendee {s : Sched} {aid : String} {f : Attendee → Attendee} {a' : Attendee}
    (h : a' ∈ (s.updAttendee aid f).attendees) :
    ∃ a ∈ s.attendees, a' = if a.idStr = aid then f a else a := by
  obtain ⟨a, ha, hfa⟩ := List.mem_map.mp h
  exact ⟨a, ha, hfa.symm⟩

theorem updAttendee_map_idStr (s : Sched) (aid : String) (f : Attendee → Attendee)
    (hf : ∀ a, (f a).idStr = a.idStr) :
    (s.updAttendee aid f).attendees.map Attendee.idStr =
      s.attendees.map Attendee.idStr := by
  show (s.attendees.map _).map Attendee.idStr = _
  rw [List.map_map]
  refine List.map_congr_left ?_
  intro a _
  by_cases hid : a.idStr = aid
  · simp [Function.comp, hid, hf]
  · simp [Function.comp, hid]

theorem inv_assign_session {s s' : Sched} {aid : String} {sk : SessionKey} {imm : Bool}
    (hinv : Inv s) (hok : s.assign_session aid sk imm = .ok s') : Inv s' := by
  obtain ⟨att, sess, pref, hatt, hslot, hsess, hcap, hf, hpa, rfl⟩ := assign_session_ok hok
  constructor
  · show UniqueIds _
    unfold UniqueIds assignResult
    rw [recordAction_attendees, updSession_attendees,
      updAttendee_map_idStr _ _ _ (fun a => Attendee.setPrefs_idStr a _)]
    exact hinv.1
  · intro a' ha'
    simp only [assignResult, recordAction_attendees, updSession_attendees] at ha'
    obtain ⟨a, ha, rfl⟩ := mem_updAttendee ha'
    by_cases hid : a.idStr = aid
    · rw [if_pos hid]
      have haeq : a = att := attendee_eq_of_id hinv.1 hatt a ha hid
      subst haeq
      show ((setFirstPref _ _ a.preferences).filterMap _).Pairwise _
      refine pairwise_setFirstPref_some _ _ _ pref hf
        (assigned_false_iff pref |>.mp hpa) ?_ (hinv.2 a ha)
      intro g hg
      exact hasSlotAt_false_iff.mp hslot g hg
    · rw [if_neg hid]
      exact hinv.2 a ha

theorem inv_unassign {s s' : Sched} {aid : String} {sk : SessionKey} {force : Bool}
    (hinv : Inv s) (hok : s.unassign aid sk force = .ok s') : Inv s' := by
  obtain ⟨att, g, hatt, hg, himm, rfl⟩ := unassign_ok hok
  constructor
  · show UniqueIds _
    unfold UniqueIds unassignResult
    rw [recordAction_attendees, updSession_attendees,
      updAttendee_map_idStr _ _ _ (fun a => Attendee.setPrefs_idStr a _)]
    exact hinv.1
  · intro a' ha'
    simp only [unassignResult, recordAction_attendees, updSession_attendees] at ha'
    obtain ⟨a, ha, rfl⟩ := mem_updAttendee ha'
    by_cases hid : a.idStr = aid
    · rw [if_pos hid]
      exact (hinv.2 a ha).sublist (filterMap_setFirstPref_none _ _)
    · rw [if_neg hid]
      exact hinv.2 a ha

theorem snd_eq_of_pair_eq {α β : Type} {x b : α} {y s' : β}
    (h : (x, y) = (b, s')) : s' = y := (congrArg Prod.snd h).symm

theorem fst_eq_of_pair_eq {α β : Type} {x b : α} {y s' : β}
    (h : (x, y) = (b, s')) : b = x := (congrArg Prod.fst h).symm

theorem thd_eq_of_triple_eq {α β γ : Type} {x b : α} {y c : β} {z s' : γ}
    (h : (x, y, z) = (b, c, s')) : s' = z := (congrArg (fun t => t.2.2) h).symm

theorem Inv.of_attendees_eq {s s' : Sched} (h : s'.attendees = s.attendees)
    (hinv : Inv s) : Inv s' := by
  constructor
  · unfold UniqueIds
    rw [h]
    exact hinv.1
  · intro a ha
    rw [h] at ha
    exact hinv.2 a ha

theorem inv_checkpoint {s : Sched} (nm : String) (hinv : Inv s) :
    Inv (s.checkpoint nm) :=
  hinv.of_attendees_eq rfl

theorem inv_commit {s s' : Sched} {nm : String} (hinv : Inv s)
    (h : s.commit nm = .ok s') : Inv s' :=
  hinv.of_attendees_eq (commit_ok_core h).1

theorem inv_runAction {s s' : Sched} {act : Action} (hinv : Inv s)
    (h : s.runAction act = .ok s') : Inv s' := by
  cases act with
  | reassign aid sk imm => exact inv_assign_session hinv h
  | unassignForce aid sk => exact inv_unassign hinv h

theorem inv_execActions {acts : List Action} :
    ∀ {s s' : Sched}, Inv s → s.execActions acts = .ok s' → Inv s' := by
  induction acts with
  | nil =>
    intro s s' hinv h
    simp only [Sched.execActions] at h
    injection h with h
    exact h ▸ hinv
  | cons a rest ih =>
    intro s s' hinv h
    simp only [Sched.execActions] at h
    split at h
    · next t ht => exact ih (inv_runAction hinv ht) h
    · exact absurd h (by simp)

theorem inv_rollback {s s' : Sched} {nm : String} (hinv : Inv s)
    (h : s.rollback nm = .ok s') : Inv s' := by
  unfold Sched.rollback at h
  split at h
  · exact absurd h (by simp)
  · split at h
    · exact absurd h (by simp)
    · split at h
      · rename_i t ht
        injection h with h
        refine Inv.of_attendees_eq ?_ (inv_execActions hinv ht)
        rw [← h]
      · exact absurd h (by simp)

theorem inv_trySessions {aid : String} {imm : Bool} {sks : List SessionKey} :
    ∀ {s s' : Sched} {b : Bool}, Inv s → s.trySessions aid imm sks = .ok (b, s') →
      Inv s' := by
  induction sks with
  | nil =>
    intro s s' b hinv h
    simp only [Sched.trySessions] at h
    injection h with h
    exact (snd_eq_of_pair_eq h) ▸ hinv
  | cons sk rest ih =>
    intro s s' b hinv h
    simp only [Sched.trySessions] at h
    split at h
    · next t ht =>
      injection h with h
      exact (snd_eq_of_pair_eq h) ▸ inv_assign_session hinv ht
    · exact ih hinv h
    · exact ih hinv h
    · exact absurd h (by simp)

theorem inv_scanPrefs {aid : String} {topic? : Option String} {imm : Bool}
    {ps : List Preference} :
    ∀ {s s' : Sched} {b : Bool}, Inv s → s.scanPrefs aid topic? imm ps = .ok (b, s') →
      Inv s' := by
  induction ps with
  | nil =>
    intro s s' b hinv h
    simp only [Sched.scanPrefs] at h
    injection h with h
    exact (snd_eq_of_pair_eq h) ▸ hinv
  | cons p rest ih =>
    intro s s' b hinv h
    simp only [Sched.scanPrefs] at h
    split at h
    · exact ih hinv h
    · split at h
      · exact ih hinv h
      · split at h
        · next t ht =>
          injection h with h
          exact (snd_eq_of_pair_eq h) ▸ inv_trySessions hinv ht
        · exact ih hinv h
        · exact absurd h (by simp)

theorem inv_assign {s s' : Sched} {aid : String} {topic? : Option String}
    {imm : Bool} {b : Bool} (hinv : Inv s)
    (h : s.assign aid topic? imm = .ok (b, s')) : Inv s' := by
  unfold Sched.assign at h
  split at h
  · exact absurd h (by simp)
  · exact inv_scanPrefs hinv h

theorem inv_swapTryCands {aid did : String} {oldScore : Option Nat}
    {outerCp : Option String} {cands : List Assignment} :
    ∀ {s s' : Sched} {b : Bool}, Inv s →
      Sched.swapTryCands aid did oldScore outerCp s cands = .ok (b, s') → Inv s' := by
  induction cands with
  | nil =>
    intro s s' b hinv h
    simp only [Sched.swapTryCands] at h
    injection h with h
    exact (snd_eq_of_pair_eq h) ▸ hinv
  | cons g rest ih =>
    intro s s' b hinv h
    simp only [Sched.swapTryCands] at h
    split at h
    · exact ih hinv h
    · split at h
      · exact absurd h (by simp)
      · split at h
        · exact ih hinv h
        · split at h
          · exact ih hinv h
          · split at h
            · exact absurd h (by simp)
            next s2 hs2 =>
              have hinv2 : Inv s2 := inv_unassign (inv_checkpoint _ hinv) hs2
              split at h
              · split at h
                · exact absurd h (by simp)
                next b1 s3 hs3 =>
                  have hinv3 : Inv s3 := inv_assign hinv2 hs3
                  split at h
                  · exact absurd h (by simp)
                  next b2 s4 hs4 =>
                    have hinv4 : Inv s4 := by
                      by_cases hb1 : b1 = true
                      · rw [if_pos hb1] at hs4
                        exact inv_assign hinv3 hs4
                      · rw [if_neg hb1] at hs4
                        injection hs4 with hs4
                        exact (snd_eq_of_pair_eq hs4) ▸ hinv3
                    split at h
                    · split at h
                      · exact absurd h (by simp)
                      next s5 hs5 =>
                        have hinv5 : Inv s5 := inv_commit hinv4 hs5
                        split at h
                        · split at h
                          · exact absurd h (by simp)
                          next s6 hs6 =>
                            injection h with h
                            exact (snd_eq_of_pair_eq h) ▸ inv_commit hinv5 hs6
                        · injection h with h
                          exact (snd_eq_of_pair_eq h) ▸ hinv5
                    · split at h
                      · exact absurd h (by simp)
                      next s5 hs5 =>
                        exact ih (inv_rollback hinv4 hs5) h
              · exact absurd h (by simp)

theorem inv_swapDonors {aid : String} {oldScore : Option Nat}
    {outerCp : Option String} {donors : List String} :
    ∀ {s s' : Sched} {b : Bool}, Inv s →
      Sched.swapDonors aid oldScore outerCp s donors = .ok (b, s') → Inv s' := by
  induction donors with
  | nil =>
    intro s s' b hinv h
    simp only [Sched.swapDonors] at h
    split at h
    · split at h
      · exact absurd h (by simp)
      next t ht =>
        injection h with h
        exact (snd_eq_of_pair_eq h) ▸ inv_rollback hinv ht
    · injection h with h
      exact (snd_eq_of_pair_eq h) ▸ hinv
  | cons d rest ih =>
    intro s s' b hinv h
    simp only [Sched.swapDonors] at h
    split at h
    · exact absurd h (by simp)
    · split at h
      · next t ht =>
        injection h with h
        exact (snd_eq_of_pair_eq h) ▸ inv_swapTryCands hinv ht
      · next t ht => exact ih (inv_swapTryCands hinv ht) h
      · exact absurd h (by simp)

theorem inv_swap {s s' : Sched} {aid : String} {b : Bool} (hinv : Inv s)
    (h : s.swap aid = .ok (b, s')) : Inv s' := by
  simp only [Sched.swap] at h
  split at h
  · exact absurd h (by simp)
  · split at h
    · split at h
      · exact absurd h (by simp)
      · split at h
        · injection h with h
          exact (snd_eq_of_pair_eq h) ▸ hinv
        · split at h
          · exact absurd h (by simp)
          · rename_i s2 hs2
            exact inv_swapDonors (inv_unassign (inv_checkpoint _ hinv) hs2) h
    · exact inv_swapDonors hinv h

theorem inv_phase1Go {n : Nat} {aids : List String} :
    ∀ {s s' : Sched} {ro ro' : String → Int} {i : Nat}, Inv s →
      Sched.phase1Go n s ro i aids = .ok (s', ro') → Inv s' := by
  induction aids with
  | nil =>
    intro s s' ro ro' i hinv h
    simp only [Sched.phase1Go] at h
    injection h with h
    exact (fst_eq_of_pair_eq h) ▸ hinv
  | cons aid rest ih =>
    intro s s' ro ro' i hinv h
    simp only [Sched.phase1Go] at h
    split at h
    · exact absurd h (by simp)
    · split at h
      · exact ih hinv h
      · split at h
        · exact ih hinv h
        · split at h
          · next b t ht => exact ih (inv_assign hinv ht) h
          · exact absurd h (by simp)

theorem inv_phase1Loop {n : Nat} {k : Nat} :
    ∀ {s s' : Sched} {ro : String → Int}, Inv s →
      Sched.phase1Loop n k s ro = .ok s' → Inv s' := by
  induction k with
  | zero =>
    intro s s' ro hinv h
    simp only [Sched.phase1Loop] at h
    injection h with h
    exact h ▸ hinv
  | succ k ih =>
    intro s s' ro hinv h
    simp only [Sched.phase1Loop] at h
    split at h
    · next t ro2 ht =>
      have : Inv t := inv_phase1Go hinv ht
      exact ih this h
    · exact absurd h (by simp)

theorem inv_fillGo {n : Nat} {aids : List String} :
    ∀ {s s' : Sched} {chg chg' : Bool} {called called' : List String}, Inv s →
      Sched.fillGo n s chg called aids = .ok (chg', called', s') → Inv s' := by
  induction aids with
  | nil =>
    intro s s' chg chg' called called' hinv h
    simp only [Sched.fillGo] at h
    injection h with h
    exact (thd_eq_of_triple_eq h) ▸ hinv
  | cons aid rest ih =>
    intro s s' chg chg' called called' hinv h
    simp only [Sched.fillGo] at h
    split at h
    · exact absurd h (by simp)
    · split at h
      · injection h with h
        exact (thd_eq_of_triple_eq h) ▸ hinv
      · split at h
        · next b t ht => exact ih (inv_swap hinv ht) h
        · exact absurd h (by simp)

theorem inv_fillPhase {n : Nat} {fuel : Nat} :
    ∀ {s s' : Sched}, Inv s → Sched.fillPhase n fuel s = .ok s' → Inv s' := by
  induction fuel with
  | zero =>
    intro s s' hinv h
    simp only [Sched.fillPhase] at h
    exact absurd h (by simp)
  | succ fuel ih =>
    intro s s' hinv h
    simp only [Sched.fillPhase] at h
    split at h
    · split at h
      · next chg called t ht =>
        split at h
        · exact ih (inv_fillGo hinv ht) h
        · exact absurd h (by simp)
      · exact absurd h (by simp)
    · injection h with h
      exact h ▸ hinv

theorem inv_improveInner {cutoff : Nat} {aids : List String} :
    ∀ {s s' : Sched} {chg chg' : Bool}, Inv s →
      Sched.improveInner cutoff s chg aids = .ok (chg', s') → Inv s' := by
  induction aids with
  | nil =>
    intro s s' chg chg' hinv h
    simp only [Sched.improveInner] at h
    injection h with h
    exact (snd_eq_of_pair_eq h) ▸ hinv
  | cons aid rest ih =>
    intro s s' chg chg' hinv h
    simp only [Sched.improveInner] at h
    split at h
    · exact absurd h (by simp)
    · split at h
      · exact absurd h (by simp)
      · split at h
        · exact ih hinv h
        · split at h
          · next b t ht => exact ih (inv_swap hinv ht) h
          · exact absurd h (by simp)

theorem inv_improveLoop {n : Nat} {cuts : List Nat} :
    ∀ {s s' : Sched}, Inv s → Sched.improveLoop n cuts s = .ok s' → Inv s' := by
  induction cuts with
  | nil =>
    intro s s' hinv h
    simp only [Sched.improveLoop] at h
    injection h with h
    exact h ▸ hinv
  | cons c rest ih =>
    intro s s' hinv h
    simp only [Sched.improveLoop] at h
    split at h
    · exact absurd h (by simp)
    · split at h
      · split at h
        · next chg t ht =>
          split at h
          · exact ih (inv_improveInner hinv ht) h
          · injection h with h
            exact h ▸ inv_improveInner hinv ht
        · exact absurd h (by simp)
      · exact ih hinv h

theorem inv_schedule {s s' : Sched} {fuel : Nat} (hinv : Inv s)
    (h : s.schedule fuel = .ok s') : Inv s' := by
  simp only [Sched.schedule] at h
  split at h
  · exact absurd h (by simp)
  · next s1 h1 =>
    split at h
    · exact absurd h (by simp)
    · next s2 h2 =>
      split at h
      · exact absurd h (by simp)
      · exact inv_improveLoop (inv_fillPhase (inv_phase1Loop hinv h1) h2) h

theorem pairwise_filter_le_one {l : List Assignment} {slot : String}
    (h : l.Pairwise (fun g₁ g₂ => g₁.session.slot ≠ g₂.session.slot)) :
    (l.filter (fun g => decide (g.session.slot = slot))).length ≤ 1 := by
  induction l with
  | nil => simp
  | cons g rest ih =>
    rw [List.pairwise_cons] at h
    by_cases hg : g.session.slot = slot
    · have hpos : (fun g => decide (g.session.slot = slot)) g = true := by simpa using hg
      rw [List.filter_cons, if_pos hpos]
      have hnil : rest.filter (fun g => decide (g.session.slot = slot)) = [] := by
        rw [List.filter_eq_nil]
        intro b hb
        simp only [decide_eq_true_eq]
        intro hbslot
        exact h.1 b hb (hg.trans hbslot.symm)
      rw [hnil]
      simp
    · have hneg : ¬((fun g => decide (g.session.slot = slot)) g = true) := by simpa using hg
      rw [List.filter_cons, if_neg hneg]
      exact ih h.2

theorem noDouble_atMostOne {s : Sched} (h : NoDouble s) : AtMostOnePerSlot s :=
  fun a ha _ => pairwise_filter_le_one (h a ha)

/-! ## Well-formedness, state equivalence, history extension -/

theorem sessEquiv_refl (r : SessionRec) : SessEquiv r r :=
  ⟨rfl, rfl, rfl, List.Perm.refl _⟩

theorem sessEquiv_symm {r q : SessionRec} (h : SessEquiv r q) : SessEquiv q r :=
  ⟨h.1.symm, h.2.1.symm, h.2.2.1.symm, h.2.2.2.symm⟩

theorem sessEquiv_trans {r q t : SessionRec} (h1 : SessEquiv r q)
    (h2 : SessEquiv q t) : SessEquiv r t :=
  ⟨h1.1.trans h2.1, h1.2.1.trans h2.2.1, h1.2.2.1.trans h2.2.2.1,
    h1.2.2.2.trans h2.2.2.2⟩

theorem SessEquiv.key_eq {r q : SessionRec} (h : SessEquiv r q) : r.key = q.key := by
  unfold SessionRec.key
  rw [h.1, h.2.1]

theorem sessListEquiv_refl : ∀ l : List SessionRec, SessListEquiv l l
  | [] => trivial
  | _ :: rs => ⟨sessEquiv_refl _, sessListEquiv_refl rs⟩

theorem sessListEquiv_symm : ∀ {l m : List SessionRec},
    SessListEquiv l m → SessListEquiv m l
  | [], [], _ => trivial
  | _ :: _, _ :: _, ⟨h1, h2⟩ => ⟨sessEquiv_symm h1, sessListEquiv_symm h2⟩

theorem sessListEquiv_trans : ∀ {l m k : List SessionRec},
    SessListEquiv l m → SessListEquiv m k → SessListEquiv l k
  | [], [], [], _, _ => trivial
  | _ :: _, _ :: _, _ :: _, ⟨h1, h2⟩, ⟨h3, h4⟩ =>
    ⟨sessEquiv_trans h1 h3, sessListEquiv_trans h2 h4⟩

theorem coreEquiv_refl (s : Sched) : CoreEquiv s s :=
  ⟨rfl, rfl, sessListEquiv_refl _⟩

theorem coreEquiv_symm {s t : Sched} (h : CoreEquiv s t) : CoreEquiv t s :=
  ⟨h.1.symm, h.2.1.symm, sessListEquiv_symm h.2.2⟩

theorem coreEquiv_trans {s t u : Sched} (h1 : CoreEquiv s t)
    (h2 : CoreEquiv t u) : CoreEquiv s u :=
  ⟨h1.1.trans h2.1, h1.2.1.trans h2.2.1, sessListEquiv_trans h1.2.2 h2.2.2⟩

theorem histExt_of_history_eq0 {s t : Sched} (h : t.history = s.history) :
    HistExt s t := by
  cases hs : s.history with
  | nil => exact Or.inl ⟨hs, by rw [h, hs]⟩
  | cons top rest =>
    obtain ⟨nm, acts⟩ := top
    exact Or.inr ⟨nm, acts, [], rest, hs, by rw [h, hs]; simp⟩

theorem histExt_refl (s : Sched) : HistExt s s := histExt_of_history_eq0 rfl

theorem histExt_trans {s t u : Sched} (h1 : HistExt s t) (h2 : HistExt t u) :
    HistExt s u := by
  rcases h1 with ⟨hs, ht⟩ | ⟨nm, F, G, rest, hs, ht⟩
  · rcases h2 with ⟨_, hu⟩ | ⟨nm, F, G, rest, ht', hu⟩
    · exact Or.inl ⟨hs, hu⟩
    · rw [ht] at ht'
      exact absurd ht' (by simp)
  · rcases h2 with ⟨ht', _⟩ | ⟨nm', F', G', rest', ht', hu⟩
    · rw [ht] at ht'
      exact absurd ht' (by simp)
    · rw [ht] at ht'
      injection ht' with hpair hrest
      injection hpair with hnm hF
      refine Or.inr ⟨nm, F, G ++ G', rest, hs, ?_⟩
      rw [hu, ← hrest, ← hnm, ← hF]
      simp

/-- History shape after `recordAction`. -/
theorem histExt_recordAction (s : Sched) (act : Action) :
    HistExt s (s.recordAction act) := by
  unfold Sched.recordAction
  cases h : s.history with
  | nil => exact Or.inl ⟨h, h⟩
  | cons top rest =>
    obtain ⟨nm, acts⟩ := top
    exact Or.inr ⟨nm, acts, [act], rest, h, rfl⟩

theorem histExt_assign_session {s s' : Sched} {aid : String} {sk : SessionKey}
    {imm : Bool} (h : s.assign_session aid sk imm = .ok s') : HistExt s s' := by
  obtain ⟨_, _, _, _, _, _, _, _, _, rfl⟩ := assign_session_ok h
  unfold assignResult
  refine histExt_trans (histExt_of_history_eq0 ?_) (histExt_recordAction _ _)
  simp

theorem histExt_unassign {s s' : Sched} {aid : String} {sk : SessionKey}
    {force : Bool} (h : s.unassign aid sk force = .ok s') : HistExt s s' := by
  obtain ⟨_, _, _, _, _, rfl⟩ := unassign_ok h
  unfold unassignResult
  refine histExt_trans (histExt_of_history_eq0 ?_) (histExt_recordAction _ _)
  simp

/-! ## Generic list split lemmas -/

theorem map_id_of_eq {α : Type} {l : List α} {f : α → α} (h : ∀ a ∈ l, f a = a) :
    l.map f = l := by
  induction l with
  | nil => rfl
  | cons a rest ih =>
    rw [List.map_cons, h a (List.mem_cons_self _ _), ih (fun b hb => h b (List.mem_cons_of_mem _ hb))]

theorem find?_split {α : Type} {p : α → Bool} {l : List α} {x : α}
    (h : l.find? p = some x) :
    ∃ l1 l2, l = l1 ++ x :: l2 ∧ (∀ y ∈ l1, p y = false) ∧ p x = true := by
  induction l with
  | nil => simp [List.find?] at h
  | cons a rest ih =>
    by_cases hp : p a = true
    · rw [List.find?_cons_of_pos _ hp] at h
      injection h with h
      exact ⟨[], rest, by simp [h], by simp, h ▸ hp⟩
    · rw [List.find?_cons_of_neg _ hp] at h
      obtain ⟨l1, l2, heq, hall, hx⟩ := ih h
      exact ⟨a :: l1, l2, by rw [heq]; rfl,
        fun y hy => by
          rcases List.mem_cons.mp hy with rfl | hy
          · simpa using hp
          · exact hall y hy, hx⟩

theorem findSome?_split {α β : Type} {f : α → Option β} {l : List α} {b : β}
    (h : l.findSome? f = some b) :
    ∃ l1 x l2, l = l1 ++ x :: l2 ∧ (∀ y ∈ l1, f y = none) ∧ f x = some b := by
  induction l with
  | nil => simp [List.findSome?] at h
  | cons a rest ih =>
    rw [List.findSome?_cons] at h
    cases hfa : f a with
    | some c =>
      rw [hfa] at h
      injection h with h
      exact ⟨[], a, rest, rfl, by simp, h ▸ hfa⟩
    | none =>
      rw [hfa] at h
      obtain ⟨l1, x, l2, heq, hall, hx⟩ := ih h
      exact ⟨a :: l1, x, l2, by rw [heq]; rfl,
        fun y hy => by
          rcases List.mem_cons.mp hy with rfl | hy
          · exact hfa
          · exact hall y hy, hx⟩

theorem find?_append_first {α : Type} {p : α → Bool} {l1 : List α} {x : α}
    {l2 : List α} (h1 : ∀ y ∈ l1, p y = false) (h2 : p x = true) :
    (l1 ++ x :: l2).find? p = some x := by
  induction l1 with
  | nil => simpa [List.find?_cons_of_pos _ h2]
  | cons a rest ih =>
    have ha : p a = false := h1 a (List.mem_cons_self _ _)
    rw [List.cons_append, List.find?_cons_of_neg _ (by simp [ha])]
    exact ih (fun y hy => h1 y (List.mem_cons_of_mem _ hy))

theorem findSome?_append_first {α β : Type} {f : α → Option β} {l1 : List α}
    {x : α} {l2 : List α} {b : β} (h1 : ∀ y ∈ l1, f y = none)
    (h2 : f x = some b) : (l1 ++ x :: l2).findSome? f = some b := by
  induction l1 with
  | nil => simp [List.findSome?_cons, h2]
  | cons a rest ih =>
    have ha : f a = none := h1 a (List.mem_cons_self _ _)
    rw [List.cons_append, List.findSome?_cons, ha]
    exact ih (fun y hy => h1 y (List.mem_cons_of_mem _ hy))

theorem setFirstPref_append {sel : Preference → Bool} {v : Option Assignment}
    {l1 : List Preference} {pref : Preference} {l2 : List Preference}
    (h1 : ∀ p ∈ l1, sel p = false) (h2 : sel pref = true) :
    setFirstPref sel v (l1 ++ pref :: l2) = l1 ++ ⟨pref.topic, v⟩ :: l2 := by
  induction l1 with
  | nil => simp [setFirstPref, h2]
  | cons a rest ih =>
    have ha : sel a = false := h1 a (List.mem_cons_self _ _)
    rw [List.cons_append, setFirstPref, if_neg (by simp [ha]), List.cons_append,
      ih (fun p hp => h1 p (List.mem_cons_of_mem _ hp))]

theorem sessListEquiv_of_pointwise {l : List SessionRec} {f : SessionRec → SessionRec}
    (h : ∀ r ∈ l, SessEquiv (f r) r) : SessListEquiv (l.map f) l := by
  induction l with
  | nil => trivial
  | cons r rest ih =>
    exact ⟨h r (List.mem_cons_self _ _),
      ih (fun q hq => h q (List.mem_cons_of_mem _ hq))⟩

/-! ## Congruence of the primitives under CoreEquiv -/

theorem findAttendee?_eq_of_attendees {s t : Sched} (h : t.attendees = s.attendees)
    (aid : String) : t.findAttendee? aid = s.findAttendee? aid := by
  unfold Sched.findAttendee?
  rw [h]

theorem sessListEquiv_find?_some : ∀ {l m : List SessionRec}, SessListEquiv l m →
    ∀ {sk : SessionKey} {q : SessionRec},
      m.find? (fun r => decide (r.key = sk)) = some q →
      ∃ r, l.find? (fun r => decide (r.key = sk)) = some r ∧ SessEquiv r q := by
  intro l m h
  match l, m with
  | [], [] => intro sk q hm; simp [List.find?] at hm
  | r :: rs, q' :: qs =>
    intro sk q hm
    obtain ⟨hrq, hrest⟩ := h
    by_cases hk : q'.key = sk
    · rw [List.find?_cons_of_pos _ (by simpa using hk)] at hm
      injection hm with hm
      refine ⟨r, ?_, hm ▸ hrq⟩
      rw [List.find?_cons_of_pos _ (by simp [hrq.key_eq, hk])]
    · rw [List.find?_cons_of_neg _ (by simpa using hk)] at hm
      obtain ⟨r0, hr0, he0⟩ := sessListEquiv_find?_some hrest hm
      refine ⟨r0, ?_, he0⟩
      rw [List.find?_cons_of_neg _ (by simp [hrq.key_eq, hk]), hr0]

theorem findSession?_equiv {s t : Sched} (he : CoreEquiv t s) {sk : SessionKey}
    {sess : SessionRec} (h : s.findSession? sk = some sess) :
    ∃ sess', t.findSession? sk = some sess' ∧ SessEquiv sess' sess :=
  sessListEquiv_find?_some he.2.2 h

theorem sessListEquiv_updMap : ∀ {l m : List SessionRec}, SessListEquiv l m →
    ∀ (sk : SessionKey) (f : List String → List String),
      (∀ x y : List String, x.Perm y → (f x).Perm (f y)) →
      SessListEquiv
        (l.map (fun r => if r.key = sk then { r with attendees := f r.attendees } else r))
        (m.map (fun r => if r.key = sk then { r with attendees := f r.attendees } else r)) := by
  intro l m h
  match l, m with
  | [], [] => intro sk f hf; trivial
  | r :: rs, q :: qs =>
    intro sk f hf
    obtain ⟨hrq, hrest⟩ := h
    refine ⟨?_, sessListEquiv_updMap hrest sk f hf⟩
    by_cases hk : r.key = sk
    · simp only [if_pos hk, if_pos (hrq.key_eq.symm.trans hk)]
      exact ⟨hrq.1, hrq.2.1, hrq.2.2.1, hf _ _ hrq.2.2.2⟩
    · simp only [if_neg hk, if_neg (fun hq => hk (hrq.key_eq.trans hq))]
      exact hrq

theorem assign_session_equiv {s t : Sched} (he : CoreEquiv t s) {aid : String}
    {sk : SessionKey} {imm : Bool} {s' : Sched}
    (h : s.assign_session aid sk imm = .ok s') :
    ∃ t', t.assign_session aid sk imm = .ok t' ∧ CoreEquiv t' s' := by
  obtain ⟨att, sess, pref, hatt, hslot, hsess, hcap, hf, hpa, rfl⟩ := assign_session_ok h
  obtain ⟨sess', hsess', hse⟩ := findSession?_equiv he hsess
  have hattT : t.findAttendee? aid = some att := by
    rw [findAttendee?_eq_of_attendees he.1, hatt]
  have hlen : sess'.attendees.length = sess.attendees.length :=
    hse.2.2.2.length_eq
  have hcapT : sess'.attendees.length < sess'.capacity := by
    rw [hlen, hse.2.2.1]
    exact hcap
  refine ⟨assignResult t aid sk imm, ?_, ?_, ?_, ?_⟩
  · simp only [Sched.assign_session, hattT, hsess', hf]
    rw [if_neg (by simp [hslot]), if_neg (not_lt.mpr (le_of_lt hcapT)),
      if_neg (ne_of_lt hcapT), if_neg (by simp [hpa])]
    rfl
  · simp only [assignResult, recordAction_attendees, updSession_attendees]
    show (t.attendees.map _) = (s.attendees.map _)
    rw [he.1]
  · simp only [assignResult, recordAction_time_slots, updSession_time_slots,
      updAttendee_time_slots]
    exact he.2.1
  · simp only [assignResult, recordAction_sessions]
    show SessListEquiv (t.sessions.map _) (s.sessions.map _)
    exact sessListEquiv_updMap he.2.2 sk (fun l => l ++ [aid])
      (fun x y hxy => hxy.append_right [aid])

theorem unassign_equiv {s t : Sched} (he : CoreEquiv t s) {aid : String}
    {sk : SessionKey} {force : Bool} {s' : Sched}
    (h : s.unassign aid sk force = .ok s') :
    ∃ t', t.unassign aid sk force = .ok t' ∧ CoreEquiv t' s' := by
  obtain ⟨att, g, hatt, hg, himm, rfl⟩ := unassign_ok h
  have hattT : t.findAttendee? aid = some att := by
    rw [findAttendee?_eq_of_attendees he.1, hatt]
  have hcond : (g.immutable && !force) = false := by
    cases hgi : g.immutable with
    | false => simp
    | true => simp [himm hgi]
  refine ⟨unassignResult t aid sk g.immutable, ?_, ?_, ?_, ?_⟩
  · simp only [Sched.unassign, hattT, hg]
    rw [if_neg (by simp [hcond])]
    rfl
  · simp only [unassignResult, recordAction_attendees, updSession_attendees]
    show (t.attendees.map _) = (s.attendees.map _)
    rw [he.1]
  · simp only [unassignResult, recordAction_time_slots, updSession_time_slots,
      updAttendee_time_slots]
    exact he.2.1
  · simp only [unassignResult, recordAction_sessions]
    show SessListEquiv (t.sessions.map _) (s.sessions.map _)
    exact sessListEquiv_updMap he.2.2 sk
      (fun l => l.filter (fun x => decide (x ≠ aid)))
      (fun x y hxy => hxy.filter _)

theorem runAction_equiv {s t : Sched} (he : CoreEquiv t s) {act : Action}
    {s' : Sched} (h : s.runAction act = .ok s') :
    ∃ t', t.runAction act = .ok t' ∧ CoreEquiv t' s' := by
  cases act with
  | reassign aid sk imm => exact assign_session_equiv he h
  | unassignForce aid sk => exact unassign_equiv he h

/-! ## Exact undo of the primitives -/

theorem findAttendee?_updAttendee (s : Sched) (aid x : String)
    (f : Attendee → Attendee) (hf : ∀ a, (f a).idStr = a.idStr) :
    (s.updAttendee aid f).findAttendee? x =
      (s.findAttendee? x).map (fun a => if a.idStr = aid then f a else a) := by
  unfold Sched.findAttendee? Sched.updAttendee
  show ((s.attendees.map _).find? _) = _
  have hp : ((fun a : Attendee => decide (a.idStr = x)) ∘
      (fun a => if a.idStr = aid then f a else a)) =
      (fun a : Attendee => decide (a.idStr = x)) := by
    funext a
    by_cases hid : a.idStr = aid <;> simp [Function.comp, hid, hf]
  rw [List.find?_map, hp]

theorem prefAssignedTo_none_of_no_slot {att : Attendee} {sk : SessionKey}
    (hslot : hasSlotAt att sk.slot = false) :
    ∀ p ∈ att.preferences, prefAssignedTo sk p = none := by
  intro p hp
  unfold prefAssignedTo
  cases hpg : p.assignment with
  | none => rfl
  | some g =>
    have hgs : g.session ≠ sk := by
      intro hgs
      exact hasSlotAt_false_iff.mp hslot g
        (List.mem_filterMap.mpr ⟨p, hp, hpg⟩) (by rw [hgs])
    show (if g.session = sk then some g else none) = none
    rw [if_neg hgs]

theorem Preference.eta_none (p : Preference) (h : p.assignment = none) :
    (⟨p.topic, none⟩ : Preference) = p := by
  cases p with
  | mk t a =>
    simp only at h
    rw [h]

/-- Undoing a successful `_assign` with its recorded inverse (`unassign` with
`force=True`) restores attendees, sessions and time slots exactly. -/
theorem assign_session_undo {s s' : Sched} {aid : String} {sk : SessionKey}
    {imm : Bool} (hwf : WF s) (h : s.assign_session aid sk imm = .ok s') :
    ∃ s'', s'.unassign aid sk true = .ok s'' ∧ s''.attendees = s.attendees ∧
      s''.time_slots = s.time_slots ∧ s''.sessions = s.sessions := by
  obtain ⟨att, sess, pref, hatt, hslot, hsess, hcap, hf, hpa, rfl⟩ := assign_session_ok h
  have hattid : att.idStr = aid := by simpa using List.find?_some hatt
  have hikey : ∀ a ∈ s.attendees, a.idStr = aid → a = att :=
    attendee_eq_of_id hwf.ids hatt
  obtain ⟨l1, l2, hsplit, hl1, hselp⟩ := find?_split hf
  have hprefnone : pref.assignment = none := (assigned_false_iff pref).mp hpa
  have hnoneAll : ∀ p ∈ att.preferences, prefAssignedTo sk p = none :=
    prefAssignedTo_none_of_no_slot hslot
  set v : Assignment := ⟨sk, imm⟩ with hv
  set selT : Preference → Bool := fun p => decide (p.topic = sk.topic) with hselT
  set selS : Preference → Bool := fun p => (prefAssignedTo sk p).isSome with hselS
  set phiA : Attendee → Attendee := fun a =>
    if a.idStr = aid then a.setPrefs (setFirstPref selT (some v) a.preferences) else a
    with hphiA
  set phiU : Attendee → Attendee := fun a =>
    if a.idStr = aid then a.setPrefs (setFirstPref selS none a.preferences) else a
    with hphiU
  have hP1 : setFirstPref selT (some v) att.preferences =
      l1 ++ ⟨pref.topic, some v⟩ :: l2 := by
    rw [hsplit]
    exact setFirstPref_append hl1 hselp
  set attP : Attendee := att.setPrefs (l1 ++ ⟨pref.topic, some v⟩ :: l2) with hattP
  have hAtts : (assignResult s aid sk imm).attendees = s.attendees.map phiA := by
    simp [assignResult, Sched.updAttendee, hphiA]
  have hpredA : ((fun a : Attendee => decide (a.idStr = aid)) ∘ phiA) =
      (fun a : Attendee => decide (a.idStr = aid)) := by
    funext a
    by_cases hid : a.idStr = aid <;>
      simp [hphiA, Function.comp, hid, Attendee.setPrefs_idStr]
  have hatt2 : s.attendees.find? (fun a => decide (a.idStr = aid)) = some att := hatt
  have hfindA : (assignResult s aid sk imm).findAttendee? aid = some attP := by
    unfold Sched.findAttendee?
    rw [hAtts, List.find?_map, hpredA, hatt2]
    show some (phiA att) = some attP
    rw [hphiA]
    simp only [if_pos hattid]
    rw [hP1]
  have hvps : prefAssignedTo sk (⟨pref.topic, some v⟩ : Preference) = some v := by
    unfold prefAssignedTo
    simp [hv]
  have hl1none : ∀ y ∈ l1, prefAssignedTo sk y = none := by
    intro y hy
    exact hnoneAll y (by rw [hsplit]; exact List.mem_append_left _ hy)
  have hfindSome : attP.preferences.findSome? (prefAssignedTo sk) = some v := by
    show (l1 ++ ⟨pref.topic, some v⟩ :: l2).findSome? (prefAssignedTo sk) = some v
    exact findSome?_append_first hl1none hvps
  have hvimm : v.immutable = imm := rfl
  refine ⟨unassignResult (assignResult s aid sk imm) aid sk imm, ?_, ?_, ?_, ?_⟩
  · simp only [Sched.unassign, hfindA, hfindSome]
    rw [if_neg (by simp)]
    rfl
  · -- attendees restored exactly
    have hU : (unassignResult (assignResult s aid sk imm) aid sk imm).attendees =
        ((assignResult s aid sk imm).attendees).map phiU := by
      simp [unassignResult, Sched.updAttendee, hphiU]
    rw [hU, hAtts, List.map_map]
    refine map_id_of_eq ?_
    intro a ha
    simp only [Function.comp_apply]
    by_cases hid : a.idStr = aid
    · have haeq : a = att := hikey a ha hid
      subst haeq
      rw [hphiA]
      simp only [if_pos hid]
      rw [hP1, hphiU]
      simp only [Attendee.setPrefs_idStr, if_pos hid]
      show Attendee.setPrefs _ (setFirstPref selS none (l1 ++ ⟨pref.topic, some v⟩ :: l2)) = a
      have hl1S : ∀ p ∈ l1, selS p = false := by
        intro p hp
        simp [hselS, hl1none p hp]
      have hpvS : selS (⟨pref.topic, some v⟩ : Preference) = true := by
        simp [hselS, hvps]
      rw [setFirstPref_append hl1S hpvS]
      show Attendee.setPrefs _ (l1 ++ ⟨pref.topic, none⟩ :: l2) = a
      rw [Preference.eta_none pref hprefnone, ← hsplit]
      rfl
    · rw [hphiA]
      simp only [if_neg hid]
      rw [hphiU]
      simp only [if_neg hid]
  · simp [unassignResult, assignResult]
  · -- sessions restored exactly
    have hS1 : (assignResult s aid sk imm).sessions = s.sessions.map
        (fun r => if r.key = sk then { r with attendees := r.attendees ++ [aid] } else r) := by
      simp [assignResult, Sched.updSession]
    have hU : (unassignResult (assignResult s aid sk imm) aid sk imm).sessions =
        ((assignResult s aid sk imm).sessions).map
          (fun r => if r.key = sk then
            { r with attendees := r.attendees.filter (fun x => decide (x ≠ aid)) } else r) := by
      simp [unassignResult, Sched.updSession]
    rw [hU, hS1, List.map_map]
    refine map_id_of_eq ?_
    intro r hr
    simp only [Function.comp_apply]
    by_cases hk : r.key = sk
    · have hnotmem : aid ∉ r.attendees := by
        intro hmem
        obtain ⟨a, ha, haid, p, hp, g, hg, hgs⟩ := hwf.memberAssigned r hr aid hmem
        have haeq : a = att := hikey a ha haid
        subst haeq
        rw [Option.mem_def] at hg
        have hsome : prefAssignedTo sk p = some g := by
          simp [prefAssignedTo, hg, hgs, hk]
        exact Option.noConfusion (hsome.symm.trans (hnoneAll p hp))
      simp only [SessionRec.key] at hk ⊢
      simp [hk]
      have hflt : List.filter (fun x => !decide (x = aid)) r.attendees = r.attendees := by
        rw [List.filter_eq_self]
        intro x hx
        have hxne : x ≠ aid := fun he => hnotmem (he ▸ hx)
        simp [hxne]
      rw [hflt]
    · simp only [SessionRec.key] at hk ⊢
      simp [hk]

theorem prefAssignedTo_some {sk : SessionKey} {p : Preference} {g : Assignment}
    (h : prefAssignedTo sk p = some g) :
    p.assignment = some g ∧ g.session = sk := by
  unfold prefAssignedTo at h
  cases hpg : p.assignment with
  | none =>
    rw [hpg] at h
    simp at h
  | some g0 =>
    rw [hpg] at h
    change (if g0.session = sk then some g0 else none) = some g at h
    by_cases hgs : g0.session = sk
    · rw [if_pos hgs] at h
      injection h with h
      exact ⟨congrArg some h, by rw [← h]; exact hgs⟩
    · rw [if_neg hgs] at h
      exact absurd h (by simp)

theorem session_eq_of_key {s : Sched} {sk : SessionKey} {sess : SessionRec}
    (hkeys : (s.sessions.map SessionRec.key).Nodup)
    (hfind : s.findSession? sk = some sess) :
    ∀ r ∈ s.sessions, r.key = sk → r = sess := by
  intro r hr hkr
  have hsessmem : sess ∈ s.sessions := List.mem_of_find?_eq_some hfind
  have hsesskey : sess.key = sk := by simpa using List.find?_some hfind
  exact List.inj_on_of_nodup_map hkeys hr hsessmem (by rw [hkr, hsesskey])

theorem pairwise_middle_extract {α : Type} {R : α → α → Prop} {xs ys : List α}
    {g : α} (h : (xs ++ g :: ys).Pairwise R) :
    (∀ x ∈ xs, R x g) ∧ (∀ y ∈ ys, R g y) := by
  rw [List.pairwise_append] at h
  exact ⟨fun x hx => h.2.2 x hx g (List.mem_cons_self _ _),
    (List.pairwise_cons.mp h.2.1).1⟩

theorem filter_ne_perm {l : List String} {aid : String} (hmem : aid ∈ l)
    (hnd : l.Nodup) :
    (l.filter (fun x => decide (x ≠ aid)) ++ [aid]).Perm l := by
  have herase : l.filter (fun x => decide (x ≠ aid)) = l.erase aid := by
    rw [List.Nodup.erase_eq_filter hnd aid]
    refine List.filter_congr ?_
    intro x hx
    by_cases he : x = aid <;> simp [he]
  rw [herase]
  refine List.Perm.trans ?_ (List.perm_cons_erase hmem).symm
  exact List.perm_append_singleton aid (l.erase aid)

/-- Undoing a successful `unassign` with its recorded inverse (`_assign` with
the original immutability flag) restores preferences exactly and session
attendee lists up to permutation. -/
theorem unassign_undo {s s' : Sched} {aid : String} {sk : SessionKey}
    {force : Bool} (hwf : WF s) (h : s.unassign aid sk force = .ok s') :
    ∃ att g, s.findAttendee? aid = some att ∧
      att.preferences.findSome? (prefAssignedTo sk) = some g ∧
      ∃ s'', s'.assign_session aid sk g.immutable = .ok s'' ∧
        s''.attendees = s.attendees ∧ s''.time_slots = s.time_slots ∧
        SessListEquiv s''.sessions s.sessions := by
  obtain ⟨att, g, hatt0, hg0, himm0, hres⟩ := unassign_ok h
  refine ⟨att, g, hatt0, hg0, ?_⟩
  have hattid : att.idStr = aid := by simpa using List.find?_some hatt0
  have hattmem : att ∈ s.attendees := List.mem_of_find?_eq_some hatt0
  have hikey : ∀ a ∈ s.attendees, a.idStr = aid → a = att :=
    attendee_eq_of_id hwf.ids hatt0
  obtain ⟨l1, pref0, l2, hsplit, hl1none, hp0⟩ := findSome?_split hg0
  obtain ⟨hp0a, hgsk⟩ := prefAssignedTo_some hp0
  have hgmem : g ∈ pref0.assignment := by rw [hp0a]; rfl
  have hp0mem : pref0 ∈ att.preferences := by
    rw [hsplit]
    exact List.mem_append_right _ (List.mem_cons_self _ _)
  have htopic : pref0.topic = sk.topic := by
    have := hwf.topicOk att hattmem pref0 hp0mem g hgmem
    rw [hgsk] at this
    exact this.symm
  -- the topic never occurs in the prefix
  have hl1topic : ∀ y ∈ l1, y.topic ≠ sk.topic := by
    have hpw := hwf.firstOfTopic att hattmem
    rw [hsplit] at hpw
    have hx := (pairwise_middle_extract hpw).1
    intro y hy hyt
    exact hx y hy (by simp [hp0a]) (htopic ▸ hyt)
  -- the session record
  obtain ⟨sess, hsessmem, hsesskey⟩ := hwf.sessExists att hattmem pref0 hp0mem g hgmem
  have hsfind : s.findSession? sk = some sess := by
    cases hfind : s.findSession? sk with
    | none =>
      unfold Sched.findSession? at hfind
      have := List.find?_eq_none.mp hfind sess hsessmem
      rw [hgsk] at hsesskey
      simp [hsesskey] at this
    | some sess2 =>
      have hkeq : sess.key = sk := by rw [hsesskey, hgsk]
      have := session_eq_of_key hwf.keys hfind sess hsessmem hkeq
      rw [this]
  have hsesskey' : sess.key = sk := by rw [hsesskey, hgsk]
  have haidmem : aid ∈ sess.attendees := by
    have := hwf.assignedMember att hattmem pref0 hp0mem g hgmem sess hsessmem
      (by rw [hsesskey])
    rw [hattid] at this
    exact this
  have hsessnd : sess.attendees.Nodup := hwf.mnodup sess hsessmem
  have hsesscap : sess.attendees.length ≤ sess.capacity := hwf.cap sess hsessmem
  -- names for the two pointwise updates
  set selS : Preference → Bool := fun p => (prefAssignedTo sk p).isSome with hselS
  set selT : Preference → Bool := fun p => decide (p.topic = sk.topic) with hselT
  set phiU : Attendee → Attendee := fun a =>
    if a.idStr = aid then a.setPrefs (setFirstPref selS none a.preferences) else a
    with hphiU
  set v : Assignment := ⟨sk, g.immutable⟩ with hv
  set phiA : Attendee → Attendee := fun a =>
    if a.idStr = aid then a.setPrefs (setFirstPref selT (some v) a.preferences) else a
    with hphiA
  have hveq : v = g := by
    rw [hv, ← hgsk]
  have hP0 : setFirstPref selS none att.preferences =
      l1 ++ ⟨pref0.topic, none⟩ :: l2 := by
    rw [hsplit]
    refine setFirstPref_append ?_ ?_
    · intro p hp
      simp [hselS, hl1none p hp]
    · simp [hselS, hp0]
  set attU : Attendee := att.setPrefs (l1 ++ ⟨pref0.topic, none⟩ :: l2) with hattU
  have hAtts : s'.attendees = s.attendees.map phiU := by
    rw [hres]
    simp [unassignResult, Sched.updAttendee, hphiU]
  have hpredU : ((fun a : Attendee => decide (a.idStr = aid)) ∘ phiU) =
      (fun a : Attendee => decide (a.idStr = aid)) := by
    funext a
    by_cases hid : a.idStr = aid <;>
      simp [hphiU, Function.comp, hid, Attendee.setPrefs_idStr]
  have hatt2 : s.attendees.find? (fun a => decide (a.idStr = aid)) = some att := hatt0
  have hfindA : s'.findAttendee? aid = some attU := by
    unfold Sched.findAttendee?
    rw [hAtts, List.find?_map, hpredU, hatt2]
    show some (phiU att) = some attU
    rw [hphiU]
    simp only [if_pos hattid]
    rw [hP0]
  -- no slot conflict after removal
  have hfm : att.preferences.filterMap (fun p => p.assignment) =
      l1.filterMap (fun p => p.assignment) ++ g ::
        l2.filterMap (fun p => p.assignment) := by
    rw [hsplit, List.filterMap_append, List.filterMap_cons, hp0a]
  have hslotU : hasSlotAt attU sk.slot = false := by
    rw [hasSlotAt_false_iff]
    intro g2 hg2
    have hg2mem : g2 ∈ l1.filterMap (fun p => p.assignment) ++
        l2.filterMap (fun p => p.assignment) := by
      have : attU.preferences.filterMap (fun p => p.assignment) =
          l1.filterMap (fun p => p.assignment) ++
            l2.filterMap (fun p => p.assignment) := by
        show (l1 ++ ⟨pref0.topic, none⟩ :: l2).filterMap (fun p => p.assignment) = _
        rw [List.filterMap_append, List.filterMap_cons]
      rw [this] at hg2
      exact hg2
    have hnd := hwf.nd att hattmem
    rw [hfm] at hnd
    have hext := pairwise_middle_extract hnd
    rcases List.mem_append.mp hg2mem with hx | hx
    · have := hext.1 g2 hx
      rw [hgsk] at this
      exact this
    · have := hext.2 g2 hx
      rw [hgsk] at this
      exact fun he => this he.symm
  -- the session after removal
  set sessU : SessionRec :=
    { sess with attendees := sess.attendees.filter (fun x => decide (x ≠ aid)) }
    with hsessU
  set psiU : SessionRec → SessionRec := fun r =>
    if r.key = sk then { r with attendees := r.attendees.filter (fun x => decide (x ≠ aid)) }
    else r with hpsiU
  have hSess : s'.sessions = s.sessions.map psiU := by
    rw [hres]
    simp [unassignResult, Sched.updSession, hpsiU]
  have hpredS : ((fun r : SessionRec => decide (r.key = sk)) ∘ psiU) =
      (fun r : SessionRec => decide (r.key = sk)) := by
    funext r
    by_cases hk : r.key = sk <;>
      (simp only [SessionRec.key] at hk; simp [hpsiU, Function.comp, SessionRec.key, hk])
  have hsfind2 : s.sessions.find? (fun r => decide (r.key = sk)) = some sess := hsfind
  have hfindS : s'.findSession? sk = some sessU := by
    unfold Sched.findSession?
    rw [hSess, List.find?_map, hpredS, hsfind2]
    show some (psiU sess) = some sessU
    rw [hpsiU]
    simp only [if_pos hsesskey']
  have hperm : (sessU.attendees ++ [aid]).Perm sess.attendees :=
    filter_ne_perm haidmem hsessnd
  have hlenU : sessU.attendees.length + 1 = sess.attendees.length := by
    have := hperm.length_eq
    simpa using this
  have hcapU : sessU.attendees.length < sessU.capacity := by
    show sessU.attendees.length < sess.capacity
    omega
  -- the preference search in the restored attendee
  have hfindT : attU.preferences.find? selT = some (⟨pref0.topic, none⟩ : Preference) := by
    show (l1 ++ ⟨pref0.topic, none⟩ :: l2).find? selT = some _
    refine find?_append_first ?_ ?_
    · intro y hy
      simp [hselT, hl1topic y hy]
    · simp [hselT, htopic]
  refine ⟨assignResult s' aid sk g.immutable, ?_, ?_, ?_, ?_⟩
  · simp only [Sched.assign_session, hfindA, hfindS, hfindT, hslotU]
    rw [if_neg (by simp), if_neg (not_lt.mpr (le_of_lt hcapU)),
      if_neg (ne_of_lt hcapU), if_neg (by simp [Preference.assigned])]
    rfl
  · -- attendees restored exactly
    have hA2 : (assignResult s' aid sk g.immutable).attendees =
        s'.attendees.map phiA := by
      simp [assignResult, Sched.updAttendee, hphiA, hv]
    rw [hA2, hAtts, List.map_map]
    refine map_id_of_eq ?_
    intro a ha
    simp only [Function.comp_apply]
    by_cases hid : a.idStr = aid
    · have haeq : a = att := hikey a ha hid
      subst haeq
      rw [hphiU]
      simp only [if_pos hid]
      rw [hP0, hphiA]
      simp only [Attendee.setPrefs_idStr, if_pos hid]
      show Attendee.setPrefs _
        (setFirstPref selT (some v) (l1 ++ ⟨pref0.topic, none⟩ :: l2)) = a
      have hl1T : ∀ p ∈ l1, selT p = false := by
        intro p hp
        simp [hselT, hl1topic p hp]
      have hheadT : selT (⟨pref0.topic, none⟩ : Preference) = true := by
        simp [hselT, htopic]
      rw [setFirstPref_append hl1T hheadT]
      show Attendee.setPrefs _ (l1 ++ ⟨pref0.topic, some v⟩ :: l2) = a
      have : (⟨pref0.topic, some v⟩ : Preference) = pref0 := by
        rw [hveq, ← hp0a]
      rw [this, ← hsplit]
      rfl
    · rw [hphiU]
      simp only [if_neg hid]
      rw [hphiA]
      simp only [if_neg hid]
  · rw [hres]
    simp [unassignResult, assignResult]
  · -- sessions restored up to permutation
    have hS2 : (assignResult s' aid sk g.immutable).sessions =
        s'.sessions.map (fun r =>
          if r.key = sk then { r with attendees := r.attendees ++ [aid] } else r) := by
      simp [assignResult, Sched.updSession]
    rw [hS2, hSess, List.map_map]
    refine sessListEquiv_of_pointwise ?_
    intro r hr
    simp only [Function.comp_apply]
    by_cases hk : r.key = sk
    · have hreq : r = sess := session_eq_of_key hwf.keys hsfind r hr hk
      subst hreq
      rw [hpsiU]
      simp only [if_pos hk]
      rw [if_pos (show sessU.key = sk from hsesskey')]
      refine ⟨rfl, rfl, rfl, ?_⟩
      exact hperm
    · rw [hpsiU]
      simp only [if_neg hk]
      exact sessEquiv_refl r

/-! ## WF preservation -/

theorem sessListEquiv_mem_left : ∀ {l m : List SessionRec}, SessListEquiv l m →
    ∀ r' ∈ l, ∃ r ∈ m, SessEquiv r' r := by
  intro l m h
  match l, m with
  | [], [] => intro r' hr'; simp at hr'
  | x :: xs, y :: ys =>
    intro r' hr'
    obtain ⟨hxy, hrest⟩ := h
    rcases List.mem_cons.mp hr' with rfl | hr'
    · exact ⟨y, List.mem_cons_self _ _, hxy⟩
    · obtain ⟨r, hr, he⟩ := sessListEquiv_mem_left hrest r' hr'
      exact ⟨r, List.mem_cons_of_mem _ hr, he⟩

theorem sessListEquiv_mem_right {l m : List SessionRec} (h : SessListEquiv l m) :
    ∀ r ∈ m, ∃ r' ∈ l, SessEquiv r' r := by
  intro r hr
  obtain ⟨r', hr', he⟩ := sessListEquiv_mem_left (sessListEquiv_symm h) r hr
  exact ⟨r', hr', sessEquiv_symm he⟩

theorem sessListEquiv_map_key : ∀ {l m : List SessionRec}, SessListEquiv l m →
    l.map SessionRec.key = m.map SessionRec.key := by
  intro l m h
  match l, m with
  | [], [] => rfl
  | x :: xs, y :: ys =>
    obtain ⟨hxy, hrest⟩ := h
    simp only [List.map_cons]
    rw [hxy.key_eq, sessListEquiv_map_key hrest]

theorem wf_of_core_eq {s t : Sched} (ha : t.attendees = s.attendees)
    (hs : t.sessions = s.sessions) (hwf : WF s) : WF t := by
  refine ⟨?_, ?_, ?_, ?_, ?_, ?_, ?_, ?_, ?_, ?_⟩
  · unfold UniqueIds
    rw [ha]
    exact hwf.ids
  · rw [hs]
    exact hwf.keys
  · rw [hs]
    exact hwf.cap
  · rw [hs]
    exact hwf.mnodup
  · rw [hs, ha]
    exact hwf.memberAssigned
  · rw [hs, ha]
    exact hwf.assignedMember
  · rw [hs, ha]
    exact hwf.sessExists
  · rw [ha]
    exact hwf.topicOk
  · rw [ha]
    exact hwf.firstOfTopic
  · intro a haa
    rw [ha] at haa
    exact hwf.nd a haa

theorem wf_of_equiv {s t : Sched} (he : CoreEquiv t s) (hwf : WF s) : WF t := by
  obtain ⟨ha, _, hsess⟩ := he
  refine ⟨?_, ?_, ?_, ?_, ?_, ?_, ?_, ?_, ?_, ?_⟩
  · unfold UniqueIds
    rw [ha]
    exact hwf.ids
  · rw [sessListEquiv_map_key hsess]
    exact hwf.keys
  · intro r' hr'
    obtain ⟨r, hr, heq⟩ := sessListEquiv_mem_left hsess r' hr'
    rw [heq.2.2.2.length_eq, heq.2.2.1]
    exact hwf.cap r hr
  · intro r' hr'
    obtain ⟨r, hr, heq⟩ := sessListEquiv_mem_left hsess r' hr'
    exact (hwf.mnodup r hr).perm heq.2.2.2.symm
  · intro r' hr' x hx
    obtain ⟨r, hr, heq⟩ := sessListEquiv_mem_left hsess r' hr'
    have hx' : x ∈ r.attendees := heq.2.2.2.mem_iff.mp hx
    obtain ⟨a, haa, hid, p, hp, g, hg, hgs⟩ := hwf.memberAssigned r hr x hx'
    exact ⟨a, ha ▸ haa, hid, p, hp, g, hg, by rw [hgs, heq.key_eq]⟩
  · intro a haa p hp g hg r' hr' hk
    rw [ha] at haa
    obtain ⟨r, hr, heq⟩ := sessListEquiv_mem_left hsess r' hr'
    have := hwf.assignedMember a haa p hp g hg r hr (by rw [← heq.key_eq, hk])
    exact heq.2.2.2.mem_iff.mpr this
  · intro a haa p hp g hg
    rw [ha] at haa
    obtain ⟨r, hr, hk⟩ := hwf.sessExists a haa p hp g hg
    obtain ⟨r', hr', heq⟩ := sessListEquiv_mem_right hsess r hr
    exact ⟨r', hr', by rw [heq.key_eq, hk]⟩
  · intro a haa
    rw [ha] at haa
    exact hwf.topicOk a haa
  · intro a haa
    rw [ha] at haa
    exact hwf.firstOfTopic a haa
  · intro a haa
    rw [ha] at haa
    exact hwf.nd a haa

theorem wf_unassign {s s' : Sched} {aid : String} {sk : SessionKey} {force : Bool}
    (hwf : WF s) (h : s.unassign aid sk force = .ok s') : WF s' := by
  obtain ⟨att, g, hatt0, hg0, himm0, hres⟩ := unassign_ok h
  have hattid : att.idStr = aid := by simpa using List.find?_some hatt0
  have hattmem : att ∈ s.attendees := List.mem_of_find?_eq_some hatt0
  have hikey := attendee_eq_of_id hwf.ids hatt0
  obtain ⟨l1, pref0, l2, hsplit, hl1none, hp0⟩ := findSome?_split hg0
  obtain ⟨hp0a, hgsk⟩ := prefAssignedTo_some hp0
  set selS : Preference → Bool := fun p => (prefAssignedTo sk p).isSome with hselS
  set phiU : Attendee → Attendee := fun a =>
    if a.idStr = aid then a.setPrefs (setFirstPref selS none a.preferences) else a
    with hphiU
  set psiU : SessionRec → SessionRec := fun r =>
    if r.key = sk then { r with attendees := r.attendees.filter (fun x => decide (x ≠ aid)) }
    else r with hpsiU
  have hAtts : s'.attendees = s.attendees.map phiU := by
    rw [hres]
    simp [unassignResult, Sched.updAttendee, hphiU]
  have hSess : s'.sessions = s.sessions.map psiU := by
    rw [hres]
    simp [unassignResult, Sched.updSession, hpsiU]
  have hP0 : setFirstPref selS none att.preferences =
      l1 ++ ⟨pref0.topic, none⟩ :: l2 := by
    rw [hsplit]
    refine setFirstPref_append ?_ ?_
    · intro p hp
      simp [hselS, hl1none p hp]
    · simp [hselS, hp0]
  set attU : Attendee := att.setPrefs (l1 ++ ⟨pref0.topic, none⟩ :: l2) with hattU
  have hphiatt : phiU att = attU := by
    rw [hphiU]
    simp only [if_pos hattid]
    rw [hP0]
  have hphiother : ∀ a : Attendee, a.idStr ≠ aid → phiU a = a := by
    intro a hid
    rw [hphiU]
    simp [hid]
  have hkeyU : ∀ r : SessionRec, (psiU r).key = r.key := by
    intro r
    rw [hpsiU]
    by_cases hk : r.key = sk
    · simp only [if_pos hk]
      rfl
    · simp only [if_neg hk]
  have hfm : att.preferences.filterMap (fun p => p.assignment) =
      l1.filterMap (fun p => p.assignment) ++ g ::
        l2.filterMap (fun p => p.assignment) := by
    rw [hsplit, List.filterMap_append, List.filterMap_cons, hp0a]
  have hndext := pairwise_middle_extract ((hfm ▸ hwf.nd att hattmem))
  have hnosk : ∀ p, (p ∈ l1 ∨ p ∈ l2) → ∀ g2 ∈ p.assignment, g2.session ≠ sk := by
    rintro p (hp | hp) g2 hg2 hne
    · have hno := hl1none p hp
      have hyes : prefAssignedTo sk p = some g2 := by
        rw [Option.mem_def] at hg2
        unfold prefAssignedTo
        rw [hg2]
        simp [hne]
      rw [hno] at hyes
      exact Option.noConfusion hyes
    · rw [Option.mem_def] at hg2
      have hg2m : g2 ∈ l2.filterMap (fun p => p.assignment) :=
        List.mem_filterMap.mpr ⟨p, hp, hg2⟩
      have := hndext.2 g2 hg2m
      rw [hgsk, hne] at this
      exact this rfl
  have hUprefs : attU.preferences = l1 ++ ⟨pref0.topic, none⟩ :: l2 := rfl
  have hUmem : ∀ p ∈ attU.preferences,
      p = ⟨pref0.topic, none⟩ ∨ ((p ∈ l1 ∨ p ∈ l2) ∧ p ∈ att.preferences) := by
    intro p hp
    rw [hUprefs] at hp
    rcases List.mem_append.mp hp with hp | hp
    · exact Or.inr ⟨Or.inl hp, by rw [hsplit]; exact List.mem_append_left _ hp⟩
    · rcases List.mem_cons.mp hp with rfl | hp
      · exact Or.inl rfl
      · exact Or.inr ⟨Or.inr hp, by
          rw [hsplit]
          exact List.mem_append_right _ (List.mem_cons_of_mem _ hp)⟩
  have hsurv : ∀ p ∈ att.preferences, ∀ g2 ∈ p.assignment, g2.session ≠ sk →
      p ∈ attU.preferences := by
    intro p hp g2 hg2 hne
    rw [hsplit] at hp
    rw [hUprefs]
    rcases List.mem_append.mp hp with hp | hp
    · exact List.mem_append_left _ hp
    · rcases List.mem_cons.mp hp with rfl | hp
      · rw [Option.mem_def, hp0a] at hg2
        injection hg2 with hg2
        rw [hg2] at hgsk
        exact absurd hgsk hne
      · exact List.mem_append_right _ (List.mem_cons_of_mem _ hp)
  have hmemA : ∀ a' ∈ s'.attendees, ∃ a ∈ s.attendees, a' = phiU a := by
    intro a' ha'
    rw [hAtts] at ha'
    obtain ⟨a, ha, hfa⟩ := List.mem_map.mp ha'
    exact ⟨a, ha, hfa.symm⟩
  have hmemS : ∀ r' ∈ s'.sessions, ∃ r ∈ s.sessions, r' = psiU r := by
    intro r' hr'
    rw [hSess] at hr'
    obtain ⟨r, hr, hfr⟩ := List.mem_map.mp hr'
    exact ⟨r, hr, hfr.symm⟩
  have hIdMap : s'.attendees.map Attendee.idStr = s.attendees.map Attendee.idStr := by
    rw [hAtts, List.map_map]
    refine List.map_congr_left ?_
    intro a _
    by_cases hid : a.idStr = aid <;>
      simp [Function.comp, hphiU, hid, Attendee.setPrefs_idStr]
  have hKeyMap : s'.sessions.map SessionRec.key = s.sessions.map SessionRec.key := by
    rw [hSess, List.map_map]
    refine List.map_congr_left ?_
    intro r _
    simp [Function.comp, hkeyU r]
  refine ⟨?_, ?_, ?_, ?_, ?_, ?_, ?_, ?_, ?_, (inv_unassign ⟨hwf.ids, hwf.nd⟩ h).2⟩
  · unfold UniqueIds
    rw [hIdMap]
    exact hwf.ids
  · rw [hKeyMap]
    exact hwf.keys
  · intro r' hr'
    obtain ⟨r, hr, rfl⟩ := hmemS r' hr'
    rw [hpsiU]
    by_cases hk : r.key = sk
    · simp only [if_pos hk]
      exact le_trans (List.length_filter_le _ _) (hwf.cap r hr)
    · simp only [if_neg hk]
      exact hwf.cap r hr
  · intro r' hr'
    obtain ⟨r, hr, rfl⟩ := hmemS r' hr'
    rw [hpsiU]
    by_cases hk : r.key = sk
    · simp only [if_pos hk]
      exact (hwf.mnodup r hr).filter _
    · simp only [if_neg hk]
      exact hwf.mnodup r hr
  · -- memberAssigned
    intro r' hr' x hx
    obtain ⟨r, hr, rfl⟩ := hmemS r' hr'
    have hxr : x ∈ r.attendees ∧ x ≠ aid ∨ x ∈ r.attendees := by
      rw [hpsiU] at hx
      by_cases hk : r.key = sk
      · simp only [if_pos hk] at hx
        have := List.of_mem_filter hx
        exact Or.inl ⟨List.mem_of_mem_filter hx, by simpa using this⟩
      · simp only [if_neg hk] at hx
        exact Or.inr hx
    have hxmem : x ∈ r.attendees := by
      rcases hxr with ⟨hm, _⟩ | hm <;> exact hm
    obtain ⟨a, ha, hid, p, hp, g2, hg2, hgs2⟩ := hwf.memberAssigned r hr x hxmem
    by_cases hida : a.idStr = aid
    · have haeq : a = att := hikey a ha hida
      subst haeq
      have hne : g2.session ≠ sk := by
        intro he
        have hrk : r.key = sk := hgs2.symm.trans he
        rw [hpsiU] at hx
        simp only [if_pos hrk] at hx
        have hxne := List.of_mem_filter hx
        simp only [decide_eq_true_eq] at hxne
        exact hxne (hid.symm.trans hattid)
      refine ⟨attU, ?_, by rw [hattU, Attendee.setPrefs_idStr]; exact hid, p,
        hsurv p hp g2 hg2 hne, g2, hg2, by rw [hgs2, hkeyU]⟩
      rw [hAtts]
      exact List.mem_map.mpr ⟨a, hattmem, hphiatt⟩
    · refine ⟨a, ?_, hid, p, hp, g2, hg2, by rw [hgs2, hkeyU]⟩
      rw [hAtts]
      exact List.mem_map.mpr ⟨a, ha, hphiother a hida⟩
  · -- assignedMember
    intro a' ha' p' hp' g' hg' r' hr' hk'
    obtain ⟨a, ha, rfl⟩ := hmemA a' ha'
    obtain ⟨r, hr, rfl⟩ := hmemS r' hr'
    rw [hkeyU] at hk'
    by_cases hida : a.idStr = aid
    · have haeq : a = att := hikey a ha hida
      subst haeq
      rw [hphiatt] at hp' ⊢
      rcases hUmem p' hp' with rfl | ⟨hor, hpatt⟩
      · rw [Option.mem_def] at hg'
        exact absurd hg' (by simp)
      · have hne : g'.session ≠ sk := hnosk p' hor g' hg'
        have hmem := hwf.assignedMember a hattmem p' hpatt g' hg' r hr hk'
        rw [hattU, Attendee.setPrefs_idStr]
        rw [hpsiU]
        by_cases hk : r.key = sk
        · exact absurd (hk'.symm.trans hk) hne
        · simp only [if_neg hk]
          exact hmem
    · rw [hphiother a hida] at hp' ⊢
      have hmem := hwf.assignedMember a ha p' hp' g' hg' r hr hk'
      rw [hpsiU]
      by_cases hk : r.key = sk
      · simp only [if_pos hk]
        refine List.mem_filter.mpr ⟨hmem, ?_⟩
        simp only [decide_eq_true_eq]
        intro he
        exact hida he
      · simp only [if_neg hk]
        exact hmem
  · -- sessExists
    intro a' ha' p' hp' g' hg'
    obtain ⟨a, ha, rfl⟩ := hmemA a' ha'
    by_cases hida : a.idStr = aid
    · have haeq : a = att := hikey a ha hida
      subst haeq
      rw [hphiatt] at hp'
      rcases hUmem p' hp' with rfl | ⟨_, hpatt⟩
      · rw [Option.mem_def] at hg'
        exact absurd hg' (by simp)
      · obtain ⟨r, hr, hk⟩ := hwf.sessExists a hattmem p' hpatt g' hg'
        refine ⟨psiU r, ?_, by rw [hkeyU, hk]⟩
        rw [hSess]
        exact List.mem_map.mpr ⟨r, hr, rfl⟩
    · rw [hphiother a hida] at hp'
      obtain ⟨r, hr, hk⟩ := hwf.sessExists a ha p' hp' g' hg'
      refine ⟨psiU r, ?_, by rw [hkeyU, hk]⟩
      rw [hSess]
      exact List.mem_map.mpr ⟨r, hr, rfl⟩
  · -- topicOk
    intro a' ha' p' hp' g' hg'
    obtain ⟨a, ha, rfl⟩ := hmemA a' ha'
    by_cases hida : a.idStr = aid
    · have haeq : a = att := hikey a ha hida
      subst haeq
      rw [hphiatt] at hp'
      rcases hUmem p' hp' with rfl | ⟨_, hpatt⟩
      · rw [Option.mem_def] at hg'
        exact absurd hg' (by simp)
      · exact hwf.topicOk a hattmem p' hpatt g' hg'
    · rw [hphiother a hida] at hp'
      exact hwf.topicOk a ha p' hp' g' hg'
  · -- firstOfTopic
    intro a' ha'
    obtain ⟨a, ha, rfl⟩ := hmemA a' ha'
    by_cases hida : a.idStr = aid
    · have haeq : a = att := hikey a ha hida
      subst haeq
      rw [hphiatt, hattU]
      show (l1 ++ ⟨pref0.topic, none⟩ :: l2).Pairwise _
      have horig := hwf.firstOfTopic a hattmem
      rw [hsplit, List.pairwise_append] at horig
      obtain ⟨hpw1, hpw2, hcross⟩ := horig
      rw [List.pairwise_cons] at hpw2
      rw [List.pairwise_append]
      refine ⟨hpw1, ?_, ?_⟩
      · rw [List.pairwise_cons]
        refine ⟨?_, hpw2.2⟩
        intro y hy hys
        exact hpw2.1 y hy hys
      · intro x hx y hy
        rcases List.mem_cons.mp hy with rfl | hy
        · intro hsome
          simp at hsome
        · intro hsome
          exact hcross x hx y (List.mem_cons_of_mem _ hy) hsome
    · rw [hphiother a hida]
      exact hwf.firstOfTopic a ha

theorem wf_assign_session {s s' : Sched} {aid : String} {sk : SessionKey} {imm : Bool}
    (hwf : WF s) (h : s.assign_session aid sk imm = .ok s') : WF s' := by
  obtain ⟨att, sess, pref, hatt0, hslot, hsess0, hcap, hf, hpa, hres⟩ := assign_session_ok h
  have hattid : att.idStr = aid := by simpa using List.find?_some hatt0
  have hattmem : att ∈ s.attendees := List.mem_of_find?_eq_some hatt0
  have hikey := attendee_eq_of_id hwf.ids hatt0
  have hsessmem : sess ∈ s.sessions := List.mem_of_find?_eq_some hsess0
  have hsesskey : sess.key = sk := by simpa using List.find?_some hsess0
  have hskey := session_eq_of_key hwf.keys hsess0
  set selT : Preference → Bool := fun p => decide (p.topic = sk.topic) with hselT
  obtain ⟨l1, l2, hsplit, hl1, hselp⟩ := find?_split hf
  have hpreftopic : pref.topic = sk.topic := by simpa [hselT] using hselp
  have hprefnone : pref.assignment = none := (assigned_false_iff pref).mp hpa
  have hl1topics : ∀ p ∈ l1, p.topic ≠ sk.topic := by
    intro p hp
    have := hl1 p hp
    simpa [hselT] using this
  set v : Assignment := ⟨sk, imm⟩ with hv
  set phiA : Attendee → Attendee := fun a =>
    if a.idStr = aid then a.setPrefs (setFirstPref selT (some v) a.preferences) else a
    with hphiA
  set psiA : SessionRec → SessionRec := fun r =>
    if r.key = sk then { r with attendees := r.attendees ++ [aid] } else r with hpsiA
  have hAtts : s'.attendees = s.attendees.map phiA := by
    rw [hres]
    simp [assignResult, Sched.updAttendee, hphiA]
  have hSess : s'.sessions = s.sessions.map psiA := by
    rw [hres]
    simp [assignResult, Sched.updSession, hpsiA]
  have hP0 : setFirstPref selT (some v) att.preferences =
      l1 ++ ⟨pref.topic, some v⟩ :: l2 := by
    rw [hsplit]
    exact setFirstPref_append hl1 hselp
  set attA : Attendee := att.setPrefs (l1 ++ ⟨pref.topic, some v⟩ :: l2) with hattA
  have hphiatt : phiA att = attA := by
    rw [hphiA]
    simp only [if_pos hattid]
    rw [hP0]
  have hphiother : ∀ a : Attendee, a.idStr ≠ aid → phiA a = a := by
    intro a hid
    rw [hphiA]
    simp [hid]
  have hkeyA : ∀ r : SessionRec, (psiA r).key = r.key := by
    intro r
    rw [hpsiA]
    by_cases hk : r.key = sk
    · simp only [if_pos hk]
      rfl
    · simp only [if_neg hk]
  have hmemA : ∀ a' ∈ s'.attendees, ∃ a ∈ s.attendees, a' = phiA a := by
    intro a' ha'
    rw [hAtts] at ha'
    obtain ⟨a, ha, hfa⟩ := List.mem_map.mp ha'
    exact ⟨a, ha, hfa.symm⟩
  have hmemS : ∀ r' ∈ s'.sessions, ∃ r ∈ s.sessions, r' = psiA r := by
    intro r' hr'
    rw [hSess] at hr'
    obtain ⟨r, hr, hfr⟩ := List.mem_map.mp hr'
    exact ⟨r, hr, hfr.symm⟩
  have hIdMap : s'.attendees.map Attendee.idStr = s.attendees.map Attendee.idStr := by
    rw [hAtts, List.map_map]
    refine List.map_congr_left ?_
    intro a _
    by_cases hid : a.idStr = aid <;>
      simp [Function.comp, hphiA, hid, Attendee.setPrefs_idStr]
  have hKeyMap : s'.sessions.map SessionRec.key = s.sessions.map SessionRec.key := by
    rw [hSess, List.map_map]
    refine List.map_congr_left ?_
    intro r _
    simp [Function.comp, hkeyA r]
  have hnotmem : aid ∉ sess.attendees := by
    intro hmem
    obtain ⟨a, ha, hid, p, hp, g2, hg2, hgs2⟩ := hwf.memberAssigned sess hsessmem aid hmem
    have haeq := hikey a ha hid
    subst haeq
    have hall := hasSlotAt_false_iff.mp hslot
    have hg2m : g2 ∈ a.preferences.filterMap (fun p => p.assignment) :=
      List.mem_filterMap.mpr ⟨p, hp, Option.mem_def.mp hg2⟩
    exact hall g2 hg2m (by rw [hgs2, hsesskey])
  have hAprefs : attA.preferences = l1 ++ ⟨pref.topic, some v⟩ :: l2 := rfl
  have hAmem : ∀ p' ∈ attA.preferences,
      p' = ⟨pref.topic, some v⟩ ∨ ((p' ∈ l1 ∨ p' ∈ l2) ∧ p' ∈ att.preferences) := by
    intro p' hp'
    rw [hAprefs] at hp'
    rcases List.mem_append.mp hp' with hp' | hp'
    · exact Or.inr ⟨Or.inl hp', by rw [hsplit]; exact List.mem_append_left _ hp'⟩
    · rcases List.mem_cons.mp hp' with rfl | hp'
      · exact Or.inl rfl
      · exact Or.inr ⟨Or.inr hp', by
          rw [hsplit]
          exact List.mem_append_right _ (List.mem_cons_of_mem _ hp')⟩
  have hsurv : ∀ p ∈ att.preferences, ∀ g2 ∈ p.assignment, p ∈ attA.preferences := by
    intro p hp g2 hg2
    rw [hsplit] at hp
    rw [hAprefs]
    rcases List.mem_append.mp hp with hp | hp
    · exact List.mem_append_left _ hp
    · rcases List.mem_cons.mp hp with rfl | hp
      · rw [Option.mem_def, hprefnone] at hg2
        exact Option.noConfusion hg2
      · exact List.mem_append_right _ (List.mem_cons_of_mem _ hp)
  have hfwd : ∀ a ∈ s.attendees, ∀ p ∈ a.preferences, ∀ g2 ∈ p.assignment,
      ∃ a' ∈ s'.attendees, a'.idStr = a.idStr ∧ ∃ p' ∈ a'.preferences,
        g2 ∈ p'.assignment := by
    intro a ha p hp g2 hg2
    by_cases hida : a.idStr = aid
    · have haeq := hikey a ha hida
      subst haeq
      refine ⟨attA, ?_, by rw [hattA, Attendee.setPrefs_idStr], p,
        hsurv p hp g2 hg2, hg2⟩
      rw [hAtts]
      exact List.mem_map.mpr ⟨a, ha, hphiatt⟩
    · refine ⟨a, ?_, rfl, p, hp, hg2⟩
      rw [hAtts]
      exact List.mem_map.mpr ⟨a, ha, hphiother a hida⟩
  have hattAmem : attA ∈ s'.attendees := by
    rw [hAtts]
    exact List.mem_map.mpr ⟨att, hattmem, hphiatt⟩
  have hattAid : attA.idStr = aid := by
    rw [hattA, Attendee.setPrefs_idStr]
    exact hattid
  refine ⟨?_, ?_, ?_, ?_, ?_, ?_, ?_, ?_, ?_, (inv_assign_session ⟨hwf.ids, hwf.nd⟩ h).2⟩
  · unfold UniqueIds
    rw [hIdMap]
    exact hwf.ids
  · rw [hKeyMap]
    exact hwf.keys
  · intro r' hr'
    obtain ⟨r, hr, rfl⟩ := hmemS r' hr'
    rw [hpsiA]
    by_cases hk : r.key = sk
    · simp only [if_pos hk]
      have hrs := hskey r hr hk
      subst hrs
      simp only [List.length_append, List.length_singleton]
      omega
    · simp only [if_neg hk]
      exact hwf.cap r hr
  · intro r' hr'
    obtain ⟨r, hr, rfl⟩ := hmemS r' hr'
    rw [hpsiA]
    by_cases hk : r.key = sk
    · simp only [if_pos hk]
      have hrs := hskey r hr hk
      subst hrs
      rw [List.nodup_append]
      refine ⟨hwf.mnodup r hr, List.nodup_singleton _, ?_⟩
      intro x hx hx'
      rw [List.mem_singleton] at hx'
      subst hx'
      exact hnotmem hx
    · simp only [if_neg hk]
      exact hwf.mnodup r hr
  · -- memberAssigned
    intro r' hr' x hx
    obtain ⟨r, hr, rfl⟩ := hmemS r' hr'
    rw [hpsiA] at hx
    by_cases hk : r.key = sk
    · simp only [if_pos hk] at hx
      rcases List.mem_append.mp hx with hx | hx
      · obtain ⟨a, ha, hid, p, hp, g2, hg2, hgs2⟩ := hwf.memberAssigned r hr x hx
        obtain ⟨a', ha', hid', p', hp', hg2'⟩ := hfwd a ha p hp g2 hg2
        exact ⟨a', ha', hid'.trans hid, p', hp', g2, hg2', by rw [hkeyA]; exact hgs2⟩
      · rw [List.mem_singleton] at hx
        subst hx
        refine ⟨attA, hattAmem, hattAid, ⟨pref.topic, some v⟩, ?_, v, rfl, ?_⟩
        · rw [hAprefs]
          exact List.mem_append_right _ (List.mem_cons_self _ _)
        · rw [hkeyA, hk]
    · simp only [if_neg hk] at hx
      obtain ⟨a, ha, hid, p, hp, g2, hg2, hgs2⟩ := hwf.memberAssigned r hr x hx
      obtain ⟨a', ha', hid', p', hp', hg2'⟩ := hfwd a ha p hp g2 hg2
      exact ⟨a', ha', hid'.trans hid, p', hp', g2, hg2', by rw [hkeyA]; exact hgs2⟩
  · -- assignedMember
    intro a' ha' p' hp' g' hg' r' hr' hk'
    obtain ⟨a, ha, rfl⟩ := hmemA a' ha'
    obtain ⟨r, hr, rfl⟩ := hmemS r' hr'
    rw [hkeyA] at hk'
    by_cases hida : a.idStr = aid
    · have haeq := hikey a ha hida
      subst haeq
      rw [hphiatt] at hp' ⊢
      rcases hAmem p' hp' with rfl | ⟨_, hpatt⟩
      · rw [Option.mem_def] at hg'
        have hgv : g' = v := by
          injection hg' with hg'
          exact hg'.symm
        subst hgv
        have hrk : r.key = sk := by rw [hk']
        have hrs := hskey r hr hrk
        subst hrs
        rw [hattAid, hpsiA]
        simp only [if_pos hrk]
        exact List.mem_append_right _ (List.mem_singleton.mpr rfl)
      · have hmem := hwf.assignedMember a hattmem p' hpatt g' hg' r hr hk'
        rw [hattAid, ← hattid, hpsiA]
        by_cases hk : r.key = sk
        · simp only [if_pos hk]
          exact List.mem_append_left _ hmem
        · simp only [if_neg hk]
          exact hmem
    · rw [hphiother a hida] at hp' ⊢
      have hmem := hwf.assignedMember a ha p' hp' g' hg' r hr hk'
      rw [hpsiA]
      by_cases hk : r.key = sk
      · simp only [if_pos hk]
        exact List.mem_append_left _ hmem
      · simp only [if_neg hk]
        exact hmem
  · -- sessExists
    intro a' ha' p' hp' g' hg'
    obtain ⟨a, ha, rfl⟩ := hmemA a' ha'
    by_cases hida : a.idStr = aid
    · have haeq := hikey a ha hida
      subst haeq
      rw [hphiatt] at hp'
      rcases hAmem p' hp' with rfl | ⟨_, hpatt⟩
      · rw [Option.mem_def] at hg'
        have hgv : g' = v := by
          injection hg' with hg'
          exact hg'.symm
        subst hgv
        refine ⟨psiA sess, ?_, by rw [hkeyA, hsesskey]⟩
        rw [hSess]
        exact List.mem_map.mpr ⟨sess, hsessmem, rfl⟩
      · obtain ⟨r, hr, hkr⟩ := hwf.sessExists a hattmem p' hpatt g' hg'
        refine ⟨psiA r, ?_, by rw [hkeyA, hkr]⟩
        rw [hSess]
        exact List.mem_map.mpr ⟨r, hr, rfl⟩
    · rw [hphiother a hida] at hp'
      obtain ⟨r, hr, hkr⟩ := hwf.sessExists a ha p' hp' g' hg'
      refine ⟨psiA r, ?_, by rw [hkeyA, hkr]⟩
      rw [hSess]
      exact List.mem_map.mpr ⟨r, hr, rfl⟩
  · -- topicOk
    intro a' ha' p' hp' g' hg'
    obtain ⟨a, ha, rfl⟩ := hmemA a' ha'
    by_cases hida : a.idStr = aid
    · have haeq := hikey a ha hida
      subst haeq
      rw [hphiatt] at hp'
      rcases hAmem p' hp' with rfl | ⟨_, hpatt⟩
      · rw [Option.mem_def] at hg'
        have hgv : g' = v := by
          injection hg' with hg'
          exact hg'.symm
        subst hgv
        exact hpreftopic.symm
      · exact hwf.topicOk a hattmem p' hpatt g' hg'
    · rw [hphiother a hida] at hp'
      exact hwf.topicOk a ha p' hp' g' hg'
  · -- firstOfTopic
    intro a' ha'
    obtain ⟨a, ha, rfl⟩ := hmemA a' ha'
    by_cases hida : a.idStr = aid
    · have haeq := hikey a ha hida
      subst haeq
      rw [hphiatt, hattA]
      show (l1 ++ ⟨pref.topic, some v⟩ :: l2).Pairwise _
      have horig := hwf.firstOfTopic a hattmem
      rw [hsplit, List.pairwise_append] at horig
      obtain ⟨hpw1, hpw2, hcross⟩ := horig
      rw [List.pairwise_cons] at hpw2
      rw [List.pairwise_append]
      refine ⟨hpw1, ?_, ?_⟩
      · rw [List.pairwise_cons]
        refine ⟨?_, hpw2.2⟩
        intro y hy hys
        exact hpw2.1 y hy hys
      · intro x hx y hy
        rcases List.mem_cons.mp hy with rfl | hy
        · intro _
          show x.topic ≠ pref.topic
          rw [hpreftopic]
          exact hl1topics x hx
        · intro hsome
          exact hcross x hx y (List.mem_cons_of_mem _ hy) hsome
    · rw [hphiother a hida]
      exact hwf.firstOfTopic a ha

theorem trySessions_true {aid : String} {imm : Bool} {sks : List SessionKey} :
    ∀ {s s' : Sched}, s.trySessions aid imm sks = .ok (true, s') →
      ∃ sk, s.assign_session aid sk imm = .ok s' := by
  induction sks with
  | nil =>
    intro s s' h
    simp only [Sched.trySessions] at h
    injection h with h
    exact absurd (fst_eq_of_pair_eq h) (by simp)
  | cons sk rest ih =>
    intro s s' h
    simp only [Sched.trySessions] at h
    split at h
    · next t ht =>
      injection h with h
      exact ⟨sk, (snd_eq_of_pair_eq h) ▸ ht⟩
    · exact ih h
    · exact ih h
    · exact absurd h (by simp)

theorem scanPrefs_true {aid : String} {topic? : Option String} {imm : Bool}
    {ps : List Preference} :
    ∀ {s s' : Sched}, s.scanPrefs aid topic? imm ps = .ok (true, s') →
      ∃ sk, s.assign_session aid sk imm = .ok s' := by
  induction ps with
  | nil =>
    intro s s' h
    simp only [Sched.scanPrefs] at h
    injection h with h
    exact absurd (fst_eq_of_pair_eq h) (by simp)
  | cons p rest ih =>
    intro s s' h
    simp only [Sched.scanPrefs] at h
    split at h
    · exact ih h
    · split at h
      · exact ih h
      · split at h
        · next t ht =>
          injection h with h
          exact (snd_eq_of_pair_eq h) ▸ trySessions_true ht
        · exact ih h
        · exact absurd h (by simp)

theorem scanPrefs_false {aid : String} {topic? : Option String} {imm : Bool}
    {ps : List Preference} :
    ∀ {s s' : Sched}, s.scanPrefs aid topic? imm ps = .ok (false, s') →
      s' = s := by
  induction ps with
  | nil =>
    intro s s' h
    simp only [Sched.scanPrefs] at h
    injection h with h
    exact snd_eq_of_pair_eq h
  | cons p rest ih =>
    intro s s' h
    simp only [Sched.scanPrefs] at h
    split at h
    · exact ih h
    · split at h
      · exact ih h
      · split at h
        · next t ht =>
          injection h with h
          exact absurd (fst_eq_of_pair_eq h) (by simp)
        · exact ih h
        · exact absurd h (by simp)

theorem assign_false {s s' : Sched} {aid : String} {topic? : Option String}
    {imm : Bool} (h : s.assign aid topic? imm = .ok (false, s')) : s' = s := by
  unfold Sched.assign at h
  split at h
  · exact absurd h (by simp)
  · exact scanPrefs_false h

theorem assign_true_exists {s s' : Sched} {aid : String} {topic? : Option String}
    {imm : Bool} (h : s.assign aid topic? imm = .ok (true, s')) :
    ∃ sk, s.assign_session aid sk imm = .ok s' := by
  unfold Sched.assign at h
  split at h
  · exact absurd h (by simp)
  · exact scanPrefs_true h

theorem execActions_append (l1 l2 : List Action) :
    ∀ s : Sched, s.execActions (l1 ++ l2) =
      match s.execActions l1 with
      | .ok s' => s'.execActions l2
      | .error e => .error e := by
  induction l1 with
  | nil => intro s; rfl
  | cons a rest ih =>
    intro s
    cases hra : s.runAction a with
    | ok s1 =>
      simp only [List.cons_append, Sched.execActions, hra]
      exact ih s1
    | error e =>
      simp only [List.cons_append, Sched.execActions, hra]

theorem recordAction_history_cons {s : Sched} {nm : String} {F : List Action}
    {rest : List Frame} (hh : s.history = (nm, F) :: rest) (act : Action) :
    (s.recordAction act).history = (nm, F ++ [act]) :: rest := by
  unfold Sched.recordAction
  split
  · next h0 =>
    rw [hh] at h0
    exact absurd h0 (by simp)
  · next nm' acts' rest' h0 =>
    rw [hh] at h0
    injection h0 with hp hr
    injection hp with h1 h2
    show (nm', acts' ++ [act]) :: rest' = (nm, F ++ [act]) :: rest
    rw [← h1, ← h2, ← hr]

theorem assignResult_history {s : Sched} {aid : String} {sk : SessionKey}
    {imm : Bool} {nm : String} {F : List Action} {rest : List Frame}
    (hh : s.history = (nm, F) :: rest) :
    (assignResult s aid sk imm).history =
      (nm, F ++ [Action.unassignForce aid sk]) :: rest := by
  unfold assignResult
  exact recordAction_history_cons (by simp [hh]) _

theorem unassignResult_history {s : Sched} {aid : String} {sk : SessionKey}
    {imm0 : Bool} {nm : String} {F : List Action} {rest : List Frame}
    (hh : s.history = (nm, F) :: rest) :
    (unassignResult s aid sk imm0).history =
      (nm, F ++ [Action.reassign aid sk imm0]) :: rest := by
  unfold unassignResult
  exact recordAction_history_cons (by simp [hh]) _

theorem sessListEquiv_forall2 : ∀ {l m : List SessionRec}, SessListEquiv l m →
    List.Forall₂ (fun r q => r.topic = q.topic ∧ r.slot = q.slot ∧
      r.capacity = q.capacity ∧ ∀ x, x ∈ r.attendees ↔ x ∈ q.attendees) l m
  | [], [], _ => List.Forall₂.nil
  | _ :: _, [], h => False.elim h
  | [], _ :: _, h => False.elim h
  | _ :: _, _ :: _, ⟨h1, h2⟩ =>
    List.Forall₂.cons ⟨h1.1, h1.2.1, h1.2.2.1, fun _ => h1.2.2.2.mem_iff⟩
      (sessListEquiv_forall2 h2)

theorem runUOp_undo {s s1 : Sched} {op : UOp} {nm : String} {F : List Action}
    {rest : List Frame} (hwf : WF s) (hh : s.history = (nm, F) :: rest)
    (h : s.runUOp op = .ok s1) :
    WF s1 ∧ ∃ δ, s1.history = (nm, F ++ δ) :: rest ∧
      ∀ t, WF t → CoreEquiv t s1 →
        ∃ t', t.execActions δ.reverse = .ok t' ∧ CoreEquiv t' s ∧ WF t' ∧
          HistExt t t' := by
  cases op with
  | assignOp aid topic? imm =>
    simp only [Sched.runUOp] at h
    split at h
    · next b s2 has =>
      injection h with h
      subst h
      cases b with
      | false =>
        have hse := assign_false has
        subst hse
        refine ⟨hwf, [], by simp [hh], ?_⟩
        intro t hwt het
        exact ⟨t, rfl, het, hwt, histExt_refl t⟩
      | true =>
        obtain ⟨sk, hak⟩ := assign_true_exists has
        refine ⟨wf_assign_session hwf hak, [Action.unassignForce aid sk], ?_, ?_⟩
        · obtain ⟨_, _, _, _, _, _, _, _, _, hres⟩ := assign_session_ok hak
          rw [hres]
          exact assignResult_history hh
        · intro t hwt het
          obtain ⟨s'', hun, he1, he2, he3⟩ := assign_session_undo hwf hak
          obtain ⟨t', htun, hte⟩ := unassign_equiv het hun
          refine ⟨t', ?_, ?_, wf_unassign hwt htun, histExt_unassign htun⟩
          · simp [Sched.execActions, Sched.runAction, htun]
          · exact coreEquiv_trans hte ⟨he1, he2, by rw [he3]; exact sessListEquiv_refl _⟩
    · exact absurd h (by simp)
  | unassignOp aid sk force =>
    simp only [Sched.runUOp] at h
    obtain ⟨att, g, hatt0, hg0, himm0, hres⟩ := unassign_ok h
    refine ⟨wf_unassign hwf h, [Action.reassign aid sk g.immutable], ?_, ?_⟩
    · rw [hres]
      exact unassignResult_history hh
    · intro t hwt het
      obtain ⟨att', g', hatt', hg', s'', hassign, he1, he2, he3⟩ := unassign_undo hwf h
      have haa : att = att' := Option.some.inj (hatt0.symm.trans hatt')
      subst haa
      have hgg : g' = g := Option.some.inj (hg'.symm.trans hg0)
      subst hgg
      obtain ⟨t', htas, hte⟩ := assign_session_equiv het hassign
      refine ⟨t', ?_, ?_, wf_assign_session hwt htas, histExt_assign_session htas⟩
      · simp [Sched.execActions, Sched.runAction, htas]
      · exact coreEquiv_trans hte ⟨he1, he2, he3⟩

theorem runUOps_undo {nm : String} : ∀ {ops : List UOp} {s s' : Sched}
    {F : List Action} {rest : List Frame}, WF s → s.history = (nm, F) :: rest →
    s.runUOps ops = .ok s' →
    WF s' ∧ ∃ δ, s'.history = (nm, F ++ δ) :: rest ∧
      ∀ t, WF t → CoreEquiv t s' →
        ∃ t', t.execActions δ.reverse = .ok t' ∧ CoreEquiv t' s ∧ WF t' ∧
          HistExt t t' := by
  intro ops
  induction ops with
  | nil =>
    intro s s' F rest hwf hh h
    simp only [Sched.runUOps] at h
    injection h with h
    subst h
    refine ⟨hwf, [], by simp [hh], ?_⟩
    intro t hwt het
    exact ⟨t, rfl, het, hwt, histExt_refl t⟩
  | cons op ops' ih =>
    intro s s' F rest hwf hh h
    simp only [Sched.runUOps] at h
    split at h
    · next s1 h1 =>
      obtain ⟨hwf1, δ1, hh1, hu1⟩ := runUOp_undo hwf hh h1
      obtain ⟨hwf', δ2, hh2, hu2⟩ := ih hwf1 hh1 h
      refine ⟨hwf', δ1 ++ δ2, by rw [hh2, List.append_assoc], ?_⟩
      intro t hwt het
      obtain ⟨t2, hex2, he2, hwt2, hhe2⟩ := hu2 t hwt het
      obtain ⟨t1, hex1, he1, hwt1, hhe1⟩ := hu1 t2 hwt2 he2
      refine ⟨t1, ?_, he1, hwt1, histExt_trans hhe2 hhe1⟩
      rw [List.reverse_append, execActions_append, hex2]
      exact hex1
    · exact absurd h (by simp)

/-! ## C2: rollback exactness -/

/-- C2: from any well-formed state, `checkpoint(name)` followed by any
sequence of successful `assign`/`unassign` calls and then `rollback(name)`
succeeds, executing the recorded inverse actions in reverse order; it
restores the attendee records — hence every preference's assignment state
(presence, session, immutability flag) — and the time slots exactly,
restores every session to the same topic, slot, capacity and attendee
membership (the attendee list order may differ), and discards the frame,
leaving the original history: the whole sequence is a no-op from the
outside. -/
theorem C2_rollback_exactness (s0 : Sched) (hwf : WF s0) (nm : String)
    (ops : List UOp) (s2 : Sched)
    (hrun : (s0.checkpoint nm).runUOps ops = .ok s2) :
    ∃ s3, s2.rollback nm = .ok s3 ∧
      s3.attendees = s0.attendees ∧ s3.time_slots = s0.time_slots ∧
      s3.history = s0.history ∧ SessListEquiv s3.sessions s0.sessions ∧
      List.Forall₂ (fun r q => r.topic = q.topic ∧ r.slot = q.slot ∧
        r.capacity = q.capacity ∧ ∀ x, x ∈ r.attendees ↔ x ∈ q.attendees)
        s3.sessions s0.sessions := by
  have hwf1 : WF (s0.checkpoint nm) := by
    refine wf_of_core_eq ?_ ?_ hwf <;> rfl
  have hh1 : (s0.checkpoint nm).history = (nm, ([] : List Action)) :: s0.history := rfl
  obtain ⟨hwf2, δ, hh2, hu⟩ := runUOps_undo hwf1 hh1 hrun
  have hh2' : s2.history = (nm, δ) :: s0.history := by simpa using hh2
  obtain ⟨t', hex, hte, hwt', hhe⟩ := hu s2 hwf2 (coreEquiv_refl s2)
  have hdrop : t'.history.drop 1 = s0.history := by
    rcases hhe with ⟨hs2e, _⟩ | ⟨nm2, F2, G2, rest2, hsh, hth⟩
    · rw [hh2'] at hs2e
      exact absurd hs2e (by simp)
    · rw [hh2'] at hsh
      injection hsh with hp hr
      rw [hth]
      show rest2 = s0.history
      exact hr.symm
  refine ⟨{ t' with history := t'.history.drop 1 }, ?_, hte.1, hte.2.1, hdrop,
    hte.2.2, sessListEquiv_forall2 hte.2.2⟩
  simp [Sched.rollback, hh2', hex]

/-- C2 witness: on `exC2`, checkpoint "cp" followed by one successful
`assign` and one successful `unassign` reaches `exC2run`, and rolling back
restores attendees, time slots, history exactly and the sessions' membership. -/
theorem C2_rollback_exactness_witness :
    ∃ s3, exC2run.rollback "cp" = .ok s3 ∧
      s3.attendees = exC2.attendees ∧ s3.time_slots = exC2.time_slots ∧
      s3.history = exC2.history ∧ SessListEquiv s3.sessions exC2.sessions ∧
      List.Forall₂ (fun r q => r.topic = q.topic ∧ r.slot = q.slot ∧
        r.capacity = q.capacity ∧ ∀ x, x ∈ r.attendees ↔ x ∈ q.attendees)
        s3.sessions exC2.sessions :=
  C2_rollback_exactness exC2
    ⟨by decide, by decide, by decide, by decide, by decide, by decide, by decide,
     by decide, by decide, by decide⟩ "cp"
    [UOp.assignOp "O - D" none false, UOp.unassignOp "O - D" ⟨"U", "2"⟩ false]
    exC2run rfl

/-! ## Undo composition -/

theorem wf_checkpoint {s : Sched} (hwf : WF s) (nm : String) :
    WF (s.checkpoint nm) := by
  refine wf_of_core_eq ?_ ?_ hwf <;> rfl

theorem undoes_of_equiv {δ : List Action} {s0 u u' : Sched}
    (he : CoreEquiv u' u) (hu : Undoes δ s0 u) : Undoes δ s0 u' := by
  intro t hwt het
  exact hu t hwt (coreEquiv_trans het he)

theorem rollback_restores {s0 : Sched} (hwf : WF s0) {nm : String}
    {ops : List UOp} {s2 : Sched}
    (hrun : (s0.checkpoint nm).runUOps ops = .ok s2) :
    ∃ s3, s2.rollback nm = .ok s3 ∧ s3.attendees = s0.attendees ∧
      s3.time_slots = s0.time_slots ∧ s3.history = s0.history ∧
      SessListEquiv s3.sessions s0.sessions ∧ WF s3 := by
  have hwf1 : WF (s0.checkpoint nm) := wf_checkpoint hwf nm
  have hh1 : (s0.checkpoint nm).history = (nm, ([] : List Action)) :: s0.history := rfl
  obtain ⟨hwf2, δ, hh2, hu⟩ := runUOps_undo hwf1 hh1 hrun
  have hh2' : s2.history = (nm, δ) :: s0.history := by simpa using hh2
  obtain ⟨t', hex, hte, hwt', hhe⟩ := hu s2 hwf2 (coreEquiv_refl s2)
  have hdrop : t'.history.drop 1 = s0.history := by
    rcases hhe with ⟨hs2e, _⟩ | ⟨nm2, F2, G2, rest2, hsh, hth⟩
    · rw [hh2'] at hs2e
      exact absurd hs2e (by simp)
    · rw [hh2'] at hsh
      injection hsh with hp hr
      rw [hth]
      show rest2 = s0.history
      exact hr.symm
  refine ⟨{ t' with history := t'.history.drop 1 }, ?_, hte.1, hte.2.1, hdrop,
    hte.2.2, ?_⟩
  · simp [Sched.rollback, hh2', hex]
  · refine wf_of_core_eq ?_ ?_ hwt' <;> rfl

theorem swap_attempt_restore {u s2 s3 s4 s5 : Sched} {aid did : String}
    {gs : SessionKey} {b1 b2 : Bool} (hwf : WF u)
    (h2 : (u.checkpoint "swap inner").unassign did gs false = .ok s2)
    (h3 : s2.assign aid none false = .ok (b1, s3))
    (h4 : (if b1 then s3.assign did none false else .ok (false, s3)) = .ok (b2, s4))
    (h5 : s4.rollback "swap inner" = .ok s5) :
    WF s5 ∧ CoreEquiv s5 u ∧ s5.history = u.history := by
  have hrun : (u.checkpoint "swap inner").runUOps
      (UOp.unassignOp did gs false :: UOp.assignOp aid none false ::
        (if b1 then [UOp.assignOp did none false] else [])) = .ok s4 := by
    cases b1 with
    | true =>
      rw [if_pos rfl] at h4
      simp [Sched.runUOps, Sched.runUOp, h2, h3, h4]
    | false =>
      rw [if_neg (by simp)] at h4
      injection h4 with h4
      rw [snd_eq_of_pair_eq h4]
      simp [Sched.runUOps, Sched.runUOp, h2, h3]
  obtain ⟨s5', hrb, ha, ht, hh, hse, hwf5⟩ := rollback_restores hwf hrun
  rw [h5] at hrb
  injection hrb with hrb
  subst hrb
  exact ⟨hwf5, ⟨ha, ht, hse⟩, hh⟩

theorem swapTryCands_false {aid did : String} {oldScore : Option Nat}
    {outerCp : Option String} {cands : List Assignment} :
    ∀ {u s' : Sched}, WF u →
      Sched.swapTryCands aid did oldScore outerCp u cands = .ok (false, s') →
      WF s' ∧ CoreEquiv s' u ∧ s'.history = u.history := by
  induction cands with
  | nil =>
    intro u s' hwf h
    simp only [Sched.swapTryCands] at h
    injection h with h
    rw [snd_eq_of_pair_eq h]
    exact ⟨hwf, coreEquiv_refl u, rfl⟩
  | cons g rest ih =>
    intro u s' hwf h
    simp only [Sched.swapTryCands] at h
    split at h
    · exact ih hwf h
    · split at h
      · exact absurd h (by simp)
      · split at h
        · exact ih hwf h
        · split at h
          · exact ih hwf h
          · split at h
            · exact absurd h (by simp)
            next s2 hs2 =>
              split at h
              · split at h
                · exact absurd h (by simp)
                next b1 s3 hs3 =>
                  split at h
                  · exact absurd h (by simp)
                  next b2 s4 hs4 =>
                    split at h
                    · split at h
                      · exact absurd h (by simp)
                      next s5 hs5 =>
                        split at h
                        · split at h
                          · exact absurd h (by simp)
                          next s6 hs6 =>
                            injection h with h
                            exact absurd (fst_eq_of_pair_eq h) (by simp)
                        · injection h with h
                          exact absurd (fst_eq_of_pair_eq h) (by simp)
                    · split at h
                      · exact absurd h (by simp)
                      next s5 hs5 =>
                        obtain ⟨hwf5, he5, hh5⟩ :=
                          swap_attempt_restore hwf hs2 hs3 hs4 hs5
                        obtain ⟨hwf', he', hh'⟩ := ih hwf5 h
                        exact ⟨hwf', coreEquiv_trans he' he5, hh'.trans hh5⟩
              · exact absurd h (by simp)

theorem swapDonors_false_none {aid : String} {oldScore : Option Nat}
    {donors : List String} :
    ∀ {u s' : Sched}, WF u →
      Sched.swapDonors aid oldScore none u donors = .ok (false, s') →
      WF s' ∧ CoreEquiv s' u ∧ s'.history = u.history := by
  induction donors with
  | nil =>
    intro u s' hwf h
    simp only [Sched.swapDonors] at h
    injection h with h
    rw [snd_eq_of_pair_eq h]
    exact ⟨hwf, coreEquiv_refl u, rfl⟩
  | cons d rest ih =>
    intro u s' hwf h
    simp only [Sched.swapDonors] at h
    split at h
    · exact absurd h (by simp)
    · split at h
      · exact absurd h (by simp)
      next s'' hsc =>
        obtain ⟨hwf'', he'', hh''⟩ := swapTryCands_false hwf hsc
        obtain ⟨hwf', he', hh'⟩ := ih hwf'' h
        exact ⟨hwf', coreEquiv_trans he' he'', hh'.trans hh''⟩
      · exact absurd h (by simp)

theorem swapDonors_false_some {aid : String} {oldScore : Option Nat}
    {nm : String} {s0 : Sched} {δ : List Action} {donors : List String} :
    ∀ {u s' : Sched}, WF u → u.history = (nm, δ) :: s0.history →
      Undoes δ s0 u →
      Sched.swapDonors aid oldScore (some nm) u donors = .ok (false, s') →
      s'.attendees = s0.attendees ∧ s'.time_slots = s0.time_slots ∧
      SessListEquiv s'.sessions s0.sessions ∧ s'.history = s0.history ∧
      WF s' := by
  induction donors with
  | nil =>
    intro u s' hwf hh hund h
    simp only [Sched.swapDonors] at h
    split at h
    · exact absurd h (by simp)
    next t0 hrb =>
      injection h with h
      rw [snd_eq_of_pair_eq h]
      obtain ⟨t', hex, hte, hwt', hhe⟩ := hund u hwf (coreEquiv_refl u)
      have hdrop : t'.history.drop 1 = s0.history := by
        rcases hhe with ⟨hse, _⟩ | ⟨nm2, F2, G2, rest2, hsh, hth⟩
        · rw [hh] at hse
          exact absurd hse (by simp)
        · rw [hh] at hsh
          injection hsh with hp hr
          rw [hth]
          show rest2 = s0.history
          exact hr.symm
      have hrb' : u.rollback nm = .ok { t' with history := t'.history.drop 1 } := by
        simp [Sched.rollback, hh, hex]
      rw [hrb'] at hrb
      injection hrb with hrb
      rw [← hrb]
      refine ⟨hte.1, hte.2.1, hte.2.2, hdrop, ?_⟩
      refine wf_of_core_eq ?_ ?_ hwt' <;> rfl
  | cons d rest ih =>
    intro u s' hwf hh hund h
    simp only [Sched.swapDonors] at h
    split at h
    · exact absurd h (by simp)
    · split at h
      · exact absurd h (by simp)
      next s'' hsc =>
        obtain ⟨hwf'', he'', hh''⟩ := swapTryCands_false hwf hsc
        exact ih hwf'' (hh'' ▸ hh) (undoes_of_equiv he'' hund) h
      · exact absurd h (by simp)

/-! ## C5: swap atomicity -/

/-- C5 (amended): on a well-formed state, when `swap` returns `false` the
attendee records (hence every preference's assignment), the time slots and
the history are exactly the pre-call ones, and every session keeps its
topic, slot, capacity and attendee membership — but the state need not be
bit-identical: the internal checkpoint/rollback may reorder a session's
attendee list (see the counterexample). -/
theorem C5_swap_false_atomic (s : Sched) (hwf : WF s) (aid : String)
    (s' : Sched) (h : s.swap aid = .ok (false, s')) :
    s'.attendees = s.attendees ∧ s'.time_slots = s.time_slots ∧
    s'.history = s.history ∧ SessListEquiv s'.sessions s.sessions := by
  simp only [Sched.swap] at h
  split at h
  · exact absurd h (by simp)
  next att hatt =>
    split at h
    · split at h
      · exact absurd h (by simp)
      next worst tl heq =>
        split at h
        · injection h with h
          rw [snd_eq_of_pair_eq h]
          exact ⟨rfl, rfl, rfl, sessListEquiv_refl _⟩
        · split at h
          · exact absurd h (by simp)
          next s2 hs2 =>
            have hwfc : WF (s.checkpoint "swap outer") := wf_checkpoint hwf _
            have hhc : (s.checkpoint "swap outer").history =
                ("swap outer", ([] : List Action)) :: s.history := rfl
            have hrc : (s.checkpoint "swap outer").runUOp
                (UOp.unassignOp aid worst.session false) = .ok s2 := by
              simpa [Sched.runUOp] using hs2
            obtain ⟨hwf2, δ, hh2, hund0⟩ := runUOp_undo hwfc hhc hrc
            have hh2' : s2.history = ("swap outer", δ) :: s.history := by
              simpa using hh2
            have hund : Undoes δ s s2 := by
              intro t hwt het
              obtain ⟨t', hex, hte, hwt', hhe⟩ := hund0 t hwt het
              exact ⟨t', hex, coreEquiv_trans hte ⟨rfl, rfl, sessListEquiv_refl _⟩, hwt', hhe⟩
            obtain ⟨ha, ht, hse, hh', hwf'⟩ := swapDonors_false_some hwf2 hh2' hund h
            exact ⟨ha, ht, hh', hse⟩
    · obtain ⟨hwf', he', hh'⟩ := swapDonors_false_none hwf h
      exact ⟨he'.1, he'.2.1, hh', he'.2.2⟩

/-- C5 counterexample: on `exSwapPerm`, `swap "O - Bob"` returns `false` but
the resulting state is not bit-identical to the input — the session's
attendee list was reordered by the speculative attempt's rollback. -/
theorem C5_swap_false_atomic_counterexample :
    exSwapPerm.swap "O - Bob" = .ok (false, exSwapPermAfter) ∧
    exSwapPermAfter.sessions ≠ exSwapPerm.sessions ∧
    exSwapPermAfter ≠ exSwapPerm :=
  ⟨rfl, by decide, by decide⟩

/-- C5 witness: the amended theorem applied to `exSwapPerm`: the false swap
left attendees, time slots and history untouched and the session equivalent
up to attendee order. -/
theorem C5_swap_false_atomic_witness :
    exSwapPermAfter.attendees = exSwapPerm.attendees ∧
    exSwapPermAfter.time_slots = exSwapPerm.time_slots ∧
    exSwapPermAfter.history = exSwapPerm.history ∧
    SessListEquiv exSwapPermAfter.sessions exSwapPerm.sessions :=
  C5_swap_false_atomic exSwapPerm
    ⟨by decide, by decide, by decide, by decide, by decide, by decide, by decide,
     by decide, by decide, by decide⟩ "O - Bob" exSwapPermAfter rfl

/-! ## C8: commit folding -/

/-- C8: `commit` with a parent frame appends the top frame's recorded inverse
actions onto the parent without executing them (only the history changes) and
discards the top frame; `commit` of the only frame simply discards it; and
consequently, for a nested pair of checkpoints `A` then `B` with any
successful `assign`/`unassign` mutations under each, `commit(B)` followed by
`rollback(A)` undoes both groups of mutations, restoring attendees, time
slots and history exactly and every session's attendee membership. -/
theorem C8_commit_folding :
    (∀ (s : Sched) (nm pn : String) (acts pacts : List Action)
        (rest : List Frame),
        s.history = (nm, acts) :: (pn, pacts) :: rest →
        s.commit nm = .ok { s with history := (pn, pacts ++ acts) :: rest }) ∧
    (∀ (s : Sched) (nm : String) (acts : List Action),
        s.history = [(nm, acts)] →
        s.commit nm = .ok { s with history := [] }) ∧
    (∀ s0 : Sched, WF s0 → ∀ (nmA nmB : String) (ops1 ops2 : List UOp)
        (s2 s4 : Sched),
        (s0.checkpoint nmA).runUOps ops1 = .ok s2 →
        (s2.checkpoint nmB).runUOps ops2 = .ok s4 →
        ∃ s5, s4.commit nmB = .ok s5 ∧
          ∃ s6, s5.rollback nmA = .ok s6 ∧
            s6.attendees = s0.attendees ∧ s6.time_slots = s0.time_slots ∧
            s6.history = s0.history ∧ SessListEquiv s6.sessions s0.sessions) := by
  refine ⟨?_, ?_, ?_⟩
  · intro s nm pn acts pacts rest hh
    simp [Sched.commit, hh]
  · intro s nm acts hh
    simp [Sched.commit, hh]
  · intro s0 hwf nmA nmB ops1 ops2 s2 s4 hrun1 hrun2
    have hwfA : WF (s0.checkpoint nmA) := by
      refine wf_of_core_eq ?_ ?_ hwf <;> rfl
    have hhA : (s0.checkpoint nmA).history =
        (nmA, ([] : List Action)) :: s0.history := rfl
    obtain ⟨hwf2, δ1, hh2, hu1⟩ := runUOps_undo hwfA hhA hrun1
    have hh2' : s2.history = (nmA, δ1) :: s0.history := by simpa using hh2
    have hwfB : WF (s2.checkpoint nmB) := by
      refine wf_of_core_eq ?_ ?_ hwf2 <;> rfl
    have hhB : (s2.checkpoint nmB).history =
        (nmB, ([] : List Action)) :: (nmA, δ1) :: s0.history := by
      show (nmB, ([] : List Action)) :: s2.history = _
      rw [hh2']
    obtain ⟨hwf4, δ2, hh4, hu2⟩ := runUOps_undo hwfB hhB hrun2
    have hh4' : s4.history = (nmB, δ2) :: (nmA, δ1) :: s0.history := by
      simpa using hh4
    have hcommit : s4.commit nmB =
        .ok { s4 with history := (nmA, δ1 ++ δ2) :: s0.history } := by
      simp [Sched.commit, hh4']
    refine ⟨{ s4 with history := (nmA, δ1 ++ δ2) :: s0.history }, hcommit, ?_⟩
    have hwf5 : WF { s4 with history := (nmA, δ1 ++ δ2) :: s0.history } := by
      refine wf_of_core_eq ?_ ?_ hwf4 <;> rfl
    have he54 : CoreEquiv { s4 with history := (nmA, δ1 ++ δ2) :: s0.history } s4 :=
      ⟨rfl, rfl, sessListEquiv_refl _⟩
    obtain ⟨t2, hex2, hte2, hwt2, hhe2⟩ := hu2 _ hwf5 he54
    have hte2' : CoreEquiv t2 s2 := coreEquiv_trans hte2 ⟨rfl, rfl, sessListEquiv_refl _⟩
    obtain ⟨t1, hex1, hte1, hwt1, hhe1⟩ := hu1 t2 hwt2 hte2'
    have hexec : Sched.execActions
        { s4 with history := (nmA, δ1 ++ δ2) :: s0.history }
        (δ2.reverse ++ δ1.reverse) = .ok t1 := by
      rw [execActions_append, hex2]
      exact hex1
    have hdrop : t1.history.drop 1 = s0.history := by
      have hht : HistExt { s4 with history := (nmA, δ1 ++ δ2) :: s0.history } t1 :=
        histExt_trans hhe2 hhe1
      rcases hht with ⟨hse, _⟩ | ⟨nm2, F2, G2, rest2, hsh, hth⟩
      · exact absurd hse (by simp)
      · injection hsh with hp hr
        rw [hth]
        show rest2 = s0.history
        exact hr.symm
    refine ⟨{ t1 with history := t1.history.drop 1 }, ?_, hte1.1, hte1.2.1,
      hdrop, hte1.2.2⟩
    simp [Sched.rollback, hexec]

/-- C8 witness: on `exC2`, checkpoint "A", one `assign`, checkpoint "B", one
`unassign`, then `commit "B"` folds the frame and `rollback "A"` undoes both
mutations. -/
theorem C8_commit_folding_witness :
    ∃ s5, exC2run4.commit "B" = .ok s5 ∧
      ∃ s6, s5.rollback "A" = .ok s6 ∧
        s6.attendees = exC2.attendees ∧ s6.time_slots = exC2.time_slots ∧
        s6.history = exC2.history ∧ SessListEquiv s6.sessions exC2.sessions :=
  C8_commit_folding.2.2 exC2
    ⟨by decide, by decide, by decide, by decide, by decide, by decide, by decide,
     by decide, by decide, by decide⟩ "A" "B"
    [UOp.assignOp "O - D" none false] [UOp.unassignOp "O - D" ⟨"U", "2"⟩ false]
    exC2run2 exC2run4 rfl rfl

/-! ## C9: immutability preservation -/

theorem keepsImm_of_attendees_eq {s s' : Sched}
    (h : s'.attendees = s.attendees) : KeepsImm s s' := by
  intro x i p g hp _ _
  unfold Sched.prefAt? at hp ⊢
  rw [findAttendee?_eq_of_attendees h]
  exact hp

theorem keepsImm_trans {s s' s'' : Sched} (h1 : KeepsImm s s')
    (h2 : KeepsImm s' s'') : KeepsImm s s'' := by
  intro x i p g hp hg himm
  exact h2 x i p g (h1 x i p g hp hg himm) hg himm

theorem get?_append_mid_ne {α : Type} {l1 l2 : List α} {a b c : α} {i : Nat}
    (h : (l1 ++ a :: l2).get? i = some c) (hne : c ≠ a) :
    (l1 ++ b :: l2).get? i = some c := by
  rcases lt_trichotomy i l1.length with hlt | heq | hgt
  · rw [List.get?_append hlt] at h
    rw [List.get?_append hlt]
    exact h
  · rw [List.get?_append_right (le_of_eq heq.symm), heq, Nat.sub_self] at h
    simp only [List.get?] at h
    exact absurd (Option.some.inj h).symm hne
  · have hle : l1.length ≤ i := le_of_lt hgt
    rw [List.get?_append_right hle] at h
    rw [List.get?_append_right hle]
    obtain ⟨k, hk⟩ : ∃ k, i - l1.length = k + 1 := ⟨i - l1.length - 1, by omega⟩
    rw [hk] at h ⊢
    simp only [List.get?] at h ⊢
    exact h

theorem keepsImm_assign_session {s s' : Sched} {aid : String} {sk : SessionKey}
    {imm : Bool} (h : s.assign_session aid sk imm = .ok s') : KeepsImm s s' := by
  obtain ⟨att, sess, pref, hatt0, hslot, hsess0, hcap, hf, hpa, hres⟩ :=
    assign_session_ok h
  have hprefnone : pref.assignment = none := (assigned_false_iff pref).mp hpa
  obtain ⟨l1, l2, hsplit, hl1, hselp⟩ := find?_split hf
  intro x i p g hp hg himm
  unfold Sched.prefAt? at hp ⊢
  have hA : s'.findAttendee? x =
      (s.updAttendee aid (fun a =>
        a.setPrefs (setFirstPref (fun p => decide (p.topic = sk.topic))
          (some ⟨sk, imm⟩) a.preferences))).findAttendee? x := by
    refine findAttendee?_eq_of_attendees ?_ x
    rw [hres]
    simp [assignResult, Sched.updAttendee]
  rw [hA, findAttendee?_updAttendee s aid x _ (fun a => Attendee.setPrefs_idStr a _)]
  cases hax : s.findAttendee? x with
  | none =>
    rw [hax] at hp
    exact absurd hp (by simp)
  | some a =>
    rw [hax] at hp
    simp only [Option.some_bind] at hp
    simp only [Option.map_some', Option.some_bind]
    by_cases hid : a.idStr = aid
    · rw [if_pos hid]
      have hxa : a.idStr = x := by simpa using List.find?_some hax
      have hxaid : x = aid := hxa.symm.trans hid
      subst hxaid
      have haatt : a = att := Option.some.inj (hax.symm.trans hatt0)
      subst haatt
      show (setFirstPref _ _ a.preferences).get? i = some p
      rw [hsplit, setFirstPref_append hl1 hselp]
      rw [hsplit] at hp
      refine get?_append_mid_ne hp ?_
      intro he
      rw [he, hprefnone] at hg
      exact Option.noConfusion hg
    · rw [if_neg hid]
      exact hp

theorem keepsImm_unassign {s s' : Sched} {aid : String} {sk : SessionKey}
    (h : s.unassign aid sk false = .ok s') : KeepsImm s s' := by
  obtain ⟨att, g0, hatt0, hg0, himm0, hres⟩ := unassign_ok h
  have hg0mut : g0.immutable = false := by
    cases hgi : g0.immutable with
    | false => rfl
    | true => exact absurd (himm0 hgi) (by simp)
  obtain ⟨l1, pref0, l2, hsplit, hl1none, hp0⟩ := findSome?_split hg0
  obtain ⟨hp0a, hgsk⟩ := prefAssignedTo_some hp0
  intro x i p g hp hg himm
  unfold Sched.prefAt? at hp ⊢
  have hA : s'.findAttendee? x =
      (s.updAttendee aid (fun a =>
        a.setPrefs (setFirstPref (fun p => (prefAssignedTo sk p).isSome)
          none a.preferences))).findAttendee? x := by
    refine findAttendee?_eq_of_attendees ?_ x
    rw [hres]
    simp [unassignResult, Sched.updAttendee]
  rw [hA, findAttendee?_updAttendee s aid x _ (fun a => Attendee.setPrefs_idStr a _)]
  cases hax : s.findAttendee? x with
  | none =>
    rw [hax] at hp
    exact absurd hp (by simp)
  | some a =>
    rw [hax] at hp
    simp only [Option.some_bind] at hp
    simp only [Option.map_some', Option.some_bind]
    by_cases hid : a.idStr = aid
    · rw [if_pos hid]
      have hxa : a.idStr = x := by simpa using List.find?_some hax
      have hxaid : x = aid := hxa.symm.trans hid
      subst hxaid
      have haatt : a = att := Option.some.inj (hax.symm.trans hatt0)
      subst haatt
      show (setFirstPref _ _ a.preferences).get? i = some p
      have hP0 : setFirstPref (fun p => (prefAssignedTo sk p).isSome) none
          a.preferences = l1 ++ ⟨pref0.topic, none⟩ :: l2 := by
        rw [hsplit]
        refine setFirstPref_append ?_ ?_
        · intro q hq
          simp [hl1none q hq]
        · simp [hp0]
      rw [hP0]
      rw [hsplit] at hp
      refine get?_append_mid_ne hp ?_
      intro he
      rw [he, hp0a] at hg
      injection hg with hgg
      rw [← hgg, hg0mut] at himm
      exact Bool.noConfusion himm
    · rw [if_neg hid]
      exact hp

theorem keepsImm_assign {s s' : Sched} {aid : String} {topic? : Option String}
    {imm : Bool} {b : Bool} (h : s.assign aid topic? imm = .ok (b, s')) :
    KeepsImm s s' := by
  cases b with
  | false =>
    rw [assign_false h]
    exact keepsImm_of_attendees_eq rfl
  | true =>
    obtain ⟨sk, hak⟩ := assign_true_exists h
    exact keepsImm_assign_session hak

theorem wf_assign {s s' : Sched} {aid : String} {topic? : Option String}
    {imm : Bool} {b : Bool} (hwf : WF s)
    (h : s.assign aid topic? imm = .ok (b, s')) : WF s' := by
  cases b with
  | false =>
    rw [assign_false h]
    exact hwf
  | true =>
    obtain ⟨sk, hak⟩ := assign_true_exists h
    exact wf_assign_session hwf hak

theorem wf_execActions : ∀ {acts : List Action} {t t' : Sched}, WF t →
    t.execActions acts = .ok t' → WF t' := by
  intro acts
  induction acts with
  | nil =>
    intro t t' hwf h
    injection h with h
    exact h ▸ hwf
  | cons a rest ih =>
    intro t t' hwf h
    simp only [Sched.execActions] at h
    split at h
    · next t1 h1 =>
      refine ih ?_ h
      cases a with
      | reassign x sk imm => exact wf_assign_session hwf h1
      | unassignForce x sk => exact wf_unassign hwf h1
    · exact absurd h (by simp)

theorem keepsImm_execActions_reassign :
    ∀ {acts : List Action} {t t' : Sched},
      (∀ a ∈ acts, ∃ x sk imm, a = Action.reassign x sk imm) →
      t.execActions acts = .ok t' → KeepsImm t t' := by
  intro acts
  induction acts with
  | nil =>
    intro t t' _ h
    injection h with h
    rw [← h]
    exact keepsImm_of_attendees_eq rfl
  | cons a rest ih =>
    intro t t' hall h
    simp only [Sched.execActions] at h
    split at h
    · next t1 h1 =>
      obtain ⟨x, sk, imm, rfl⟩ := hall a (List.mem_cons_self _ _)
      exact keepsImm_trans (keepsImm_assign_session h1)
        (ih (fun a ha => hall a (List.mem_cons_of_mem _ ha)) h)
    · exact absurd h (by simp)

theorem swapTryCands_true_wf_keepsImm {aid did : String} {oldScore : Option Nat}
    {outerCp : Option String} {cands : List Assignment} :
    ∀ {u s' : Sched}, WF u →
      Sched.swapTryCands aid did oldScore outerCp u cands = .ok (true, s') →
      WF s' ∧ KeepsImm u s' := by
  induction cands with
  | nil =>
    intro u s' hwf h
    simp only [Sched.swapTryCands] at h
    injection h with h
    exact absurd (fst_eq_of_pair_eq h) (by simp)
  | cons g rest ih =>
    intro u s' hwf h
    simp only [Sched.swapTryCands] at h
    split at h
    · exact ih hwf h
    · split at h
      · exact absurd h (by simp)
      · split at h
        · exact ih hwf h
        · split at h
          · exact ih hwf h
          · split at h
            · exact absurd h (by simp)
            next s2 hs2 =>
              split at h
              · split at h
                · exact absurd h (by simp)
                next b1 s3 hs3 =>
                  split at h
                  · exact absurd h (by simp)
                  next b2 s4 hs4 =>
                    split at h
                    · split at h
                      · exact absurd h (by simp)
                      next s5 hs5 =>
                        have hwf2 : WF s2 := wf_unassign (wf_checkpoint hwf _) hs2
                        have hwf3 : WF s3 := wf_assign hwf2 hs3
                        have hwf4 : WF s4 := by
                          by_cases hb1 : b1 = true
                          · rw [if_pos hb1] at hs4
                            exact wf_assign hwf3 hs4
                          · rw [if_neg hb1] at hs4
                            injection hs4 with hs4
                            rw [snd_eq_of_pair_eq hs4]
                            exact hwf3
                        have hk2 : KeepsImm u s2 :=
                          keepsImm_trans (keepsImm_of_attendees_eq
                            (rfl : (u.checkpoint "swap inner").attendees =
                              u.attendees)) (keepsImm_unassign hs2)
                        have hk3 : KeepsImm u s3 := keepsImm_trans hk2 (keepsImm_assign hs3)
                        have hk4 : KeepsImm u s4 := by
                          by_cases hb1 : b1 = true
                          · rw [if_pos hb1] at hs4
                            exact keepsImm_trans hk3 (keepsImm_assign hs4)
                          · rw [if_neg hb1] at hs4
                            injection hs4 with hs4
                            rw [snd_eq_of_pair_eq hs4]
                            exact hk3
                        have hwf5 : WF s5 := by
                          have hc := commit_ok_core hs5
                          exact wf_of_core_eq hc.1 hc.2.2 hwf4
                        have hk5 : KeepsImm u s5 :=
                          keepsImm_trans hk4 (keepsImm_of_attendees_eq (commit_ok_core hs5).1)
                        split at h
                        · split at h
                          · exact absurd h (by simp)
                          next s6 hs6 =>
                            injection h with h
                            rw [snd_eq_of_pair_eq h]
                            have hc := commit_ok_core hs6
                            exact ⟨wf_of_core_eq hc.1 hc.2.2 hwf5,
                              keepsImm_trans hk5 (keepsImm_of_attendees_eq hc.1)⟩
                        · injection h with h
                          rw [snd_eq_of_pair_eq h]
                          exact ⟨hwf5, hk5⟩
                    · split at h
                      · exact absurd h (by simp)
                      next s5 hs5 =>
                        obtain ⟨hwf5, he5, hh5⟩ :=
                          swap_attempt_restore hwf hs2 hs3 hs4 hs5
                        obtain ⟨hwf', hk'⟩ := ih hwf5 h
                        exact ⟨hwf', keepsImm_trans (keepsImm_of_attendees_eq he5.1) hk'⟩
              · exact absurd h (by simp)

theorem swapDonors_wf_keepsImm {aid : String} {oldScore : Option Nat}
    {outerCp : Option String} {donors : List String} :
    ∀ {u s' : Sched} {b : Bool}, WF u →
      (∀ nm, outerCp = some nm → ∃ δ rest0, u.history = (nm, δ) :: rest0 ∧
        ∀ a ∈ δ, ∃ x sk imm, a = Action.reassign x sk imm) →
      Sched.swapDonors aid oldScore outerCp u donors = .ok (b, s') →
      WF s' ∧ KeepsImm u s' := by
  induction donors with
  | nil =>
    intro u s' b hwf hcp h
    simp only [Sched.swapDonors] at h
    split at h
    next nm =>
      split at h
      · exact absurd h (by simp)
      next t0 hrb =>
        injection h with h
        rw [snd_eq_of_pair_eq h]
        obtain ⟨δ, rest0, hh, hall⟩ := hcp nm rfl
        have hrbeq : u.rollback nm =
            match u.execActions δ.reverse with
            | .ok t1 => .ok { t1 with history := t1.history.drop 1 }
            | .error e => .error e := by
          simp [Sched.rollback, hh]
        rw [hrbeq] at hrb
        split at hrb
        · next t1 hex =>
          injection hrb with hrb
          have hwt1 : WF t1 := wf_execActions hwf hex
          have hk1 : KeepsImm u t1 :=
            keepsImm_execActions_reassign
              (fun a ha => hall a (List.mem_reverse.mp ha)) hex
          rw [← hrb]
          refine ⟨?_, keepsImm_trans hk1 (keepsImm_of_attendees_eq rfl)⟩
          refine wf_of_core_eq ?_ ?_ hwt1 <;> rfl
        · exact absurd hrb (by simp)
    next =>
      injection h with h
      rw [snd_eq_of_pair_eq h]
      exact ⟨hwf, keepsImm_of_attendees_eq rfl⟩
  | cons d rest ih =>
    intro u s' b hwf hcp h
    simp only [Sched.swapDonors] at h
    split at h
    · exact absurd h (by simp)
    · split at h
      · next t htc =>
        injection h with h
        rw [snd_eq_of_pair_eq h]
        exact swapTryCands_true_wf_keepsImm hwf htc
      · next t htc =>
        obtain ⟨hwft, het, hht⟩ := swapTryCands_false hwf htc
        obtain ⟨hwf', hk'⟩ := ih hwft (fun nm hnm => by
          obtain ⟨δ, rest0, hh, hall⟩ := hcp nm hnm
          exact ⟨δ, rest0, hht ▸ hh, hall⟩) h
        exact ⟨hwf', keepsImm_trans (keepsImm_of_attendees_eq het.1) hk'⟩
      · exact absurd h (by simp)

theorem swap_wf_keepsImm {s s' : Sched} {aid : String} {b : Bool} (hwf : WF s)
    (h : s.swap aid = .ok (b, s')) : WF s' ∧ KeepsImm s s' := by
  simp only [Sched.swap] at h
  split at h
  · exact absurd h (by simp)
  next att hatt =>
    split at h
    · split at h
      · exact absurd h (by simp)
      next worst tl heq =>
        split at h
        · injection h with h
          rw [snd_eq_of_pair_eq h]
          exact ⟨hwf, keepsImm_of_attendees_eq rfl⟩
        · split at h
          · exact absurd h (by simp)
          next s2 hs2 =>
            have hwfc : WF (s.checkpoint "swap outer") := wf_checkpoint hwf _
            have hwf2 : WF s2 := wf_unassign hwfc hs2
            have hk2 : KeepsImm s s2 :=
              keepsImm_trans (keepsImm_of_attendees_eq
                (rfl : (s.checkpoint "swap outer").attendees = s.attendees))
                (keepsImm_unassign hs2)
            obtain ⟨att0, g0, hatt0, hg0, himm0, hres⟩ := unassign_ok hs2
            have hck : (s.checkpoint "swap outer").history =
                ("swap outer", ([] : List Action)) :: s.history := rfl
            have hh2 : s2.history =
                ("swap outer",
                  [Action.reassign aid worst.session g0.immutable]) :: s.history := by
              rw [hres]
              simpa using unassignResult_history hck
            have hcp2 : ∀ nm, (some "swap outer" : Option String) = some nm →
                ∃ δ rest0, s2.history = (nm, δ) :: rest0 ∧
                  ∀ a ∈ δ, ∃ x sk imm, a = Action.reassign x sk imm := by
              intro nm hnm
              injection hnm with hnm
              refine ⟨[Action.reassign aid worst.session g0.immutable],
                s.history, ?_, ?_⟩
              · rw [← hnm]
                exact hh2
              · intro a ha
                rw [List.mem_singleton] at ha
                exact ⟨aid, worst.session, g0.immutable, ha⟩
            obtain ⟨hwf', hk'⟩ := swapDonors_wf_keepsImm hwf2 hcp2 h
            exact ⟨hwf', keepsImm_trans hk2 hk'⟩
    · have hcpn : ∀ nm, (none : Option String) = some nm →
          ∃ δ rest0, s.history = (nm, δ) :: rest0 ∧
            ∀ a ∈ δ, ∃ x sk imm, a = Action.reassign x sk imm :=
        fun nm hnm => Option.noConfusion hnm
      obtain ⟨hwf', hk'⟩ := swapDonors_wf_keepsImm hwf hcpn h
      exact ⟨hwf', hk'⟩

theorem phase1Go_wf_keepsImm {n : Nat} :
    ∀ {aids : List String} {s s' : Sched} {ro ro' : String → Int} {i : Nat},
      WF s → Sched.phase1Go n s ro i aids = .ok (s', ro') →
      WF s' ∧ KeepsImm s s' := by
  intro aids
  induction aids with
  | nil =>
    intro s s' ro ro' i hwf h
    simp only [Sched.phase1Go] at h
    injection h with h
    rw [fst_eq_of_pair_eq h]
    exact ⟨hwf, keepsImm_of_attendees_eq rfl⟩
  | cons aid rest ih =>
    intro s s' ro ro' i hwf h
    simp only [Sched.phase1Go] at h
    split at h
    · exact absurd h (by simp)
    · split at h
      · exact ih hwf h
      · split at h
        · exact ih hwf h
        · split at h
          · next b1 s1 h1 =>
            obtain ⟨hwf', hk'⟩ := ih (wf_assign hwf h1) h
            exact ⟨hwf', keepsImm_trans (keepsImm_assign h1) hk'⟩
          · exact absurd h (by simp)

theorem phase1Loop_wf_keepsImm {n : Nat} :
    ∀ {k : Nat} {s s' : Sched} {ro : String → Int},
      WF s → Sched.phase1Loop n k s ro = .ok s' → WF s' ∧ KeepsImm s s' := by
  intro k
  induction k with
  | zero =>
    intro s s' ro hwf h
    injection h with h
    rw [← h]
    exact ⟨hwf, keepsImm_of_attendees_eq rfl⟩
  | succ k ih =>
    intro s s' ro hwf h
    simp only [Sched.phase1Loop] at h
    split at h
    · next s1 ro1 h1 =>
      have h1' : Sched.phase1Go n s ro 0 _ = .ok (s1, ro1) := h1
      obtain ⟨hwf1, hk1⟩ := phase1Go_wf_keepsImm hwf h1'
      obtain ⟨hwf', hk'⟩ := ih hwf1 h
      exact ⟨hwf', keepsImm_trans hk1 hk'⟩
    · exact absurd h (by simp)

theorem fillGo_wf_keepsImm {n : Nat} :
    ∀ {aids : List String} {s s' : Sched} {changed c' : Bool}
      {called cal' : List String},
      WF s → Sched.fillGo n s changed called aids = .ok (c', cal', s') →
      WF s' ∧ KeepsImm s s' := by
  intro aids
  induction aids with
  | nil =>
    intro s s' changed c' called cal' hwf h
    simp only [Sched.fillGo] at h
    injection h with h
    rw [thd_eq_of_triple_eq h]
    exact ⟨hwf, keepsImm_of_attendees_eq rfl⟩
  | cons aid rest ih =>
    intro s s' changed c' called cal' hwf h
    simp only [Sched.fillGo] at h
    split at h
    · exact absurd h (by simp)
    · split at h
      · injection h with h
        rw [thd_eq_of_triple_eq h]
        exact ⟨hwf, keepsImm_of_attendees_eq rfl⟩
      · split at h
        · next b1 s1 h1 =>
          obtain ⟨hwf1, hk1⟩ := swap_wf_keepsImm hwf h1
          obtain ⟨hwf', hk'⟩ := ih hwf1 h
          exact ⟨hwf', keepsImm_trans hk1 hk'⟩
        · exact absurd h (by simp)

theorem fillPhase_wf_keepsImm {n : Nat} :
    ∀ {fuel : Nat} {s s' : Sched},
      WF s → Sched.fillPhase n fuel s = .ok s' → WF s' ∧ KeepsImm s s' := by
  intro fuel
  induction fuel with
  | zero =>
    intro s s' hwf h
    exact absurd h (by simp [Sched.fillPhase])
  | succ fuel ih =>
    intro s s' hwf h
    simp only [Sched.fillPhase] at h
    split at h
    · split at h
      · next c cal s1 h1 =>
        split at h
        · obtain ⟨hwf1, hk1⟩ := fillGo_wf_keepsImm hwf h1
          obtain ⟨hwf', hk'⟩ := ih hwf1 h
          exact ⟨hwf', keepsImm_trans hk1 hk'⟩
        · exact absurd h (by simp)
      · exact absurd h (by simp)
    · injection h with h
      rw [← h]
      exact ⟨hwf, keepsImm_of_attendees_eq rfl⟩

theorem improveInner_wf_keepsImm {cutoff : Nat} :
    ∀ {aids : List String} {s s' : Sched} {changed c' : Bool},
      WF s → Sched.improveInner cutoff s changed aids = .ok (c', s') →
      WF s' ∧ KeepsImm s s' := by
  intro aids
  induction aids with
  | nil =>
    intro s s' changed c' hwf h
    simp only [Sched.improveInner] at h
    injection h with h
    rw [snd_eq_of_pair_eq h]
    exact ⟨hwf, keepsImm_of_attendees_eq rfl⟩
  | cons aid rest ih =>
    intro s s' changed c' hwf h
    simp only [Sched.improveInner] at h
    split at h
    · exact absurd h (by simp)
    · split at h
      · exact absurd h (by simp)
      · split at h
        · exact ih hwf h
        · split at h
          · next b1 s1 h1 =>
            obtain ⟨hwf1, hk1⟩ := swap_wf_keepsImm hwf h1
            obtain ⟨hwf', hk'⟩ := ih hwf1 h
            exact ⟨hwf', keepsImm_trans hk1 hk'⟩
          · exact absurd h (by simp)

theorem improveLoop_wf_keepsImm {n : Nat} :
    ∀ {cuts : List Nat} {s s' : Sched},
      WF s → Sched.improveLoop n cuts s = .ok s' → WF s' ∧ KeepsImm s s' := by
  intro cuts
  induction cuts with
  | nil =>
    intro s s' hwf h
    injection h with h
    rw [← h]
    exact ⟨hwf, keepsImm_of_attendees_eq rfl⟩
  | cons cutoff rest ih =>
    intro s s' hwf h
    simp only [Sched.improveLoop] at h
    split at h
    · exact absurd h (by simp)
    · split at h
      · split at h
        · next c1 s1 h1 =>
          split at h
          · obtain ⟨hwf1, hk1⟩ := improveInner_wf_keepsImm hwf h1
            obtain ⟨hwf', hk'⟩ := ih hwf1 h
            exact ⟨hwf', keepsImm_trans hk1 hk'⟩
          · injection h with h
            obtain ⟨hwf1, hk1⟩ := improveInner_wf_keepsImm hwf h1
            rw [← h]
            exact ⟨hwf1, hk1⟩
        · exact absurd h (by simp)
      · exact ih hwf h

theorem schedule_wf_keepsImm {s s' : Sched} {fuel : Nat} (hwf : WF s)
    (h : s.schedule fuel = .ok s') : WF s' ∧ KeepsImm s s' := by
  simp only [Sched.schedule] at h
  split at h
  · exact absurd h (by simp)
  · next s1 h1 =>
    obtain ⟨hwf1, hk1⟩ := phase1Loop_wf_keepsImm hwf h1
    split at h
    · exact absurd h (by simp)
    · next s2 h2 =>
      obtain ⟨hwf2, hk2⟩ := fillPhase_wf_keepsImm hwf1 h2
      split at h
      · exact absurd h (by simp)
      · next maxPrefs h3 =>
        obtain ⟨hwf', hk'⟩ := improveLoop_wf_keepsImm hwf2 h
        exact ⟨hwf', keepsImm_trans (keepsImm_trans hk1 hk2) hk'⟩

/-- C9: on a well-formed state, immutability is never violated: an unforced
`unassign` aimed at an immutable assignment raises (RequiredToAttendError)
with the state unchanged; and whenever an unforced `unassign`, a `swap` or a
`schedule` run completes, every preference that held an immutable assignment
still holds it, unchanged at the same rank of the same attendee. -/
theorem C9_immutability (s : Sched) (hwf : WF s) :
    (∀ (aid : String) (sk : SessionKey) (att : Attendee) (g : Assignment),
      s.findAttendee? aid = some att →
      att.preferences.findSome? (prefAssignedTo sk) = some g →
      g.immutable = true →
      s.unassign aid sk false = .error (.requiredToAttend, s)) ∧
    (∀ aid sk s', s.unassign aid sk false = .ok s' → KeepsImm s s') ∧
    (∀ aid b s', s.swap aid = .ok (b, s') → KeepsImm s s') ∧
    (∀ fuel s', s.schedule fuel = .ok s' → KeepsImm s s') := by
  refine ⟨?_, ?_, ?_, ?_⟩
  · intro aid sk att g hatt hg himm
    simp only [Sched.unassign, hatt, hg]
    rw [if_pos (by simp [himm])]
  · intro aid sk s' h
    exact keepsImm_unassign h
  · intro aid b s' h
    exact (swap_wf_keepsImm hwf h).2
  · intro fuel s' h
    exact (schedule_wf_keepsImm hwf h).2

/-- C9 witness: on `exSwapPerm`, unforced `unassign` of Carol's immutable
assignment raises `RequiredToAttendError` leaving the state unchanged, and
the completed `swap "O - Bob"` run keeps every immutable assignment. -/
theorem C9_immutability_witness :
    exSwapPerm.unassign "O - Carol" ⟨"X", "S"⟩ false =
      .error (.requiredToAttend, exSwapPerm) ∧
    KeepsImm exSwapPerm exSwapPermAfter :=
  ⟨(C9_immutability exSwapPerm
      ⟨by decide, by decide, by decide, by decide, by decide, by decide,
       by decide, by decide, by decide, by decide⟩).1 "O - Carol" ⟨"X", "S"⟩
      ⟨"Carol", "O", [⟨"X", some ⟨⟨"X", "S"⟩, true⟩⟩]⟩ ⟨⟨"X", "S"⟩, true⟩
      rfl rfl rfl,
   (C9_immutability exSwapPerm
      ⟨by decide, by decide, by decide, by decide, by decide, by decide,
       by decide, by decide, by decide, by decide⟩).2.2.1 "O - Bob" false
      exSwapPermAfter rfl⟩

/-! ## C7: assign search order -/

theorem specTrySessions_append {s : Sched} {aid : String} {imm : Bool} :
    ∀ l1 l2 : List SessionKey, specTrySessions s aid imm (l1 ++ l2) =
      match specTrySessions s aid imm l1 with
      | .ok (true, s') => .ok (true, s')
      | .ok (false, _) => specTrySessions s aid imm l2
      | .error e => .error e := by
  intro l1 l2
  induction l1 with
  | nil => rfl
  | cons sk rest ih =>
    rw [List.cons_append]
    simp only [specTrySessions]
    split
    · rfl
    · exact ih
    · exact ih
    · rfl

theorem trySessions_eq_spec {s : Sched} {aid : String} {imm : Bool} :
    ∀ l : List SessionKey, s.trySessions aid imm l = specTrySessions s aid imm l := by
  intro l
  induction l with
  | nil => rfl
  | cons sk rest ih =>
    simp only [Sched.trySessions, specTrySessions]
    split
    · rfl
    · exact ih
    · exact ih
    · rfl

theorem scanPrefs_eq_spec {s : Sched} {aid : String} {topic? : Option String}
    {imm : Bool} :
    ∀ ps : List Preference, s.scanPrefs aid topic? imm ps =
      specTrySessions s aid imm
        ((ps.filter (fun p => !p.assigned && !topicMismatch topic? p)).flatMap
          (fun p => (sortOn lenLe (s.topicSessions p.topic)).map
            SessionRec.key)) := by
  intro ps
  induction ps with
  | nil => rfl
  | cons p rest ih =>
    simp only [Sched.scanPrefs]
    by_cases hpa : p.assigned = true
    · rw [if_pos hpa, List.filter_cons, if_neg (by simp [hpa])]
      exact ih
    · rw [if_neg hpa]
      by_cases htm : topicMismatch topic? p = true
      · rw [if_pos htm, List.filter_cons, if_neg (by
          simp only [Bool.and_eq_true, Bool.not_eq_true']
          intro hc
          exact absurd hc.2 (by simp [htm]))]
        exact ih
      · rw [if_neg htm, List.filter_cons, if_pos (by simp [hpa, htm])]
        rw [List.flatMap_cons, specTrySessions_append]
        rw [trySessions_eq_spec]
        split
        · rfl
        · exact ih
        · rfl

/-- C7: the public `assign` equals the specification program: scan the
preferences in rank order, keep exactly the eligible ones (unassigned and
topic-matching when a topic is given), for each try its topic's sessions in
ascending attendee-count order, swallowing `SlotConflict` and
`CapacityExceeded`, returning `true` at the first success; and a `false`
return leaves the state unchanged. -/
theorem C7_assign_search_order (s : Sched) (aid : String)
    (topic? : Option String) (imm : Bool) :
    s.assign aid topic? imm = assignSpec s aid topic? imm ∧
    (∀ s', s.assign aid topic? imm = .ok (false, s') → s' = s) := by
  constructor
  · unfold Sched.assign assignSpec
    cases s.findAttendee? aid with
    | none => rfl
    | some att => exact scanPrefs_eq_spec att.preferences
  · intro s' h
    exact assign_false h

/-- C7 witness: on `exSwapPerm` (Bob's only preference already assigned) the
implementation and the specification program agree, and the `false` return
leaves the state unchanged. -/
theorem C7_assign_search_order_witness :
    exSwapPerm.assign "O - Bob" none false =
      assignSpec exSwapPerm "O - Bob" none false ∧
    exSwapPerm = exSwapPerm :=
  ⟨(C7_assign_search_order exSwapPerm "O - Bob" none false).1,
   (C7_assign_search_order exSwapPerm "O - Bob" none false).2 exSwapPerm rfl⟩

/-! ## C4: the swap acceptance criterion -/

/-- C4 (amended): in `swap`, a candidate trade is committed if and only if
both reassignments succeed (`b1 && b2`) and either `old_score` is undefined
or `att2.score < old_score` and `datt2.score ≤ att2.score`, where `att2` and
`datt2` are the target's and donor's records read right after the donor's
unassignment and BEFORE the two reassignments — not "after the trade";
otherwise the nested checkpoint is rolled back and the next candidate is
tried. -/
theorem C4_swap_acceptance (aid did : String) (oldScore : Option Nat)
    (outerCp : Option String) (u : Sched) (g : Assignment)
    (rest : List Assignment) {att att2 datt2 : Attendee} {s2 s3 s4 : Sched}
    {b1 b2 : Bool}
    (hgimm : g.immutable = false)
    (hatt : u.findAttendee? aid = some att)
    (hwant : wantsTopicOpen att g.session.topic = true)
    (hslot : hasSlotAt att g.session.slot = false)
    (hun : (u.checkpoint "swap inner").unassign did g.session false = .ok s2)
    (hatt2 : s2.findAttendee? aid = some att2)
    (hdatt2 : s2.findAttendee? did = some datt2)
    (has1 : s2.assign aid none false = .ok (b1, s3))
    (has2 : (if b1 then s3.assign did none false else .ok (false, s3)) =
      .ok (b2, s4)) :
    Sched.swapTryCands aid did oldScore outerCp u (g :: rest) =
      if b1 && b2 && (match oldScore with
          | none => true
          | some old =>
            decide (att2.score < old) && decide (datt2.score ≤ att2.score))
      then
        match s4.commit "swap inner" with
        | .error e => .error e
        | .ok s5 =>
          match outerCp with
          | some nm =>
            match s5.commit nm with
            | .error e => .error e
            | .ok s6 => .ok (true, s6)
          | none => .ok (true, s5)
      else
        match s4.rollback "swap inner" with
        | .error e => .error e
        | .ok s5 => Sched.swapTryCands aid did oldScore outerCp s5 rest := by
  simp only [Sched.swapTryCands, hgimm, hatt, hwant, hslot, hun, hatt2, hdatt2,
    has1, has2, Bool.not_true, Bool.false_eq_true, if_false]

/-- C4 counterexample: on `exSwapGain` the swap is committed (`true`) even
though the target's score after the trade equals the score before it — the
"strictly less" comparison is made against the score read before the
reassignments, not after the trade. -/
theorem C4_swap_acceptance_counterexample :
    ∃ s', exSwapGain.swap "O - Bob" = .ok (true, s') ∧
      (s'.findAttendee? "O - Bob").map Attendee.score =
        (exSwapGain.findAttendee? "O - Bob").map Attendee.score :=
  ⟨exSwapGain, rfl, rfl⟩

/-- C4 witness: a concrete rejected candidate on `exC4` — both scores are
read after the unassignment (`att2`, `datt2` both score 0), the second
reassignment fails (`b2 = false`), so the trade is rolled back and the
search moves on, returning `false` with the state restored. -/
theorem C4_swap_acceptance_witness :
    Sched.swapTryCands "O - Bob" "O - Alice" none none exC4
      [⟨⟨"X", "S"⟩, false⟩] = .ok (false, exC4) :=
  (C4_swap_acceptance "O - Bob" "O - Alice" none none exC4 ⟨⟨"X", "S"⟩, false⟩
    [] rfl rfl rfl rfl rfl rfl rfl rfl rfl).trans (by rfl)

/-! ## C3: the fill phase -/

/-- C3 (amended): the fill phase loops while some attendee has fewer
assignments than `min(n, preference_count)`; each pass sorts the attendees
ascending by `(assignment_count, identity string)` (the key of `fillLe`) and
walks the sorted list, but it BREAKS at the first attendee whose assignment
count equals their `min(n, preference_count)` — later under-filled attendees
of the pass are not reached — calling `swap` on each attendee walked before
that point; `ScheduleFailure` is raised exactly when a pass produces no
successful swap. -/
theorem C3_fill_phase (s : Sched) (n fuel : Nat) :
    (s.attendees.any (underFilled n) = false →
      Sched.fillPhase n (fuel + 1) s = .ok s) ∧
    (∀ cal s', s.attendees.any (underFilled n) = true →
      s.fillPass n = .ok (false, cal, s') →
      Sched.fillPhase n (fuel + 1) s = .error (.scheduleFailure, s')) ∧
    (∀ cal s', s.attendees.any (underFilled n) = true →
      s.fillPass n = .ok (true, cal, s') →
      Sched.fillPhase n (fuel + 1) s = Sched.fillPhase n fuel s') ∧
    (s.fillPass n =
      Sched.fillGo n s false []
        ((sortOn fillLe s.attendees).map Attendee.idStr)) ∧
    (∀ aid rest att changed called, s.findAttendee? aid = some att →
      att.num_assignments = min n att.preferences.length →
      Sched.fillGo n s changed called (aid :: rest) = .ok (changed, called, s)) ∧
    (∀ aid rest att changed called, s.findAttendee? aid = some att →
      ¬ att.num_assignments = min n att.preferences.length →
      Sched.fillGo n s changed called (aid :: rest) =
        match s.swap aid with
        | .ok (b, s1) => Sched.fillGo n s1 (changed || b) (called ++ [aid]) rest
        | .error e => .error e) := by
  refine ⟨?_, ?_, ?_, rfl, ?_, ?_⟩
  · intro hany
    simp [Sched.fillPhase, hany]
  · intro cal s' hany hpass
    simp [Sched.fillPhase, hany, hpass]
  · intro cal s' hany hpass
    simp [Sched.fillPhase, hany, hpass]
  · intro aid rest att changed called hatt hnum
    simp [Sched.fillGo, hatt, hnum]
  · intro aid rest att changed called hatt hnum
    simp only [Sched.fillGo, hatt]
    rw [if_neg hnum]

/-- C3 counterexample: on `exFillBreak`, attendee `A` is full and sorts
first, attendee `B` is under-filled; the pass breaks at `A`, so `swap` is
called on nobody (the called list is empty) although `B` is under-filled,
and the phase raises `ScheduleFailure` without ever trying `B`. -/
theorem C3_fill_phase_counterexample :
    exFillBreak.fillPass 2 = .ok (false, [], exFillBreak) ∧
    exFillBreak.attendees.map (underFilled 2) = [false, true] ∧
    Sched.fillPhase 2 5 exFillBreak = .error (.scheduleFailure, exFillBreak) :=
  ⟨rfl, rfl, rfl⟩

/-- C3 witness: the amended theorem applied to `exFillBreak` — a pass with
no successful swap raises `ScheduleFailure`, and the walk stops at the full
attendee `A`, never reaching `B`. -/
theorem C3_fill_phase_witness :
    Sched.fillPhase 2 5 exFillBreak = .error (.scheduleFailure, exFillBreak) ∧
    Sched.fillGo 2 exFillBreak false [] ["O - A", "O - B"] =
      .ok (false, [], exFillBreak) :=
  ⟨(C3_fill_phase exFillBreak 2 4).2.1 [] exFillBreak (by decide) rfl,
   (C3_fill_phase exFillBreak 2 4).2.2.2.2.1 "O - A" ["O - B"]
     ⟨"A", "O", [⟨"TA", some ⟨⟨"TA", "S1"⟩, false⟩⟩]⟩ false [] rfl rfl⟩

/-- C1: assuming attendee identities are unique and the no-double-booking
invariant holds, every completed public operation — assign, unassign,
schedule, swap, checkpoint, commit, rollback — leaves a state in which, for
every attendee and every time slot, at most one of that attendee's
preferences holds an assignment whose session's time slot equals that slot. -/
theorem C1_no_double_booking (s : Sched) (h1 : UniqueIds s) (h2 : NoDouble s) :
    (∀ aid topic? imm b s', s.assign aid topic? imm = .ok (b, s') →
      AtMostOnePerSlot s') ∧
    (∀ aid sk force s', s.unassign aid sk force = .ok s' → AtMostOnePerSlot s') ∧
    (∀ fuel s', s.schedule fuel = .ok s' → AtMostOnePerSlot s') ∧
    (∀ aid b s', s.swap aid = .ok (b, s') → AtMostOnePerSlot s') ∧
    (∀ nm, AtMostOnePerSlot (s.checkpoint nm)) ∧
    (∀ nm s', s.commit nm = .ok s' → AtMostOnePerSlot s') ∧
    (∀ nm s', s.rollback nm = .ok s' → AtMostOnePerSlot s') := by
  have hinv : Inv s := ⟨h1, h2⟩
  refine ⟨?_, ?_, ?_, ?_, ?_, ?_, ?_⟩
  · intro aid topic? imm b s' h
    exact noDouble_atMostOne (inv_assign hinv h).2
  · intro aid sk force s' h
    exact noDouble_atMostOne (inv_unassign hinv h).2
  · intro fuel s' h
    exact noDouble_atMostOne (inv_schedule hinv h).2
  · intro aid b s' h
    exact noDouble_atMostOne (inv_swap hinv h).2
  · intro nm
    exact noDouble_atMostOne (inv_checkpoint nm hinv).2
  · intro nm s' h
    exact noDouble_atMostOne (inv_commit hinv h).2
  · intro nm s' h
    exact noDouble_atMostOne (inv_rollback hinv h).2

/-- C1 witness: the invariant hypotheses hold of the concrete example state,
and applying the swap component of the claim to its concrete successful run
yields the at-most-one-per-slot conclusion. -/
theorem C1_no_double_booking_witness : AtMostOnePerSlot exSwapGain :=
  (C1_no_double_booking exSwapGain (by decide) (by decide)).2.2.2.1 "O - Bob" true
    exSwapGain (by decide)

/-- C6: with the attendee and session resolved and the capacity assertion
satisfied, `_assign` raises `SlotConflict` exactly when the attendee already
holds an assignment in the session's time slot; otherwise `NoMoreSpace`
(CapacityExceeded) exactly when the session is at capacity; otherwise an
invalid-request error exactly when the attendee has no preference for the
session's topic or the (first) such preference is already assigned; and every
failure leaves the scheduler state unchanged. -/
theorem C6_assign_session_failures (s : Sched) (aid : String) (sk : SessionKey)
    (imm : Bool) (att : Attendee) (sess : SessionRec)
    (hatt : s.findAttendee? aid = some att)
    (hsess : s.findSession? sk = some sess)
    (hcap : sess.attendees.length ≤ sess.capacity) :
    ((∃ s', s.assign_session aid sk imm = .error (.slotConflict, s')) ↔
        SlotBooked att sk.slot) ∧
    (¬ SlotBooked att sk.slot →
      ((∃ s', s.assign_session aid sk imm = .error (.noMoreSpace, s')) ↔
        sess.attendees.length = sess.capacity)) ∧
    (¬ SlotBooked att sk.slot → sess.attendees.length ≠ sess.capacity →
      ((∃ e s', (e = Err.notAsked ∨ e = Err.alreadyAttending) ∧
          s.assign_session aid sk imm = .error (e, s')) ↔
        ((∀ p ∈ att.preferences, p.topic ≠ sk.topic) ∨
         (∃ p, att.preferences.find? (fun p => decide (p.topic = sk.topic)) = some p ∧
            p.assigned = true)))) ∧
    (∀ e s', s.assign_session aid sk imm = .error (e, s') → s' = s) := by
  have hnotlt : ¬ sess.capacity < sess.attendees.length := not_lt.mpr hcap
  by_cases hb : hasSlotAt att sk.slot = true
  · -- slot conflict
    have hres : s.assign_session aid sk imm = .error (.slotConflict, s) := by
      simp only [Sched.assign_session, hatt]
      rw [if_pos hb]
    have hsb : SlotBooked att sk.slot := hasSlotAt_iff.mp hb
    refine ⟨⟨fun _ => hsb, fun _ => ⟨s, hres⟩⟩,
      fun hnb => absurd hsb hnb, fun hnb => absurd hsb hnb, ?_⟩
    intro e s' h
    rw [hres] at h
    injection h with h1
    injection h1 with _ hs
    exact hs.symm
  · have hnsb : ¬ SlotBooked att sk.slot := fun hsb => hb (hasSlotAt_iff.mpr hsb)
    by_cases hlen : sess.attendees.length = sess.capacity
    · -- capacity exceeded
      have hres : s.assign_session aid sk imm = .error (.noMoreSpace, s) := by
        simp only [Sched.assign_session, hatt, hsess]
        rw [if_neg hb, if_neg hnotlt, if_pos hlen]
      refine ⟨⟨fun ⟨s', h⟩ => ?_, fun hsb => absurd hsb hnsb⟩,
        fun _ => ⟨fun _ => hlen, fun _ => ⟨s, hres⟩⟩,
        fun _ hne => absurd hlen hne, ?_⟩
      · rw [hres] at h
        simp at h
      · intro e s' h
        rw [hres] at h
        injection h with h1
        injection h1 with _ hs
        exact hs.symm
    · rcases hf : att.preferences.find? (fun p => decide (p.topic = sk.topic)) with _ | pref
      · -- no preference for the topic
        have hres : s.assign_session aid sk imm = .error (.notAsked, s) := by
          simp only [Sched.assign_session, hatt, hsess, hf]
          rw [if_neg hb, if_neg hnotlt, if_neg hlen]
        refine ⟨⟨fun ⟨s', h⟩ => ?_, fun hsb => absurd hsb hnsb⟩,
          fun _ => ⟨fun ⟨s', h⟩ => ?_, fun heq => absurd heq hlen⟩,
          fun _ _ => ⟨fun _ => Or.inl ?_, fun _ => ⟨.notAsked, s, Or.inl rfl, hres⟩⟩, ?_⟩
        · rw [hres] at h; simp at h
        · rw [hres] at h; simp at h
        · intro p hp
          have := List.find?_eq_none.mp hf p hp
          simpa using this
        · intro e s' h
          rw [hres] at h
          injection h with h1
          injection h1 with _ hs
          exact hs.symm
      · by_cases hpa : pref.assigned = true
        · -- preference already assigned
          have hres : s.assign_session aid sk imm = .error (.alreadyAttending, s) := by
            simp only [Sched.assign_session, hatt, hsess, hf]
            rw [if_neg hb, if_neg hnotlt, if_neg hlen, if_pos hpa]
          refine ⟨⟨fun ⟨s', h⟩ => ?_, fun hsb => absurd hsb hnsb⟩,
            fun _ => ⟨fun ⟨s', h⟩ => ?_, fun heq => absurd heq hlen⟩,
            fun _ _ => ⟨fun _ => Or.inr ⟨pref, hf, hpa⟩,
              fun _ => ⟨.alreadyAttending, s, Or.inr rfl, hres⟩⟩, ?_⟩
          · rw [hres] at h; simp at h
          · rw [hres] at h; simp at h
          · intro e s' h
            rw [hres] at h
            injection h with h1
            injection h1 with _ hs
            exact hs.symm
        · -- success
          have hok : ∃ t, s.assign_session aid sk imm = .ok t := by
            simp only [Sched.assign_session, hatt, hsess, hf]
            rw [if_neg hb, if_neg hnotlt, if_neg hlen, if_neg hpa]
            exact ⟨_, rfl⟩
          obtain ⟨t, ht⟩ := hok
          have hner : ∀ e s', ¬ s.assign_session aid sk imm = .error (e, s') := by
            intro e s' h
            rw [ht] at h
            simp at h
          have hmem : pref ∈ att.preferences := List.mem_of_find?_eq_some hf
          have htop : pref.topic = sk.topic := by
            have := List.find?_some hf
            simpa using this
          refine ⟨⟨fun ⟨s', h⟩ => absurd h (hner _ _), fun hsb => absurd hsb hnsb⟩,
            fun _ => ⟨fun ⟨s', h⟩ => absurd h (hner _ _), fun heq => absurd heq hlen⟩,
            fun _ _ => ⟨fun ⟨e, s', _, h⟩ => absurd h (hner _ _), fun hrhs => ?_⟩,
            fun e s' h => absurd h (hner _ _)⟩
          rcases hrhs with hall | ⟨p, hfp, hpassigned⟩
          · exact absurd htop (hall pref hmem)
          · rw [hf] at hfp
            injection hfp with hpe
            rw [← hpe] at hpassigned
            exact absurd hpassigned hpa

/-- C6 witness: the hypotheses hold of the concrete example (Bob, the `Y`
session at slot `S`), and the slot-conflict component applies. -/
theorem C6_assign_session_failures_witness :
    (∃ s', exSwapGain.assign_session "O - Bob" ⟨"Y", "S"⟩ false =
      .error (.slotConflict, s')) ↔ SlotBooked exBob "S" :=
  (C6_assign_session_failures exSwapGain "O - Bob" ⟨"Y", "S"⟩ false exBob exYS
    (by decide) (by decide) (by decide)).1

end EventScheduler
